import Mathlib

/-!
Verification of the radix-tree implementation (radix.go): a shallow
embedding of the data model and of the operations Insert, Get, Delete,
DeletePrefix, Walk, WalkPrefix, the post-order walk, longest-prefix
match and FirstNonIncludedPrefix, followed by theorems about them.

Keys are byte strings in Go; we model them as `List Char`.  Values are a
type parameter (Go `interface{}`).  Mutation through pointers is modelled
by explicit state passing: each operation returns the rebuilt node.
The Go field `prefix` is named `pfx` here.
-/

namespace Radix

/-- Stored key/value entry of a node (Go `LeafNode`). -/
structure LeafNode (α : Type) where
  key : List Char
  val : α
deriving DecidableEq

/-- A radix-tree node (Go `node`): an optional stored entry, the key
segment consumed between the parent and this node (Go field `prefix`),
and the ordered child edges, each a (label, child) pair (Go `edges`). -/
inductive Node (α : Type) : Type where
  | mk (leaf : Option (LeafNode α)) (pfx : List Char) (edges : List (Char × Node α)) : Node α

/-- Projection for the stored entry. -/
def Node.leaf {α : Type} : Node α → Option (LeafNode α)
  | .mk l _ _ => l

/-- Projection for the consumed key segment (Go field `prefix`). -/
def Node.pfx {α : Type} : Node α → List Char
  | .mk _ p _ => p

/-- Projection for the ordered child edges. -/
def Node.edges {α : Type} : Node α → List (Char × Node α)
  | .mk _ _ es => es

@[simp] theorem Node.leaf_mk {α : Type} (l : Option (LeafNode α)) (p : List Char)
    (es : List (Char × Node α)) : (Node.mk l p es).leaf = l := rfl

@[simp] theorem Node.pfx_mk {α : Type} (l : Option (LeafNode α)) (p : List Char)
    (es : List (Char × Node α)) : (Node.mk l p es).pfx = p := rfl

@[simp] theorem Node.edges_mk {α : Type} (l : Option (LeafNode α)) (p : List Char)
    (es : List (Char × Node α)) : (Node.mk l p es).edges = es := rfl

theorem Node.eta {α : Type} : ∀ n : Node α, Node.mk n.leaf n.pfx n.edges = n
  | .mk _ _ _ => rfl

/-- The tree (Go `Tree`): the root node and the running entry count. -/
structure Tree (α : Type) where
  root : Node α
  size : Int

/-- Go `New()` / `NewFromMap(nil)`: an empty root node and size zero. -/
def Tree.new {α : Type} : Tree α := ⟨Node.mk none [] [], 0⟩

/-- Go `Len`. -/
def Tree.len {α : Type} (t : Tree α) : Int := t.size

/-- Go `longestPrefix`: the length of the longest common prefix of two
keys (the loop that walks both strings while the symbols agree). -/
def longestPrefixLen : List Char → List Char → Nat
  | a :: as, b :: bs => if a = b then longestPrefixLen as bs + 1 else 0
  | _, _ => 0

/-- Go `getEdge`: `sort.Search` finds the least index whose label is not
below the searched label (the documented result of `sort.Search` on the
sorted edge list), and the edge there is returned when its label matches.
The scan below fuses that search with the final comparison. -/
def getEdge {α : Type} : List (Char × Node α) → Char → Option (Node α)
  | [], _ => none
  | (l, m) :: rest, c =>
    if c ≤ l then (if l = c then some m else none) else getEdge rest c

/-- Go `delEdge`: locate the label as in `getEdge` and remove that edge;
a missing label leaves the list unchanged. -/
def delEdge {α : Type} : List (Char × Node α) → Char → List (Char × Node α)
  | [], _ => []
  | (l, m) :: rest, c =>
    if c ≤ l then (if l = c then rest else (l, m) :: rest)
    else (l, m) :: delEdge rest c

/-- Go `updateEdge`: locate the label as in `getEdge` and replace the
child stored there.  Go panics on a missing label ("replacing missing
edge"); every call site below passes a label found by `getEdge`, so the
missing-label branch (which returns the list unchanged) is unreachable. -/
def updateEdge {α : Type} : List (Char × Node α) → Char → Node α → List (Char × Node α)
  | [], _, _ => []
  | (l, m) :: rest, c, m' =>
    if c ≤ l then (if l = c then (l, m') :: rest else (l, m) :: rest)
    else (l, m) :: updateEdge rest c m'

/-- Go `addEdge`: append the new edge and re-sort by label.  The call
sites only ever add a label that is not present, and the list is kept
sorted with distinct labels, so the sorted result is exactly the ordered
insertion below. -/
def addEdge {α : Type} : List (Char × Node α) → Char × Node α → List (Char × Node α)
  | [], e => [e]
  | (l, m) :: rest, e =>
    if e.1 < l then e :: (l, m) :: rest else (l, m) :: addEdge rest e

theorem sizeOf_lt_of_getEdge {α : Type} {es : List (Char × Node α)} {c : Char}
    {m : Node α} (h : getEdge es c = some m) : sizeOf m < sizeOf es := by
  induction es with
  | nil => simp [getEdge] at h
  | cons e rest ih =>
    obtain ⟨l, n⟩ := e
    simp only [getEdge] at h
    split at h
    · split at h
      · cases h
        simp
        omega
      · cases h
    · have := ih h
      simp
      omega

/-- Result of `Insert` at node level: the rebuilt node, the previous
value, whether the call was an update, and the size increment. -/
structure InsRes (α : Type) where
  node : Node α
  old : Option α
  updated : Bool
  delta : Int

/-- Go `Insert`, node level.  The Go loop descends from the root; each
iteration here is one recursive call carrying the remaining search key.
`s` is the full key (stored into new entries), `search` the unconsumed
part. -/
def insertAux {α : Type} (s : List Char) (v : α) : Node α → List Char → InsRes α
  | .mk lf p es, [] =>
    match lf with
    | some l => ⟨Node.mk (some ⟨l.key, v⟩) p es, some l.val, true, 0⟩
    | none => ⟨Node.mk (some ⟨s, v⟩) p es, none, false, 1⟩
  | .mk lf p es, c :: rest =>
    match hg : getEdge es c with
    | none =>
      ⟨Node.mk lf p (addEdge es (c, Node.mk (some ⟨s, v⟩) (c :: rest) [])), none, false, 1⟩
    | some child =>
      let common := longestPrefixLen (c :: rest) child.pfx
      if common = child.pfx.length then
        let r := insertAux s v child ((c :: rest).drop common)
        ⟨Node.mk lf p (updateEdge es c r.node), r.old, r.updated, r.delta⟩
      else
        -- Split the node: a new intermediate node takes the common prefix,
        -- the existing child is re-parented under it with its prefix
        -- shortened, and the new entry lands either on the intermediate
        -- node itself or on a second fresh child.
        let shortened := child.pfx.drop common
        let oldChild := Node.mk child.leaf shortened child.edges
        let midFinal :=
          match (c :: rest).drop common with
          | [] =>
            Node.mk (some ⟨s, v⟩) ((c :: rest).take common)
              (addEdge [] (shortened.headD c, oldChild))
          | c2 :: tl2 =>
            Node.mk none ((c :: rest).take common)
              (addEdge (addEdge [] (shortened.headD c, oldChild))
                (c2, Node.mk (some ⟨s, v⟩) (c2 :: tl2) []))
        ⟨Node.mk lf p (updateEdge es c midFinal), none, false, 1⟩
termination_by n _ => sizeOf n
decreasing_by
  have := sizeOf_lt_of_getEdge hg
  simp
  omega

/-- Go `Insert`, tree level. -/
def Tree.insert {α : Type} (t : Tree α) (s : List Char) (v : α) :
    Tree α × Option α × Bool :=
  let r := insertAux s v t.root s
  (⟨r.node, t.size + r.delta⟩, r.old, r.updated)

/-- Go `Get`, node level: descend consuming edges exactly; succeed only
when the key is fully consumed on a node with a stored entry. -/
def getAux {α : Type} : Node α → List Char → Option α
  | n, [] =>
    match n.leaf with
    | some l => some l.val
    | none => none
  | .mk _ _ es, c :: rest =>
    match hg : getEdge es c with
    | none => none
    | some child =>
      if child.pfx.isPrefixOf (c :: rest) then
        getAux child ((c :: rest).drop child.pfx.length)
      else none
termination_by n _ => sizeOf n
decreasing_by
  have := sizeOf_lt_of_getEdge hg
  simp
  omega

/-- Go `Get`, tree level: `(value, found)`. -/
def Tree.get {α : Type} (t : Tree α) (s : List Char) : Option α × Bool :=
  match getAux t.root s with
  | some v => (some v, true)
  | none => (none, false)

/-- Go `mergeChild`: fold the single remaining child into this node.  Go
indexes `n.edges[0]` and would panic on an empty edge list; the call
sites only merge nodes whose edge list has exactly one entry. -/
def mergeChild {α : Type} : Node α → Node α
  | .mk _ p [] => Node.mk none p []
  | .mk _ p ((_, child) :: _) => Node.mk child.leaf (p ++ child.pfx) child.edges

/-- Result of `Delete` below the root: not found, or the deleted entry's
value together with the rebuilt subtree.  `final` marks the frame whose
node held the deleted entry (`rep = none` when that node lost its last
edge and is detached from its parent); `done` marks completed frames
further up. -/
inductive DelStep (α : Type) where
  | notFound : DelStep α
  | final (rep : Option (Node α)) (v : α) : DelStep α
  | done (rep : Node α) (v : α) : DelStep α

/-- Go `Delete`, descent below the root.  The Go loop tracks the current
node, its parent and the edge label used; the fix-ups of the DELETE block
(detach an edge-less node, merge a one-edge node, merge the parent) are
applied here at the frame of the deleted node and at its parent's frame.
This function is only called on non-root nodes; the root frame lives in
`Tree.delete`. -/
def deleteAux {α : Type} : Node α → List Char → DelStep α
  | .mk lf p es, [] =>
    match lf with
    | none => .notFound
    | some l =>
      if es.length = 0 then .final none l.val
      else if es.length = 1 then .final (some (mergeChild (Node.mk none p es))) l.val
      else .final (some (Node.mk none p es)) l.val
  | .mk lf p es, c :: rest =>
    match hg : getEdge es c with
    | none => .notFound
    | some child =>
      if child.pfx.isPrefixOf (c :: rest) then
        match deleteAux child ((c :: rest).drop child.pfx.length) with
        | .notFound => .notFound
        | .final rep v =>
          let es' := match rep with
            | none => delEdge es c
            | some child' => updateEdge es c child'
          -- this frame's node is the deleted node's parent and is never the
          -- root here: Go merges it when it now has exactly one edge and no
          -- stored entry
          if es'.length = 1 && lf.isNone then .done (mergeChild (Node.mk lf p es')) v
          else .done (Node.mk lf p es') v
        | .done child' v => .done (Node.mk lf p (updateEdge es c child')) v
      else .notFound
termination_by n _ => sizeOf n
decreasing_by
  have := sizeOf_lt_of_getEdge hg
  simp
  omega

/-- Go `Delete`, tree level.  When the key exhausts at the root only the
root's entry is removed (the root is neither detached nor merged); when
the deleted node's parent is the root, the parent merge is skipped as in
Go (`parent != t.root`). -/
def Tree.delete {α : Type} (t : Tree α) (s : List Char) : Tree α × Option α × Bool :=
  match s with
  | [] =>
    match t.root.leaf with
    | none => (t, none, false)
    | some l => (⟨Node.mk none t.root.pfx t.root.edges, t.size - 1⟩, some l.val, true)
  | c :: rest =>
    match getEdge t.root.edges c with
    | none => (t, none, false)
    | some child =>
      if child.pfx.isPrefixOf (c :: rest) then
        match deleteAux child ((c :: rest).drop child.pfx.length) with
        | .notFound => (t, none, false)
        | .final rep v =>
          let es' := match rep with
            | none => delEdge t.root.edges c
            | some child' => updateEdge t.root.edges c child'
          (⟨Node.mk t.root.leaf t.root.pfx es', t.size - 1⟩, some v, true)
        | .done child' v =>
          (⟨Node.mk t.root.leaf t.root.pfx (updateEdge t.root.edges c child'), t.size - 1⟩,
            some v, true)
      else (t, none, false)

mutual

/-- Go `recursiveWalk`: pre-order walk threading the visitor's state
(`σ` models the state a Go closure captures); the Bool in the result
records whether the visitor asked to abort. -/
def recursiveWalk {α σ : Type} (fn : σ → List Char → α → σ × Bool) :
    Node α → σ → σ × Bool
  | .mk lf _ es, st =>
    match lf with
    | some l =>
      let r := fn st l.key l.val
      if r.2 then (r.1, true) else recursiveWalkList fn es r.1
    | none => recursiveWalkList fn es st
termination_by n _ => sizeOf n
decreasing_by
  all_goals simp
  all_goals omega

/-- Children loop of `recursiveWalk`, in edge order. -/
def recursiveWalkList {α σ : Type} (fn : σ → List Char → α → σ × Bool) :
    List (Char × Node α) → σ → σ × Bool
  | [], st => (st, false)
  | (_, m) :: rest, st =>
    let r := recursiveWalk fn m st
    if r.2 then (r.1, true) else recursiveWalkList fn rest r.1
termination_by es _ => sizeOf es
decreasing_by
  all_goals simp
  all_goals omega

end

/-- Go `Walk`: pre-order walk of the whole tree. -/
def Tree.walk {α σ : Type} (t : Tree α) (fn : σ → List Char → α → σ × Bool)
    (st : σ) : σ × Bool :=
  recursiveWalk fn t.root st

/-- Result of `deletePrefix` below the root: no node boundary matched
(`zero`), or the rebuilt subtree with the number of removed entries.
`final` marks the frame of the cleared node, `done` frames above it. -/
inductive DelPfxStep (α : Type) where
  | zero : DelPfxStep α
  | final (rep : Node α) (count : Int) : DelPfxStep α
  | done (rep : Node α) (count : Int) : DelPfxStep α

/-- Go `deletePrefix`, descent below the root.  On key exhaustion the
subtree's stored entries are counted with `recursiveWalk` (the Go
counting closure), the node's entry and edge list are cleared, and the
parent frame may merge itself.  This function is only called on non-root
nodes; the root frame lives in `Tree.deletePrefix`. -/
def deletePrefixAux {α : Type} : Node α → List Char → DelPfxStep α
  | .mk lf p es, [] =>
    let cnt := (recursiveWalk (fun (k : Int) _ _ => (k + 1, false)) (Node.mk lf p es) 0).1
    .final (Node.mk none p []) cnt
  | .mk lf p es, c :: rest =>
    match hg : getEdge es c with
    | none => .zero
    | some child =>
      if !child.pfx.isPrefixOf (c :: rest) && !(c :: rest).isPrefixOf child.pfx then .zero
      else
        let newPfx := if child.pfx.length > (c :: rest).length then ([] : List Char)
          else (c :: rest).drop child.pfx.length
        match deletePrefixAux child newPfx with
        | .zero => .zero
        | .final rep cnt =>
          let es' := updateEdge es c rep
          -- this frame's node is the cleared node's parent and is never the
          -- root here: Go merges it when it has exactly one edge and no
          -- stored entry
          if es'.length = 1 && lf.isNone then .done (mergeChild (Node.mk lf p es')) cnt
          else .done (Node.mk lf p es') cnt
        | .done rep cnt => .done (Node.mk lf p (updateEdge es c rep)) cnt
termination_by n _ => sizeOf n
decreasing_by
  have := sizeOf_lt_of_getEdge hg
  simp
  omega

/-- Go `DeletePrefix` / `deletePrefix`, tree level.  When the prefix is
empty the root itself is cleared (no parent, so no merge); when the
cleared node's parent is the root the parent merge is skipped as in Go. -/
def Tree.deletePrefix {α : Type} (t : Tree α) (s : List Char) : Tree α × Int :=
  match s with
  | [] =>
    let cnt := (recursiveWalk (fun (k : Int) _ _ => (k + 1, false)) t.root 0).1
    (⟨Node.mk none t.root.pfx [], t.size - cnt⟩, cnt)
  | c :: rest =>
    match getEdge t.root.edges c with
    | none => (t, 0)
    | some child =>
      if !child.pfx.isPrefixOf (c :: rest) && !(c :: rest).isPrefixOf child.pfx then (t, 0)
      else
        let newPfx := if child.pfx.length > (c :: rest).length then ([] : List Char)
          else (c :: rest).drop child.pfx.length
        match deletePrefixAux child newPfx with
        | .zero => (t, 0)
        | .final rep cnt =>
          (⟨Node.mk t.root.leaf t.root.pfx (updateEdge t.root.edges c rep), t.size - cnt⟩, cnt)
        | .done rep cnt =>
          (⟨Node.mk t.root.leaf t.root.pfx (updateEdge t.root.edges c rep), t.size - cnt⟩, cnt)

/-- Go `WalkPrefix`: descend consuming the prefix; on full consumption
walk the node reached; when the remaining search text is a strict prefix
of the child's own segment, walk that child; otherwise nothing is
visited. -/
def walkPrefixAux {α σ : Type} (fn : σ → List Char → α → σ × Bool) :
    Node α → List Char → σ → σ × Bool
  | n, [], st => recursiveWalk fn n st
  | .mk _ _ es, c :: rest, st =>
    match hg : getEdge es c with
    | none => (st, false)
    | some child =>
      if child.pfx.isPrefixOf (c :: rest) then
        walkPrefixAux fn child ((c :: rest).drop child.pfx.length) st
      else if (c :: rest).isPrefixOf child.pfx then
        recursiveWalk fn child st
      else (st, false)
termination_by n _ _ => sizeOf n
decreasing_by
  have := sizeOf_lt_of_getEdge hg
  simp
  omega

/-- Go `WalkPrefix`, tree level. -/
def Tree.walkPrefix {α σ : Type} (t : Tree α) (p : List Char)
    (fn : σ → List Char → α → σ × Bool) (st : σ) : σ × Bool :=
  walkPrefixAux fn t.root p st

mutual

/-- Go `recursiveWalk_postOrder`, trace model: the first component is
the sequence of visitor invocations in call order, each a pair of the
"parent" entry and the "children" list passed to `fn`; the second is the
value the Go function returns to its caller (the node's own entry for a
stored node, the concatenation of the children's results otherwise). -/
def walkPostAux {α : Type} : Node α →
    List ((List Char × α) × List (List Char × α)) × List (List Char × α)
  | .mk lf _ es =>
    let r := walkPostList es
    match lf with
    | none => (r.1, r.2)
    | some l => (r.1 ++ [((l.key, l.val), r.2)], [(l.key, l.val)])
termination_by n => sizeOf n
decreasing_by
  all_goals simp
  all_goals omega

/-- Children loop of `recursiveWalk_postOrder`, in edge order. -/
def walkPostList {α : Type} : List (Char × Node α) →
    List ((List Char × α) × List (List Char × α)) × List (List Char × α)
  | [] => ([], [])
  | (_, m) :: rest =>
    let a := walkPostAux m
    let b := walkPostList rest
    (a.1 ++ b.1, a.2 ++ b.2)
termination_by es => sizeOf es
decreasing_by
  all_goals simp
  all_goals omega

end

/-- Go `Walk_post`, tree level. -/
def Tree.walkPost {α : Type} (t : Tree α) :
    List ((List Char × α) × List (List Char × α)) × List (List Char × α) :=
  walkPostAux t.root

/-- Go `longestPrefix` (the method): descend as in `Get`, remembering
the most recent node seen that carries a stored entry; returns that node
(the Go method also returns its key, value and presence, and
`FirstNonIncludedPrefix` uses the node itself). -/
def longestPrefixNode {α : Type} : Node α → List Char → Option (Node α) → Option (Node α)
  | .mk lf p es, search, last =>
    let last' := if lf.isSome then some (Node.mk lf p es) else last
    match search with
    | [] => last'
    | c :: rest =>
      match hg : getEdge es c with
      | none => last'
      | some child =>
        if child.pfx.isPrefixOf (c :: rest) then
          longestPrefixNode child ((c :: rest).drop child.pfx.length) last'
        else last'
termination_by n _ _ => sizeOf n
decreasing_by
  have := sizeOf_lt_of_getEdge hg
  simp
  omega

/-- Key of the node's stored entry (Go writes `n.leaf.Key`; the nodes
this is applied to always carry an entry, so the `none` branch is
unreachable). -/
def leafKey {α : Type} (n : Node α) : List Char :=
  match n.leaf with
  | some l => l.key
  | none => []

/-- Go `invert_binary_label`: the label `'1'` maps to `"0"`, every other
label maps to `"1"`. -/
def invert_binary_label (c : Char) : List Char :=
  if c = '1' then ['0'] else ['1']

/-- Go `FirstNonIncludedPrefix`: longest-prefix match, then case split
on the matched node's child count. -/
def Tree.firstNonIncludedPrefix {α : Type} (t : Tree α) (s : List Char) :
    List Char × Bool :=
  match longestPrefixNode t.root s none with
  | some n =>
    match n.edges with
    | [] => (leafKey n, true)
    | [e] => (leafKey n ++ invert_binary_label e.1, true)
    | _ => ([], false)
  | none => ([], false)

/-!  Invariant predicates.  These are Bool-valued so that concrete
instances evaluate; the theorems use them through `= true`. -/

mutual

/-- Invariant 1 of the data model: within every node's edge list the
labels are strictly ascending (unique and sorted), recursively. -/
def sortedNode {α : Type} : Node α → Bool
  | .mk _ _ es => decide ((es.map Prod.fst).Pairwise (· < ·)) && sortedEdges es
termination_by n => sizeOf n
decreasing_by
  all_goals simp
  all_goals omega

/-- Edge-list form of `sortedNode`. -/
def sortedEdges {α : Type} : List (Char × Node α) → Bool
  | [] => true
  | (_, m) :: rest => sortedNode m && sortedEdges rest
termination_by es => sizeOf es
decreasing_by
  all_goals simp
  all_goals omega

end

mutual

/-- Invariants 2 and 4 of the data model along a path: `acc` is the
concatenation of the consumed prefixes from the root down to (and
including) this node; a stored entry's key equals `acc`, every child's
prefix is non-empty, and every edge label equals the first symbol of the
child's prefix. -/
def pathsOk {α : Type} : List Char → Node α → Bool
  | acc, .mk lf _ es =>
    (match lf with
     | some l => l.key == acc
     | none => true) && pathsOkEdges acc es
termination_by acc n => sizeOf n
decreasing_by
  all_goals simp
  all_goals omega

/-- Edge-list form of `pathsOk`. -/
def pathsOkEdges {α : Type} : List Char → List (Char × Node α) → Bool
  | _, [] => true
  | acc, (l, m) :: rest =>
    (match m.pfx with
     | [] => false
     | h :: _ => h == l) && pathsOk (acc ++ m.pfx) m && pathsOkEdges acc rest
termination_by acc es => sizeOf es
decreasing_by
  all_goals simp
  all_goals omega

end

mutual

/-- Invariant 3 of the data model for a non-root node: it stores an
entry or branches into at least two children, recursively. -/
def compressedNode {α : Type} : Node α → Bool
  | .mk lf _ es => (lf.isSome || decide (2 ≤ es.length)) && compressedEdges es
termination_by n => sizeOf n
decreasing_by
  all_goals simp
  all_goals omega

/-- Edge-list form of `compressedNode`: the root itself is exempt, so
the tree-level invariant is `compressedEdges root.edges`. -/
def compressedEdges {α : Type} : List (Char × Node α) → Bool
  | [] => true
  | (_, m) :: rest => compressedNode m && compressedEdges rest
termination_by es => sizeOf es
decreasing_by
  all_goals simp
  all_goals omega

end

mutual

/-- Every edge label in the tree is `'0'` or `'1'` (the binary-alphabet
assumption of `FirstNonIncludedPrefix`). -/
def binaryNode {α : Type} : Node α → Bool
  | .mk _ _ es => binaryEdges es
termination_by n => sizeOf n
decreasing_by
  all_goals simp
  all_goals omega

/-- Edge-list form of `binaryNode`. -/
def binaryEdges {α : Type} : List (Char × Node α) → Bool
  | [] => true
  | (l, m) :: rest => (l == '0' || l == '1') && binaryNode m && binaryEdges rest
termination_by es => sizeOf es
decreasing_by
  all_goals simp
  all_goals omega

end

mutual

/-- The stored entries of a subtree in pre-order (own entry first, then
the children in edge order): the reference list against which the walks
are verified. -/
def entries {α : Type} : Node α → List (List Char × α)
  | .mk lf _ es =>
    (match lf with
     | some l => [(l.key, l.val)]
     | none => []) ++ entriesList es
termination_by n => sizeOf n
decreasing_by
  all_goals simp
  all_goals omega

/-- Edge-list form of `entries`. -/
def entriesList {α : Type} : List (Char × Node α) → List (List Char × α)
  | [] => []
  | (_, m) :: rest => entries m ++ entriesList rest
termination_by es => sizeOf es
decreasing_by
  all_goals simp
  all_goals omega

end

/-- Well-formedness of a whole tree: empty root prefix, sorted edge
labels and consistent paths everywhere. -/
def Tree.wf {α : Type} (t : Tree α) : Prop :=
  t.root.pfx = [] ∧ sortedNode t.root = true ∧ pathsOk [] t.root = true

/-!  Basic lemmas about the edge-table operations. -/

theorem getEdge_mem {α : Type} {es : List (Char × Node α)} {c : Char} {m : Node α}
    (h : getEdge es c = some m) : (c, m) ∈ es := by
  induction es with
  | nil => simp [getEdge] at h
  | cons e rest ih =>
    obtain ⟨l, n⟩ := e
    simp only [getEdge] at h
    split at h
    · split at h
      · rename_i hle heq
        cases h
        subst heq
        exact List.mem_cons_self _ _
      · cases h
    · exact List.mem_cons_of_mem _ (ih h)

theorem pairwise_labels_cons {α : Type} {l : Char} {m : Node α}
    {rest : List (Char × Node α)} :
    (((l, m) :: rest).map Prod.fst).Pairwise (· < ·) ↔
      (∀ x ∈ rest, l < x.1) ∧ ((rest.map Prod.fst).Pairwise (· < ·)) := by
  simp [List.pairwise_cons]

theorem getEdge_of_mem {α : Type} {es : List (Char × Node α)} {c : Char} {m : Node α}
    (ho : (es.map Prod.fst).Pairwise (· < ·)) (hm : (c, m) ∈ es) :
    getEdge es c = some m := by
  induction es with
  | nil => simp at hm
  | cons e rest ih =>
    obtain ⟨l, n⟩ := e
    rw [pairwise_labels_cons] at ho
    rcases List.mem_cons.mp hm with h | h
    · cases h
      simp [getEdge]
    · have hlc : l < c := ho.1 _ h
      have hnle : ¬ c ≤ l := not_le.mpr hlc
      simpa [getEdge, hnle] using ih ho.2 h

theorem getEdge_none_iff {α : Type} {es : List (Char × Node α)} {c : Char}
    (ho : (es.map Prod.fst).Pairwise (· < ·)) :
    getEdge es c = none ↔ c ∉ es.map Prod.fst := by
  constructor
  · intro h hc
    obtain ⟨⟨l, m⟩, hm, he⟩ := List.mem_map.mp hc
    cases he
    have := getEdge_of_mem ho hm
    rw [h] at this
    cases this
  · intro h
    cases hg : getEdge es c with
    | none => rfl
    | some m =>
      exact absurd (List.mem_map_of_mem Prod.fst (getEdge_mem hg)) h

theorem updateEdge_labels {α : Type} (es : List (Char × Node α)) (c : Char)
    (m' : Node α) : (updateEdge es c m').map Prod.fst = es.map Prod.fst := by
  induction es with
  | nil => rfl
  | cons e rest ih =>
    obtain ⟨l, n⟩ := e
    simp only [updateEdge]
    split
    · split <;> simp
    · simp [ih]

theorem getEdge_decomp {α : Type} {es : List (Char × Node α)} {c : Char}
    {child : Node α} (ho : (es.map Prod.fst).Pairwise (· < ·))
    (h : getEdge es c = some child) :
    ∃ pre post, es = pre ++ (c, child) :: post ∧
      (∀ x ∈ pre, x.1 < c) ∧ (∀ x ∈ post, c < x.1) ∧
      (∀ m', updateEdge es c m' = pre ++ (c, m') :: post) ∧
      delEdge es c = pre ++ post := by
  induction es with
  | nil => simp [getEdge] at h
  | cons e rest ih =>
    obtain ⟨l, n⟩ := e
    rw [pairwise_labels_cons] at ho
    simp only [getEdge] at h
    by_cases hc : c ≤ l
    · rw [if_pos hc] at h
      by_cases he : l = c
      · rw [if_pos he] at h
        cases h
        subst he
        refine ⟨[], rest, by simp, by simp, ?_, ?_, ?_⟩
        · exact fun x hx => ho.1 x hx
        · intro m'
          simp [updateEdge]
        · simp [delEdge]
      · rw [if_neg he] at h
        cases h
    · rw [if_neg hc] at h
      obtain ⟨pre, post, hsplit, hpre, hpost, hupd, hdel⟩ := ih ho.2 h
      have hlc : l < c := not_le.mp hc
      refine ⟨(l, n) :: pre, post, by simp [hsplit], ?_, hpost, ?_, ?_⟩
      · intro x hx
        rcases List.mem_cons.mp hx with h' | h'
        · cases h'; exact hlc
        · exact hpre x h'
      · intro m'
        simp [updateEdge, hc, hupd m']
      · simp [delEdge, hc, hdel]

theorem addEdge_decomp {α : Type} {es : List (Char × Node α)} {c : Char}
    (ho : (es.map Prod.fst).Pairwise (· < ·))
    (hn : c ∉ es.map Prod.fst) (m : Node α) :
    ∃ pre post, es = pre ++ post ∧ addEdge es (c, m) = pre ++ (c, m) :: post ∧
      (∀ x ∈ pre, x.1 < c) ∧ (∀ x ∈ post, c < x.1) := by
  induction es with
  | nil => exact ⟨[], [], rfl, by simp [addEdge], by simp, by simp⟩
  | cons e rest ih =>
    obtain ⟨l, n⟩ := e
    rw [pairwise_labels_cons] at ho
    simp only [List.map_cons, List.mem_cons] at hn
    push_neg at hn
    by_cases hcl : c < l
    · refine ⟨[], (l, n) :: rest, rfl, by simp [addEdge, hcl], by simp, ?_⟩
      intro x hx
      rcases List.mem_cons.mp hx with h' | h'
      · cases h'; exact hcl
      · exact lt_trans hcl (ho.1 x h')
    · have hlc : l < c := by
        rcases lt_trichotomy l c with h' | h' | h'
        · exact h'
        · exact absurd h'.symm hn.1
        · exact absurd h' hcl
      obtain ⟨pre, post, h1, h2, h3, h4⟩ := ih ho.2 hn.2
      refine ⟨(l, n) :: pre, post, by simp [h1], by simp [addEdge, hcl, h2], ?_, h4⟩
      intro x hx
      rcases List.mem_cons.mp hx with h' | h'
      · cases h'; exact hlc
      · exact h3 x h'

theorem pairwise_labels_insert {α : Type} {pre post : List (Char × Node α)}
    {c : Char} {m : Node α}
    (ho : (((pre ++ post).map Prod.fst).Pairwise (· < ·)))
    (h1 : ∀ x ∈ pre, x.1 < c) (h2 : ∀ x ∈ post, c < x.1) :
    (((pre ++ (c, m) :: post).map Prod.fst).Pairwise (· < ·)) := by
  simp only [List.map_append, List.pairwise_append, List.map_cons,
    List.pairwise_cons] at ho ⊢
  obtain ⟨hp, hq, hpq⟩ := ho
  refine ⟨hp, ⟨?_, hq⟩, ?_⟩
  · intro a ha
    obtain ⟨x, hx, hxa⟩ := List.mem_map.mp ha
    cases hxa
    exact h2 x hx
  · intro a ha b hb
    rcases List.mem_cons.mp hb with h' | h'
    · obtain ⟨x, hx, hxa⟩ := List.mem_map.mp ha
      cases hxa
      cases h'
      exact h1 x hx
    · exact hpq a ha b h'

theorem pairwise_labels_drop_mid {α : Type} {pre post : List (Char × Node α)}
    {c : Char} {m : Node α}
    (ho : (((pre ++ (c, m) :: post).map Prod.fst).Pairwise (· < ·))) :
    (((pre ++ post).map Prod.fst).Pairwise (· < ·)) := by
  refine List.Pairwise.sublist (List.Sublist.map Prod.fst ?_) ho
  exact List.Sublist.append_left (List.sublist_cons_self _ _) pre

/-!  Lemmas about the common-prefix length. -/

theorem longestPrefixLen_le_left : ∀ a b : List Char, longestPrefixLen a b ≤ a.length
  | [], _ => by simp [longestPrefixLen]
  | _ :: _, [] => by simp [longestPrefixLen]
  | a :: as, b :: bs => by
    simp only [longestPrefixLen]
    split
    · have := longestPrefixLen_le_left as bs
      simp
      omega
    · simp

theorem longestPrefixLen_le_right : ∀ a b : List Char, longestPrefixLen a b ≤ b.length
  | [], _ => by simp [longestPrefixLen]
  | _ :: _, [] => by simp [longestPrefixLen]
  | a :: as, b :: bs => by
    simp only [longestPrefixLen]
    split
    · have := longestPrefixLen_le_right as bs
      simp
      omega
    · simp

theorem longestPrefixLen_take : ∀ a b : List Char,
    a.take (longestPrefixLen a b) = b.take (longestPrefixLen a b)
  | [], b => by simp [longestPrefixLen]
  | _ :: _, [] => by simp [longestPrefixLen]
  | a :: as, b :: bs => by
    simp only [longestPrefixLen]
    split
    · rename_i hab
      subst hab
      simp [longestPrefixLen_take as bs]
    · simp

theorem prefix_of_longestPrefixLen_eq {a b : List Char}
    (h : longestPrefixLen a b = b.length) : b <+: a := by
  have hle : b.length ≤ a.length := h ▸ longestPrefixLen_le_left a b
  rw [List.prefix_iff_eq_take]
  have := longestPrefixLen_take a b
  rw [h] at this
  rw [this, List.take_length]

theorem longestPrefixLen_full {a b : List Char} (h : b <+: a) :
    longestPrefixLen a b = b.length := by
  obtain ⟨c, rfl⟩ := h
  induction b with
  | nil =>
    cases c <;> simp [longestPrefixLen]
  | cons x xs ih =>
    simpa [longestPrefixLen] using ih

theorem longestPrefixLen_head_ne : ∀ {a b : List Char} {x y : Char} {xs ys : List Char},
    a.drop (longestPrefixLen a b) = x :: xs → b.drop (longestPrefixLen a b) = y :: ys →
    x ≠ y
  | [], _, _, _, _, _, ha, _ => by simp [longestPrefixLen] at ha
  | _ :: _, [], _, _, _, _, _, hb => by simp [longestPrefixLen] at hb
  | a :: as, b :: bs, x, y, xs, ys, ha, hb => by
    by_cases hab : a = b
    · subst hab
      simp only [longestPrefixLen, if_pos rfl, List.drop_succ_cons] at ha hb
      exact longestPrefixLen_head_ne ha hb
    · simp only [longestPrefixLen, if_neg hab, List.drop_zero] at ha hb
      cases ha
      cases hb
      exact hab

/-!  Homomorphism and membership lemmas for the recursive predicates. -/

theorem sortedEdges_append {α : Type} (es1 es2 : List (Char × Node α)) :
    sortedEdges (es1 ++ es2) = (sortedEdges es1 && sortedEdges es2) := by
  induction es1 with
  | nil => simp [sortedEdges]
  | cons e rest ih =>
    obtain ⟨l, m⟩ := e
    simp [sortedEdges, ih, Bool.and_assoc]

theorem sortedEdges_mem {α : Type} {es : List (Char × Node α)}
    (h : sortedEdges es = true) {l : Char} {m : Node α} (hm : (l, m) ∈ es) :
    sortedNode m = true := by
  induction es with
  | nil => simp at hm
  | cons e rest ih =>
    obtain ⟨l', m'⟩ := e
    simp only [sortedEdges, Bool.and_eq_true] at h
    rcases List.mem_cons.mp hm with h' | h'
    · cases h'; exact h.1
    · exact ih h.2 h'

theorem compressedEdges_append {α : Type} (es1 es2 : List (Char × Node α)) :
    compressedEdges (es1 ++ es2) = (compressedEdges es1 && compressedEdges es2) := by
  induction es1 with
  | nil => simp [compressedEdges]
  | cons e rest ih =>
    obtain ⟨l, m⟩ := e
    simp [compressedEdges, ih, Bool.and_assoc]

theorem compressedEdges_mem {α : Type} {es : List (Char × Node α)}
    (h : compressedEdges es = true) {l : Char} {m : Node α} (hm : (l, m) ∈ es) :
    compressedNode m = true := by
  induction es with
  | nil => simp at hm
  | cons e rest ih =>
    obtain ⟨l', m'⟩ := e
    simp only [compressedEdges, Bool.and_eq_true] at h
    rcases List.mem_cons.mp hm with h' | h'
    · cases h'; exact h.1
    · exact ih h.2 h'

theorem pathsOkEdges_append {α : Type} (acc : List Char)
    (es1 es2 : List (Char × Node α)) :
    pathsOkEdges acc (es1 ++ es2) = (pathsOkEdges acc es1 && pathsOkEdges acc es2) := by
  induction es1 with
  | nil => simp [pathsOkEdges]
  | cons e rest ih =>
    obtain ⟨l, m⟩ := e
    simp [pathsOkEdges, ih, Bool.and_assoc]

theorem pathsOkEdges_mem {α : Type} {acc : List Char} {es : List (Char × Node α)}
    (h : pathsOkEdges acc es = true) {l : Char} {m : Node α} (hm : (l, m) ∈ es) :
    (∃ tl, m.pfx = l :: tl) ∧ pathsOk (acc ++ m.pfx) m = true := by
  induction es with
  | nil => simp at hm
  | cons e rest ih =>
    obtain ⟨l', m'⟩ := e
    simp only [pathsOkEdges, Bool.and_eq_true] at h
    rcases List.mem_cons.mp hm with h' | h'
    · cases h'
      refine ⟨?_, h.1.2⟩
      obtain ⟨⟨hne, _⟩, _⟩ := h
      cases hp : m.pfx with
      | nil => rw [hp] at hne; cases hne
      | cons x tl =>
        rw [hp] at hne
        simp at hne
        exact ⟨tl, by rw [hne]⟩
    · exact ih h.2 h'

theorem binaryEdges_mem {α : Type} {es : List (Char × Node α)}
    (h : binaryEdges es = true) {l : Char} {m : Node α} (hm : (l, m) ∈ es) :
    (l = '0' ∨ l = '1') ∧ binaryNode m = true := by
  induction es with
  | nil => simp at hm
  | cons e rest ih =>
    obtain ⟨l', m'⟩ := e
    simp only [binaryEdges, Bool.and_eq_true] at h
    rcases List.mem_cons.mp hm with h' | h'
    · cases h'
      obtain ⟨⟨h01, hbin⟩, _⟩ := h
      refine ⟨?_, hbin⟩
      rcases Bool.or_eq_true _ _ |>.mp h01 with h'' | h'' <;>
        simp at h'' <;> [exact Or.inl h''; exact Or.inr h'']
    · exact ih h.2 h'

theorem entriesList_append {α : Type} (es1 es2 : List (Char × Node α)) :
    entriesList (es1 ++ es2) = entriesList es1 ++ entriesList es2 := by
  induction es1 with
  | nil => simp [entriesList]
  | cons e rest ih =>
    obtain ⟨l, m⟩ := e
    simp [entriesList, ih]


/-!  Non-dependent reduction lemmas for the operations defined by
well-founded recursion (their bodies name the `getEdge` equation for the
termination proof, which blocks direct rewriting; these restate each
step with a plain match). -/

theorem getAux_cons {α : Type} (lf : Option (LeafNode α)) (p : List Char)
    (es : List (Char × Node α)) (c : Char) (rest : List Char) :
    getAux (Node.mk lf p es) (c :: rest) =
      (match getEdge es c with
       | none => none
       | some child =>
         if child.pfx.isPrefixOf (c :: rest) then
           getAux child ((c :: rest).drop child.pfx.length)
         else none) := by
  simp only [getAux]
  split <;> rename_i heq <;> rw [heq]

theorem insertAux_cons {α : Type} (s : List Char) (v : α) (lf : Option (LeafNode α))
    (p : List Char) (es : List (Char × Node α)) (c : Char) (rest : List Char) :
    insertAux s v (Node.mk lf p es) (c :: rest) =
      (match getEdge es c with
       | none =>
         ⟨Node.mk lf p (addEdge es (c, Node.mk (some ⟨s, v⟩) (c :: rest) [])),
           none, false, 1⟩
       | some child =>
         let common := longestPrefixLen (c :: rest) child.pfx
         if common = child.pfx.length then
           let r := insertAux s v child ((c :: rest).drop common)
           ⟨Node.mk lf p (updateEdge es c r.node), r.old, r.updated, r.delta⟩
         else
           let shortened := child.pfx.drop common
           let oldChild := Node.mk child.leaf shortened child.edges
           let midFinal :=
             match (c :: rest).drop common with
             | [] =>
               Node.mk (some ⟨s, v⟩) ((c :: rest).take common)
                 (addEdge [] (shortened.headD c, oldChild))
             | c2 :: tl2 =>
               Node.mk none ((c :: rest).take common)
                 (addEdge (addEdge [] (shortened.headD c, oldChild))
                   (c2, Node.mk (some ⟨s, v⟩) (c2 :: tl2) []))
           ⟨Node.mk lf p (updateEdge es c midFinal), none, false, 1⟩) := by
  simp only [insertAux]
  split <;> rename_i heq <;> rw [heq]

theorem deleteAux_cons {α : Type} (lf : Option (LeafNode α)) (p : List Char)
    (es : List (Char × Node α)) (c : Char) (rest : List Char) :
    deleteAux (Node.mk lf p es) (c :: rest) =
      (match getEdge es c with
       | none => .notFound
       | some child =>
         if child.pfx.isPrefixOf (c :: rest) then
           match deleteAux child ((c :: rest).drop child.pfx.length) with
           | .notFound => .notFound
           | .final rep v =>
             let es' := match rep with
               | none => delEdge es c
               | some child' => updateEdge es c child'
             if es'.length = 1 && lf.isNone then .done (mergeChild (Node.mk lf p es')) v
             else .done (Node.mk lf p es') v
           | .done child' v => .done (Node.mk lf p (updateEdge es c child')) v
         else .notFound) := by
  simp only [deleteAux]
  split <;> rename_i heq <;> rw [heq]

theorem deletePrefixAux_cons {α : Type} (lf : Option (LeafNode α)) (p : List Char)
    (es : List (Char × Node α)) (c : Char) (rest : List Char) :
    deletePrefixAux (Node.mk lf p es) (c :: rest) =
      (match getEdge es c with
       | none => .zero
       | some child =>
         if !child.pfx.isPrefixOf (c :: rest) && !(c :: rest).isPrefixOf child.pfx then
           .zero
         else
           let newPfx := if child.pfx.length > (c :: rest).length then ([] : List Char)
             else (c :: rest).drop child.pfx.length
           match deletePrefixAux child newPfx with
           | .zero => .zero
           | .final rep cnt =>
             let es' := updateEdge es c rep
             if es'.length = 1 && lf.isNone then .done (mergeChild (Node.mk lf p es')) cnt
             else .done (Node.mk lf p es') cnt
           | .done rep cnt => .done (Node.mk lf p (updateEdge es c rep)) cnt) := by
  simp only [deletePrefixAux]
  split <;> rename_i heq <;> rw [heq]

theorem walkPrefixAux_cons {α σ : Type} (fn : σ → List Char → α → σ × Bool)
    (lf : Option (LeafNode α)) (p : List Char) (es : List (Char × Node α))
    (c : Char) (rest : List Char) (st : σ) :
    walkPrefixAux fn (Node.mk lf p es) (c :: rest) st =
      (match getEdge es c with
       | none => (st, false)
       | some child =>
         if child.pfx.isPrefixOf (c :: rest) then
           walkPrefixAux fn child ((c :: rest).drop child.pfx.length) st
         else if (c :: rest).isPrefixOf child.pfx then
           recursiveWalk fn child st
         else (st, false)) := by
  simp only [walkPrefixAux]
  split <;> rename_i heq <;> rw [heq]

theorem longestPrefixNode_eq {α : Type} (lf : Option (LeafNode α)) (p : List Char)
    (es : List (Char × Node α)) (search : List Char) (last : Option (Node α)) :
    longestPrefixNode (Node.mk lf p es) search last =
      (let last' := if lf.isSome then some (Node.mk lf p es) else last
       match search with
       | [] => last'
       | c :: rest =>
         match getEdge es c with
         | none => last'
         | some child =>
           if child.pfx.isPrefixOf (c :: rest) then
             longestPrefixNode child ((c :: rest).drop child.pfx.length) last'
           else last') := by
  cases search with
  | nil => simp only [longestPrefixNode]
  | cons c rest =>
    simp only [longestPrefixNode]
    split <;> rename_i heq <;> rw [heq]

/-!  Claim C10: the empty string is a valid key stored at the root. -/

/-- C10: on a tree not containing the empty key, Insert of the empty key
returns (nil, false) and increments Len by one, and a subsequent Get of
the empty key returns the inserted value with found = true. -/
theorem c10_empty_key_root {α : Type} (t : Tree α) (v : α)
    (h : (t.get []).2 = false) :
    (t.insert [] v).2 = (none, false) ∧
    (t.insert [] v).1.len = t.len + 1 ∧
    (t.insert [] v).1.get [] = (some v, true) := by
  obtain ⟨⟨lf, p, es⟩, sz⟩ := t
  cases lf with
  | some l => simp [Tree.get, getAux] at h
  | none =>
    refine ⟨?_, ?_, ?_⟩ <;>
      simp [Tree.insert, insertAux, Tree.len, Tree.get, getAux]

/-- Witness for C10 at a concrete input. -/
theorem c10_empty_key_root_witness :
    ((Tree.new : Tree Nat).get []).2 = false ∧
    ((Tree.new : Tree Nat).insert [] 7).2 = (none, false) ∧
    ((Tree.new : Tree Nat).insert [] 7).1.len = (Tree.new : Tree Nat).len + 1 ∧
    ((Tree.new : Tree Nat).insert [] 7).1.get [] = (some 7, true) :=
  ⟨by simp [Tree.get, getAux, Tree.new],
    c10_empty_key_root Tree.new 7 (by simp [Tree.get, getAux, Tree.new])⟩

/-!  Claim C8: Delete of an absent key is a no-op. -/

theorem deleteAux_notFound_iff {α : Type} :
    ∀ (n : Node α) (s : List Char),
    (deleteAux n s = DelStep.notFound ↔ getAux n s = none) := by
  intro n s
  induction n, s using deleteAux.induct with
  | case1 p es => simp [deleteAux, getAux]
  | case2 p es l h0 => simp [deleteAux, getAux, h0]
  | case3 p es l h0 h1 => simp [deleteAux, getAux, h0, h1]
  | case4 p es l h0 h1 => simp [deleteAux, getAux, h0, h1]
  | case5 lf p es c rest hg =>
    rw [deleteAux_cons, getAux_cons, hg]
    exact iff_of_true rfl rfl
  | case6 lf p es c rest child hg hpre hdel ih =>
    rw [deleteAux_cons, getAux_cons, hg]
    rw [hdel] at ih
    simp only [hpre, if_true, hdel]
    simpa using ih.mp rfl
  | case7 lf p es c rest child hg hpre rep v hdel es' hcond ih =>
    rw [deleteAux_cons, getAux_cons, hg]
    rw [hdel] at ih
    simp [hpre, hdel, hcond]
    intro hnone
    exact absurd (ih.mpr hnone) (by simp)
  | case8 lf p es c rest child hg hpre rep v hdel es' hcond ih =>
    rw [deleteAux_cons, getAux_cons, hg]
    rw [hdel] at ih
    simp [hpre, hdel, hcond]
    intro hnone
    exact absurd (ih.mpr hnone) (by simp)
  | case9 lf p es c rest child hg hpre child' v hdel ih =>
    rw [deleteAux_cons, getAux_cons, hg]
    rw [hdel] at ih
    simp [hpre, hdel]
    intro hnone
    exact absurd (ih.mpr hnone) (by simp)
  | case10 lf p es c rest child hg hpre =>
    rw [deleteAux_cons, getAux_cons, hg]
    simp [hpre]

/-- C8: for a key not stored in the tree (the descent fails to exhaust
the key or exhausts it on a node without a stored entry), Delete returns
(nil, false) and the tree is returned completely unchanged: the same
root (all nodes and edges) and the same size counter. -/
theorem c8_delete_absent_noop {α : Type} (t : Tree α) (s : List Char)
    (h : (t.get s).2 = false) :
    t.delete s = (t, none, false) := by
  have hnone : getAux t.root s = none := by
    unfold Tree.get at h
    cases hg : getAux t.root s with
    | none => rfl
    | some v => rw [hg] at h; simp at h
  cases s with
  | nil =>
    unfold Tree.delete
    cases hl : t.root.leaf with
    | none => simp [hl]
    | some l =>
      obtain ⟨⟨lf, p, es⟩, sz⟩ := t
      simp only [Node.leaf_mk] at hl
      subst hl
      simp [getAux] at hnone
  | cons c rest =>
    unfold Tree.delete
    cases hg : getEdge t.root.edges c with
    | none => simp [hg]
    | some child =>
      by_cases hpre : child.pfx.isPrefixOf (c :: rest)
      · have hget : getAux t.root (c :: rest) =
            getAux child ((c :: rest).drop child.pfx.length) := by
          obtain ⟨⟨lf, p, es⟩, sz⟩ := t
          simp only [Node.edges_mk] at hg
          rw [getAux_cons, hg]
          simp [hpre]
        rw [hget] at hnone
        have hdel := (deleteAux_notFound_iff child
          ((c :: rest).drop child.pfx.length)).mpr hnone
        simp [hg, hpre, hdel]
      · simp [hg, hpre]

/-- Witness for C8 at a concrete input. -/
theorem c8_delete_absent_noop_witness :
    ((((Tree.new : Tree Nat).insert ['a'] 0).1.insert ['a', 'b'] 1).1.get ['z']).2 = false ∧
    (((Tree.new : Tree Nat).insert ['a'] 0).1.insert ['a', 'b'] 1).1.delete ['z'] =
      ((((Tree.new : Tree Nat).insert ['a'] 0).1.insert ['a', 'b'] 1).1, none, false) := by
  have h : ((((Tree.new : Tree Nat).insert ['a'] 0).1.insert ['a', 'b'] 1).1.get ['z']).2 = false := by
    simp +decide [Tree.new, Tree.insert, Tree.get, insertAux, insertAux_cons, getAux,
      getAux_cons, getEdge, addEdge, updateEdge, delEdge, longestPrefixLen, mergeChild,
      List.isPrefixOf]
  exact ⟨h, c8_delete_absent_noop _ ['z'] h⟩

/-!  Claim C2: when DeletePrefix returns zero. -/

/-- Descent failure of `deletePrefix`: the edge for the next symbol is
missing, or its label matches but neither the remaining prefix nor the
child's own prefix segment is a prefix of the other.  This mirrors the
guard of Go `deletePrefix` (a remaining prefix that ends strictly inside
a child's prefix is not a failure there: the guard accepts it). -/
def deletePrefixMiss {α : Type} : Node α → List Char → Bool
  | _, [] => false
  | .mk _ _ es, c :: rest =>
    match hg : getEdge es c with
    | none => true
    | some child =>
      if !child.pfx.isPrefixOf (c :: rest) && !(c :: rest).isPrefixOf child.pfx then true
      else
        deletePrefixMiss child
          (if child.pfx.length > (c :: rest).length then ([] : List Char)
           else (c :: rest).drop child.pfx.length)
termination_by n _ => sizeOf n
decreasing_by
  have := sizeOf_lt_of_getEdge hg
  simp
  omega

theorem deletePrefixMiss_cons {α : Type} (lf : Option (LeafNode α)) (p : List Char)
    (es : List (Char × Node α)) (c : Char) (rest : List Char) :
    deletePrefixMiss (Node.mk lf p es) (c :: rest) =
      (match getEdge es c with
       | none => true
       | some child =>
         if !child.pfx.isPrefixOf (c :: rest) && !(c :: rest).isPrefixOf child.pfx then true
         else
           deletePrefixMiss child
             (if child.pfx.length > (c :: rest).length then ([] : List Char)
              else (c :: rest).drop child.pfx.length)) := by
  simp only [deletePrefixMiss]
  split <;> rename_i heq <;> rw [heq]

theorem deletePrefixAux_zero_of_miss {α : Type} :
    ∀ (n : Node α) (s : List Char), deletePrefixMiss n s = true →
    deletePrefixAux n s = DelPfxStep.zero := by
  intro n s
  induction n, s using deletePrefixMiss.induct with
  | case1 n => intro h; simp [deletePrefixMiss] at h
  | case2 lf p es c rest hg =>
    intro h
    rw [deletePrefixAux_cons, hg]
  | case3 lf p es c rest child hg hcond =>
    intro h
    rw [deletePrefixAux_cons, hg]
    simp only [hcond, if_true]
  | case4 lf p es c rest child hg hcond ih =>
    intro h
    rw [deletePrefixMiss_cons, hg] at h
    simp only [] at h
    rw [if_neg hcond] at h
    have hz : deletePrefixAux child
        (if child.pfx.length > (c :: rest).length then ([] : List Char)
         else (c :: rest).drop child.pfx.length) = DelPfxStep.zero := ih h
    rw [deletePrefixAux_cons, hg]
    simp only [gt_iff_lt, List.length_cons] at hz
    simp [hcond, hz]

/-- C2 (amended): DeletePrefix returns 0 and leaves the tree unchanged
when the descent genuinely fails: the next edge is missing, or its label
matches but neither the remaining prefix nor the edge's own prefix is a
prefix of the other.  (A prefix ending strictly inside an edge's prefix
is accepted by the descent and deletes that edge's whole subtree; see
the counterexample.) -/
theorem c2_deletePrefix_miss_zero {α : Type} (t : Tree α) (s : List Char)
    (h : deletePrefixMiss t.root s = true) :
    t.deletePrefix s = (t, 0) := by
  obtain ⟨⟨lf, p, es⟩, sz⟩ := t
  cases s with
  | nil => simp [deletePrefixMiss] at h
  | cons c rest =>
    simp only [Node.edges_mk] at h ⊢
    rw [deletePrefixMiss_cons] at h
    unfold Tree.deletePrefix
    cases hg : getEdge es c with
    | none => simp [hg]
    | some child =>
      rw [hg] at h
      simp only [] at h
      by_cases hcond : (!child.pfx.isPrefixOf (c :: rest) && !(c :: rest).isPrefixOf child.pfx) = true
      · simp [hg, hcond]
      · rw [if_neg hcond] at h
        have hz : deletePrefixAux child
            (if child.pfx.length > (c :: rest).length then ([] : List Char)
             else (c :: rest).drop child.pfx.length) = DelPfxStep.zero :=
          deletePrefixAux_zero_of_miss child _ h
        simp only [gt_iff_lt, List.length_cons] at hz
        simp [hg, hcond, hz]

/-- Witness for the amended C2 at a concrete input: deleting under the
prefix "b" in a tree holding only "ab" fails the descent and changes
nothing. -/
theorem c2_deletePrefix_miss_zero_witness :
    deletePrefixMiss (((Tree.new : Tree Nat).insert ['a', 'b'] 0).1).root ['b'] = true ∧
    (((Tree.new : Tree Nat).insert ['a', 'b'] 0).1).deletePrefix ['b'] =
      ((((Tree.new : Tree Nat).insert ['a', 'b'] 0).1), 0) := by
  have h : deletePrefixMiss (((Tree.new : Tree Nat).insert ['a', 'b'] 0).1).root ['b'] = true := by
    simp +decide [Tree.new, Tree.insert, insertAux, insertAux_cons, getEdge, addEdge,
      deletePrefixMiss, deletePrefixMiss_cons, List.isPrefixOf, longestPrefixLen]
  exact ⟨h, c2_deletePrefix_miss_zero _ ['b'] h⟩

/-- C2 counterexample: in the tree holding only the key "ab" (a single
edge whose own prefix is "ab"), the prefix "a" is a strict prefix of
that edge's prefix, so by the claim DeletePrefix("a") should return 0
and change nothing; instead it deletes the whole subtree: it returns 1
and the key "ab" is gone afterwards. -/
theorem c2_counterexample :
    (((Tree.new : Tree Nat).insert ['a', 'b'] 0).1).root.edges.map
        (fun e => (e.1, e.2.pfx)) = [('a', ['a', 'b'])] ∧
    ((((Tree.new : Tree Nat).insert ['a', 'b'] 0).1).deletePrefix ['a']).2 = 1 ∧
    (((((Tree.new : Tree Nat).insert ['a', 'b'] 0).1).deletePrefix ['a']).1.get ['a', 'b']) =
      (none, false) := by
  refine ⟨?_, ?_, ?_⟩ <;>
    simp +decide [Tree.new, Tree.insert, Tree.get, Tree.deletePrefix, insertAux,
      insertAux_cons, getAux, getAux_cons, deletePrefixAux, deletePrefixAux_cons,
      getEdge, addEdge, updateEdge, delEdge, longestPrefixLen, mergeChild,
      recursiveWalk, recursiveWalkList, List.isPrefixOf]

/-!  Claim C7: FirstNonIncludedPrefix on non-binary alphabets. -/

/-- C7 (amended): the helper performs no alphabet validation.  When the
longest-prefix-match node has exactly one child, it applies the
complement rule blindly: any child label other than '1' (including
labels of non-binary alphabets) yields the node's key with '1' appended
and found = true, rather than a not-found failure. -/
theorem c7_no_alphabet_rejection {α : Type} (t : Tree α) (s : List Char)
    (n : Node α) (l : Char) (m : Node α)
    (hn : longestPrefixNode t.root s none = some n)
    (he : n.edges = [(l, m)]) (hl : l ≠ '1') :
    t.firstNonIncludedPrefix s = (leafKey n ++ ['1'], true) := by
  unfold Tree.firstNonIncludedPrefix
  rw [hn]
  simp only []
  rw [he]
  simp [invert_binary_label, hl]

/-- Witness for the amended C7 at a concrete input over the non-binary
alphabet {a, b}. -/
theorem c7_no_alphabet_rejection_witness :
    ((((Tree.new : Tree Nat).insert ['a'] 0).1.insert ['a', 'b'] 1).1).firstNonIncludedPrefix
      ['a'] = (['a'] ++ ['1'], true) := by
  refine c7_no_alphabet_rejection _ ['a']
    (Node.mk (some ⟨['a'], 0⟩) ['a'] [('b', Node.mk (some ⟨['a', 'b'], 1⟩) ['b'] [])])
    'b' (Node.mk (some ⟨['a', 'b'], 1⟩) ['b'] []) ?_ rfl (by decide)
  simp +decide [Tree.new, Tree.insert, insertAux, insertAux_cons, getEdge, addEdge,
    updateEdge, longestPrefixLen, longestPrefixNode_eq, List.isPrefixOf]

/-- C7 counterexample: the tree holding "a" and "ab" is over a
non-binary alphabet (its labels are 'a' and 'b'), yet the helper invoked
on "a" does not reject: it returns ("a1", true), a guessed result using
the label alphabet {0, 1}, not a not-found failure. -/
theorem c7_counterexample :
    binaryNode ((((Tree.new : Tree Nat).insert ['a'] 0).1.insert ['a', 'b'] 1).1).root = false ∧
    ((((Tree.new : Tree Nat).insert ['a'] 0).1.insert ['a', 'b'] 1).1).firstNonIncludedPrefix
      ['a'] = (['a', '1'], true) := by
  constructor
  · simp +decide [Tree.new, Tree.insert, insertAux, insertAux_cons, getEdge, addEdge,
      updateEdge, longestPrefixLen, binaryNode, binaryEdges, List.isPrefixOf]
  · simp +decide [Tree.new, Tree.insert, insertAux, insertAux_cons, getEdge, addEdge,
      updateEdge, longestPrefixLen, longestPrefixNode_eq, List.isPrefixOf,
      Tree.firstNonIncludedPrefix, leafKey, invert_binary_label]

/-!  Claim C6: FirstNonIncludedPrefix over a binary alphabet. -/

theorem longestPrefixNode_isSome {α : Type} :
    ∀ (n : Node α) (s : List Char) (last : Option (Node α)) (res : Node α),
    longestPrefixNode n s last = some res →
    (∀ m, last = some m → m.leaf.isSome = true) → res.leaf.isSome = true := by
  intro n s last
  induction n, s, last using longestPrefixNode.induct with
  | case1 lf p es last =>
    intro res h hlast
    rw [longestPrefixNode_eq] at h
    simp only [] at h
    by_cases hl : lf.isSome
    · rw [if_pos hl] at h
      cases h
      simpa using hl
    · rw [if_neg hl] at h
      exact hlast res h
  | case2 lf p es last c2 tl2 hg =>
    intro res h hlast
    rw [longestPrefixNode_eq] at h
    simp only [hg] at h
    by_cases hl : lf.isSome
    · rw [if_pos hl] at h
      cases h
      simpa using hl
    · rw [if_neg hl] at h
      exact hlast res h
  | case3 lf p es last last' c2 tl2 child hg hpre ih =>
    intro res h hlast
    rw [longestPrefixNode_eq] at h
    simp only [hg, hpre, if_true] at h
    apply ih res h
    intro m hm
    simp only [last'] at hm
    by_cases hl : lf.isSome
    · rw [dif_pos hl] at hm
      cases hm
      simpa using hl
    · rw [dif_neg hl] at hm
      exact hlast m hm
  | case4 lf p es last c2 tl2 child hg hpre =>
    intro res h hlast
    rw [longestPrefixNode_eq] at h
    simp only [hg, hpre] at h
    by_cases hl : lf.isSome
    · rw [if_pos hl] at h
      cases h
      simpa using hl
    · rw [if_neg hl] at h
      exact hlast res h

theorem longestPrefixNode_binary {α : Type} :
    ∀ (n : Node α) (s : List Char) (last : Option (Node α)) (res : Node α),
    longestPrefixNode n s last = some res → binaryNode n = true →
    (∀ m, last = some m → binaryNode m = true) → binaryNode res = true := by
  intro n s last
  induction n, s, last using longestPrefixNode.induct with
  | case1 lf p es last =>
    intro res h hbin hlast
    rw [longestPrefixNode_eq] at h
    simp only [] at h
    by_cases hl : lf.isSome
    · rw [if_pos hl] at h
      cases h
      exact hbin
    · rw [if_neg hl] at h
      exact hlast res h
  | case2 lf p es last c2 tl2 hg =>
    intro res h hbin hlast
    rw [longestPrefixNode_eq] at h
    simp only [hg] at h
    by_cases hl : lf.isSome
    · rw [if_pos hl] at h
      cases h
      exact hbin
    · rw [if_neg hl] at h
      exact hlast res h
  | case3 lf p es last last' c2 tl2 child hg hpre ih =>
    intro res h hbin hlast
    rw [longestPrefixNode_eq] at h
    simp only [hg, hpre, if_true] at h
    have hchild : binaryNode child = true :=
      (binaryEdges_mem (by simpa [binaryNode] using hbin) (getEdge_mem hg)).2
    apply ih res h hchild
    intro m hm
    simp only [last'] at hm
    by_cases hl : lf.isSome
    · rw [dif_pos hl] at hm
      cases hm
      exact hbin
    · rw [dif_neg hl] at hm
      exact hlast m hm
  | case4 lf p es last c2 tl2 child hg hpre =>
    intro res h hbin hlast
    rw [longestPrefixNode_eq] at h
    simp only [hg, hpre] at h
    by_cases hl : lf.isSome
    · rw [if_pos hl] at h
      cases h
      exact hbin
    · rw [if_neg hl] at h
      exact hlast res h

/-- C6: over a binary alphabet, when the longest-prefix-match node n for
the query exists, FirstNonIncludedPrefix returns n's key when n has no
children; n's key with the complement of the single child's label
appended when n has exactly one child; and ("", false) when n has two
children. -/
theorem c6_firstNonIncluded {α : Type} (t : Tree α) (s : List Char) (n : Node α)
    (hbin : binaryNode t.root = true)
    (hn : longestPrefixNode t.root s none = some n) :
    (n.edges = [] → ∃ lf, n.leaf = some lf ∧ t.firstNonIncludedPrefix s = (lf.key, true)) ∧
    (∀ l m, n.edges = [(l, m)] →
      ∃ lf, n.leaf = some lf ∧
        t.firstNonIncludedPrefix s = (lf.key ++ [if l = '0' then '1' else '0'], true)) ∧
    (n.edges.length = 2 → t.firstNonIncludedPrefix s = ([], false)) := by
  have hsome : n.leaf.isSome = true :=
    longestPrefixNode_isSome t.root s none n hn (by intro m hm; cases hm)
  obtain ⟨lf, hlf⟩ : ∃ lf, n.leaf = some lf := by
    cases hleaf : n.leaf with
    | none => rw [hleaf] at hsome; cases hsome
    | some l0 => exact ⟨l0, rfl⟩
  have hbinN : binaryNode n = true :=
    longestPrefixNode_binary t.root s none n hn hbin (by intro m hm; cases hm)
  refine ⟨?_, ?_, ?_⟩
  · intro he
    refine ⟨lf, hlf, ?_⟩
    unfold Tree.firstNonIncludedPrefix
    rw [hn]
    simp only []
    rw [he]
    simp [leafKey, hlf]
  · intro l m he
    refine ⟨lf, hlf, ?_⟩
    have hl01 : l = '0' ∨ l = '1' := by
      have hbe : binaryEdges n.edges = true := by
        obtain ⟨lf0, p0, es0⟩ := n
        simpa [binaryNode] using hbinN
      exact (binaryEdges_mem hbe (by rw [he]; exact List.mem_cons_self _ _)).1
    unfold Tree.firstNonIncludedPrefix
    rw [hn]
    simp only []
    rw [he]
    rcases hl01 with h0 | h1
    · subst h0
      simp [leafKey, hlf, invert_binary_label]
    · subst h1
      simp [leafKey, hlf, invert_binary_label]
  · intro hlen
    obtain ⟨e1, e2, he⟩ : ∃ e1 e2, n.edges = [e1, e2] := by
      cases hes : n.edges with
      | nil => rw [hes] at hlen; cases hlen
      | cons f1 rest =>
        cases rest with
        | nil => rw [hes] at hlen; simp at hlen
        | cons f2 rest2 =>
          cases rest2 with
          | nil => exact ⟨f1, f2, rfl⟩
          | cons f3 r3 => rw [hes] at hlen; simp at hlen
    unfold Tree.firstNonIncludedPrefix
    rw [hn]
    simp only []
    rw [he]

/-- Witness for C6: the concrete scenario from the specification.  With
"00" and "000" stored, the query "00" finds the node for "00" with one
child labeled '0', so "001" is returned; after also inserting "001" the
node has two children and the query reports not-found. -/
theorem c6_firstNonIncluded_witness :
    ((((Tree.new : Tree Nat).insert ['0', '0'] 0).1.insert
        ['0', '0', '0'] 1).1).firstNonIncludedPrefix ['0', '0'] = (['0', '0', '1'], true) ∧
    (((((Tree.new : Tree Nat).insert ['0', '0'] 0).1.insert
        ['0', '0', '0'] 1).1.insert ['0', '0', '1'] 2).1).firstNonIncludedPrefix ['0', '0'] =
      ([], false) := by
  constructor
  · have h := (c6_firstNonIncluded
      ((((Tree.new : Tree Nat).insert ['0', '0'] 0).1.insert ['0', '0', '0'] 1).1)
      ['0', '0']
      (Node.mk (some ⟨['0', '0'], 0⟩) ['0', '0']
        [('0', Node.mk (some ⟨['0', '0', '0'], 1⟩) ['0'] [])])
      (by simp +decide [Tree.new, Tree.insert, insertAux, insertAux_cons, getEdge,
        addEdge, updateEdge, longestPrefixLen, binaryNode, binaryEdges, List.isPrefixOf])
      (by simp +decide [Tree.new, Tree.insert, insertAux, insertAux_cons, getEdge,
        addEdge, updateEdge, longestPrefixLen, longestPrefixNode_eq, List.isPrefixOf])).2.1
      '0' (Node.mk (some ⟨['0', '0', '0'], 1⟩) ['0'] []) rfl
    obtain ⟨lf, hlf, heq⟩ := h
    cases hlf
    simpa using heq
  · have h := (c6_firstNonIncluded
      (((((Tree.new : Tree Nat).insert ['0', '0'] 0).1.insert
          ['0', '0', '0'] 1).1.insert ['0', '0', '1'] 2).1)
      ['0', '0']
      (Node.mk (some ⟨['0', '0'], 0⟩) ['0', '0']
        [('0', Node.mk (some ⟨['0', '0', '0'], 1⟩) ['0'] []),
         ('1', Node.mk (some ⟨['0', '0', '1'], 2⟩) ['1'] [])])
      (by simp +decide [Tree.new, Tree.insert, insertAux, insertAux_cons, getEdge,
        addEdge, updateEdge, longestPrefixLen, binaryNode, binaryEdges, List.isPrefixOf])
      (by simp +decide [Tree.new, Tree.insert, insertAux, insertAux_cons, getEdge,
        addEdge, updateEdge, longestPrefixLen, longestPrefixNode_eq, List.isPrefixOf])).2.2
    exact h rfl

/-!  Claim C3: the post-order walk. -/

theorem node_mutual_ind {α : Type} (P : Node α → Prop) (Q : List (Char × Node α) → Prop)
    (hmk : ∀ lf p es, Q es → P (Node.mk lf p es))
    (hnil : Q [])
    (hcons : ∀ l m rest, P m → Q rest → Q ((l, m) :: rest)) :
    (∀ n, P n) ∧ (∀ es, Q es) := by
  have key : ∀ k : Nat, (∀ n : Node α, sizeOf n < k → P n) ∧
      (∀ es : List (Char × Node α), sizeOf es < k → Q es) := by
    intro k
    induction k with
    | zero => exact ⟨fun n h => absurd h (by omega), fun es h => absurd h (by omega)⟩
    | succ k ih =>
      constructor
      · intro n hn
        obtain ⟨lf, p, es⟩ := n
        apply hmk
        apply ih.2
        have hlt : sizeOf es < sizeOf (Node.mk lf p es) := by
          simp <;> omega
        omega
      · intro es hes
        cases es with
        | nil => exact hnil
        | cons e rest =>
          obtain ⟨l, m⟩ := e
          apply hcons
          · apply ih.1
            have hlt : sizeOf m < sizeOf ((l, m) :: rest) := by
              simp <;> omega
            omega
          · apply ih.2
            have hlt : sizeOf rest < sizeOf ((l, m) :: rest) := by
              simp <;> omega
            omega
  exact ⟨fun n => (key (sizeOf n + 1)).1 n (by omega),
    fun es => (key (sizeOf es + 1)).2 es (by omega)⟩

mutual

/-- Specification-side aggregate of the post-order walk (stated from the
amended claim's words, separately from the walk itself): the subtree
root's own entry when stored, otherwise the concatenation of its
children's aggregates — the nearest stored entries below. -/
def aggrEntries {α : Type} : Node α → List (List Char × α)
  | .mk lf _ es =>
    match lf with
    | some l => [(l.key, l.val)]
    | none => aggrEntriesList es
termination_by n => sizeOf n
decreasing_by
  all_goals simp
  all_goals omega

/-- Edge-list form of `aggrEntries`. -/
def aggrEntriesList {α : Type} : List (Char × Node α) → List (List Char × α)
  | [] => []
  | (_, m) :: rest => aggrEntries m ++ aggrEntriesList rest
termination_by es => sizeOf es
decreasing_by
  all_goals simp
  all_goals omega

end

mutual

/-- Specification-side list of visitor invocations of the post-order
walk: one call per stored node, children first, each passing the node's
own entry and the concatenation of its children's aggregates. -/
def postOrderCalls {α : Type} : Node α →
    List ((List Char × α) × List (List Char × α))
  | .mk lf _ es =>
    postOrderCallsList es ++
      (match lf with
       | some l => [((l.key, l.val), aggrEntriesList es)]
       | none => [])
termination_by n => sizeOf n
decreasing_by
  all_goals simp
  all_goals omega

/-- Edge-list form of `postOrderCalls`. -/
def postOrderCallsList {α : Type} : List (Char × Node α) →
    List ((List Char × α) × List (List Char × α))
  | [] => []
  | (_, m) :: rest => postOrderCalls m ++ postOrderCallsList rest
termination_by es => sizeOf es
decreasing_by
  all_goals simp
  all_goals omega

end

mutual

/-- The stored entries of a subtree in post order (children in edge
order first, then the node's own entry). -/
def entriesPost {α : Type} : Node α → List (List Char × α)
  | .mk lf _ es =>
    entriesPostList es ++
      (match lf with
       | some l => [(l.key, l.val)]
       | none => [])
termination_by n => sizeOf n
decreasing_by
  all_goals simp
  all_goals omega

/-- Edge-list form of `entriesPost`. -/
def entriesPostList {α : Type} : List (Char × Node α) → List (List Char × α)
  | [] => []
  | (_, m) :: rest => entriesPost m ++ entriesPostList rest
termination_by es => sizeOf es
decreasing_by
  all_goals simp
  all_goals omega

end

/-- C3 (amended): the post-order walk invokes the visitor exactly once
for each node carrying a stored entry, in post order (its first
components are the post-order list of stored entries), passing that
node's own entry as the parent argument; the children argument is the
concatenation over the node's child edges of each subtree's aggregate —
the subtree root's own entry if stored, else its children's aggregates —
and a node without a stored entry triggers no call and passes its
children's aggregates upward as the return value. -/
theorem c3_walkPost_refines {α : Type} (t : Tree α) :
    (t.walkPost).1 = postOrderCalls t.root ∧
    (t.walkPost).1.map Prod.fst = entriesPost t.root ∧
    (t.walkPost).2 = aggrEntries t.root := by
  have key := node_mutual_ind
    (fun n : Node α => (walkPostAux n).1 = postOrderCalls n ∧
      (walkPostAux n).1.map Prod.fst = entriesPost n ∧
      (walkPostAux n).2 = aggrEntries n)
    (fun es : List (Char × Node α) => (walkPostList es).1 = postOrderCallsList es ∧
      (walkPostList es).1.map Prod.fst = entriesPostList es ∧
      (walkPostList es).2 = aggrEntriesList es)
    ?_ ?_ ?_
  · exact key.1 t.root
  · intro lf p es hes
    obtain ⟨h1, h2, h3⟩ := hes
    rw [h1] at h2
    cases lf with
    | none =>
      refine ⟨?_, ?_, ?_⟩ <;>
        simp [walkPostAux, postOrderCalls, entriesPost, aggrEntries, h1, h2, h3]
    | some l =>
      refine ⟨?_, ?_, ?_⟩ <;>
        simp [walkPostAux, postOrderCalls, entriesPost, aggrEntries, h1, h2, h3]
  · simp [walkPostList, postOrderCallsList, entriesPostList, aggrEntriesList]
  · intro l m rest hm hrest
    obtain ⟨g1, g2, g3⟩ := hm
    obtain ⟨k1, k2, k3⟩ := hrest
    rw [g1] at g2
    rw [k1] at k2
    refine ⟨?_, ?_, ?_⟩ <;>
      simp [walkPostList, postOrderCallsList, entriesPostList, aggrEntriesList,
        g1, g2, g3, k1, k2, k3]

/-- C3 counterexample: with the keys "a", "ab" and "abc" stored, the
claim says the call for "a" receives the concatenation of all stored
entries found anywhere in its subtree as children, so it should include
("abc", 2); instead the call for "a" receives only [("ab", 1)] — a
stored node hides its own descendants from its ancestors' children
lists.  The full trace also shows parent "ab" receiving ("abc", 2). -/
theorem c3_counterexample :
    (((((Tree.new : Tree Nat).insert ['a'] 0).1.insert ['a', 'b'] 1).1.insert
        ['a', 'b', 'c'] 2).1).walkPost.1 =
      [((['a', 'b', 'c'], 2), []),
       ((['a', 'b'], 1), [(['a', 'b', 'c'], 2)]),
       ((['a'], 0), [(['a', 'b'], 1)])] ∧
    (['a', 'b', 'c'], 2) ∈
      entries (((((Tree.new : Tree Nat).insert ['a'] 0).1.insert ['a', 'b'] 1).1.insert
        ['a', 'b', 'c'] 2).1).root ∧
    (['a', 'b', 'c'], 2) ∉ [(['a', 'b'], 1)] := by
  refine ⟨?_, ?_, by decide⟩ <;>
    simp +decide [Tree.new, Tree.insert, Tree.walkPost, insertAux, insertAux_cons,
      getEdge, addEdge, updateEdge, longestPrefixLen, walkPostAux, walkPostList,
      entries, entriesList, List.isPrefixOf]

/-!  Claim C4: Insert-then-Get round-trip. -/

theorem getEdge_addEdge_self {α : Type} {es : List (Char × Node α)} {c : Char}
    {m : Node α} (ho : (es.map Prod.fst).Pairwise (· < ·))
    (hn : c ∉ es.map Prod.fst) :
    getEdge (addEdge es (c, m)) c = some m := by
  obtain ⟨pre, post, _, hadd, hpre, hpost⟩ := addEdge_decomp ho hn m
  rw [hadd]
  apply getEdge_of_mem
  · rw [← hadd]
    obtain ⟨pre', post', hsplit', _, _⟩ := addEdge_decomp ho hn m
    rw [hadd]
    apply pairwise_labels_insert _ hpre hpost
    rw [← ‹es = pre ++ post›]
    exact ho
  · exact List.mem_append_right pre (List.mem_cons_self _ _)

theorem getEdge_updateEdge_self {α : Type} {es : List (Char × Node α)} {c : Char}
    {child m' : Node α} (ho : (es.map Prod.fst).Pairwise (· < ·))
    (hg : getEdge es c = some child) :
    getEdge (updateEdge es c m') c = some m' := by
  obtain ⟨pre, post, hsplit, hpre, hpost, hupd, _⟩ := getEdge_decomp ho hg
  rw [hupd m']
  apply getEdge_of_mem
  · have : ((pre ++ (c, m') :: post).map Prod.fst) = ((pre ++ (c, child) :: post).map Prod.fst) := by
      simp
    rw [this, ← hsplit]
    exact ho
  · exact List.mem_append_right pre (List.mem_cons_self _ _)

theorem insertAux_pfx {α : Type} (s : List Char) (v : α) :
    ∀ (n : Node α) (search : List Char),
    (insertAux s v n search).node.pfx = n.pfx := by
  intro n search
  induction n, search using insertAux.induct s v with
  | case1 p es l => simp [insertAux]
  | case2 p es => simp [insertAux]
  | case3 lf p es c rest hg =>
    rw [insertAux_cons, hg]
    rfl
  | case4 lf p es c rest child hg common hcom ih =>
    rw [insertAux_cons, hg]
    simp only []
    rw [if_pos hcom]
    rfl
  | case5 lf p es c rest child hg common hcom =>
    rw [insertAux_cons, hg]
    simp only []
    rw [if_neg hcom]
    split <;> simp

theorem getAux_insertAux {α : Type} (s : List Char) (v : α) :
    ∀ (n : Node α) (search : List Char), sortedNode n = true →
    getAux (insertAux s v n search).node search = some v := by
  intro n search
  induction n, search using insertAux.induct s v with
  | case1 p es l =>
    intro hs
    simp [insertAux, getAux]
  | case2 p es =>
    intro hs
    simp [insertAux, getAux]
  | case3 lf p es c rest hg =>
    intro hs
    simp only [sortedNode, Bool.and_eq_true, decide_eq_true_eq] at hs
    obtain ⟨ho, hse⟩ := hs
    rw [insertAux_cons, hg]
    simp only []
    rw [getAux_cons, getEdge_addEdge_self ho ((getEdge_none_iff ho).mp hg)]
    simp only [Node.pfx_mk]
    rw [if_pos (by simp [List.isPrefixOf_iff_prefix])]
    simp [getAux]
  | case4 lf p es c rest child hg common hcom ih =>
    intro hs
    simp only [sortedNode, Bool.and_eq_true, decide_eq_true_eq] at hs
    obtain ⟨ho, hse⟩ := hs
    have hchild : sortedNode child = true := sortedEdges_mem hse (getEdge_mem hg)
    rw [insertAux_cons, hg]
    simp only [if_pos hcom]
    rw [getAux_cons, getEdge_updateEdge_self ho hg]
    simp only []
    have hpfx : (insertAux s v child ((c :: rest).drop common)).node.pfx = child.pfx :=
      insertAux_pfx s v child _
    rw [hpfx]
    have hprefix : child.pfx <+: (c :: rest) := prefix_of_longestPrefixLen_eq hcom
    rw [if_pos (List.isPrefixOf_iff_prefix.mpr hprefix)]
    rw [← hcom]
    exact ih hchild
  | case5 lf p es c rest child hg common hcom =>
    intro hs
    simp only [sortedNode, Bool.and_eq_true, decide_eq_true_eq] at hs
    obtain ⟨ho, hse⟩ := hs
    have hle : common ≤ rest.length + 1 := by
      simpa using longestPrefixLen_le_left (c :: rest) child.pfx
    rw [insertAux_cons, hg]
    simp only []
    rw [if_neg hcom]
    cases hdrop : (c :: rest).drop common with
    | nil =>
      rw [getAux_cons, getEdge_updateEdge_self ho hg]
      simp only [Node.pfx_mk]
      rw [if_pos (List.isPrefixOf_iff_prefix.mpr (List.take_prefix common (c :: rest)))]
      rw [List.length_take, Nat.min_eq_left (by simpa using hle)]
      rw [hdrop]
      simp [getAux]
    | cons c2 tl2 =>
      rw [getAux_cons, getEdge_updateEdge_self ho hg]
      simp only [Node.pfx_mk]
      rw [if_pos (List.isPrefixOf_iff_prefix.mpr (List.take_prefix common (c :: rest)))]
      rw [List.length_take, Nat.min_eq_left (by simpa using hle)]
      rw [hdrop]
      -- the shortened prefix of the old child is non-empty and its head
      -- differs from c2 at the divergence point
      have hltlen : common < child.pfx.length :=
        lt_of_le_of_ne (longestPrefixLen_le_right (c :: rest) child.pfx) hcom
      obtain ⟨h0, tl0, hshort⟩ : ∃ h0 tl0, child.pfx.drop common = h0 :: tl0 := by
        cases hsh : child.pfx.drop common with
        | nil =>
          have := List.drop_eq_nil_iff.mp hsh
          omega
        | cons a b => exact ⟨a, b, rfl⟩
      have hne : c2 ≠ h0 := longestPrefixLen_head_ne hdrop hshort
      rw [hshort]
      simp only [List.headD_cons]
      rw [getAux_cons]
      have hget2 : getEdge (addEdge (addEdge [] (h0, Node.mk child.leaf (h0 :: tl0) child.edges))
          (c2, Node.mk (some ⟨s, v⟩) (c2 :: tl2) [])) c2 =
          some (Node.mk (some ⟨s, v⟩) (c2 :: tl2) []) := by
        apply getEdge_addEdge_self
        · simp [addEdge]
        · simp [addEdge]
          exact hne
      rw [hget2]
      simp only [Node.pfx_mk]
      rw [if_pos (by simp [List.isPrefixOf_iff_prefix])]
      simp [getAux]

/-- C4: for every tree (with the sorted-edge invariant every tree built
by the operations satisfies), every key k and every value v, Insert(k, v)
followed by Get(k) yields (v, true). -/
theorem c4_insert_then_get {α : Type} (t : Tree α) (k : List Char) (v : α)
    (hs : sortedNode t.root = true) :
    ((t.insert k v).1).get k = (some v, true) := by
  unfold Tree.insert Tree.get
  simp only []
  rw [getAux_insertAux k v t.root k hs]

/-- Witness for C4 at a concrete input. -/
theorem c4_insert_then_get_witness :
    (((((Tree.new : Tree Nat).insert ['a', 'b'] 0).1.insert ['a', 'c'] 1).1.insert
        ['a'] 5).1).get ['a'] = (some 5, true) := by
  apply c4_insert_then_get
  simp +decide [Tree.new, Tree.insert, insertAux, insertAux_cons, getEdge, addEdge,
    updateEdge, longestPrefixLen, sortedNode, sortedEdges, List.isPrefixOf]

/-!  Bridge lemmas: the edge-list predicates as `List.all` /
`List.flatMap`, which makes reassembly after edge-table surgery easy. -/

/-- Single-edge well-formedness: the child's prefix is non-empty and
starts with the edge label, and the child is path-consistent at its
accumulated key. -/
def edgeOk {α : Type} (acc : List Char) (e : Char × Node α) : Bool :=
  (match e.2.pfx with
   | [] => false
   | h :: _ => h == e.1) && pathsOk (acc ++ e.2.pfx) e.2

theorem pathsOkEdges_eq_all {α : Type} (acc : List Char) :
    ∀ es : List (Char × Node α), pathsOkEdges acc es = es.all (edgeOk acc)
  | [] => by simp [pathsOkEdges]
  | (l, m) :: rest => by
    simp [pathsOkEdges, edgeOk, pathsOkEdges_eq_all acc rest, Bool.and_assoc]

theorem sortedEdges_eq_all {α : Type} :
    ∀ es : List (Char × Node α), sortedEdges es = es.all (fun e => sortedNode e.2)
  | [] => by simp [sortedEdges]
  | (l, m) :: rest => by
    simp [sortedEdges, sortedEdges_eq_all rest]

theorem compressedEdges_eq_all {α : Type} :
    ∀ es : List (Char × Node α), compressedEdges es = es.all (fun e => compressedNode e.2)
  | [] => by simp [compressedEdges]
  | (l, m) :: rest => by
    simp [compressedEdges, compressedEdges_eq_all rest]

theorem entriesList_eq_flatMap {α : Type} :
    ∀ es : List (Char × Node α), entriesList es = es.flatMap (fun e => entries e.2)
  | [] => by simp [entriesList]
  | (l, m) :: rest => by
    simp [entriesList, entriesList_eq_flatMap rest]

theorem addEdge_length {α : Type} (e : Char × Node α) :
    ∀ es : List (Char × Node α), (addEdge es e).length = es.length + 1
  | [] => by simp [addEdge]
  | (l, m) :: rest => by
    simp only [addEdge]
    split
    · simp
    · simp [addEdge_length e rest]

theorem addEdge_mem_iff {α : Type} (e x : Char × Node α) :
    ∀ es : List (Char × Node α), x ∈ addEdge es e ↔ x ∈ es ∨ x = e
  | [] => by simp [addEdge]
  | (l, m) :: rest => by
    simp only [addEdge]
    split
    · simp [List.mem_cons]
      tauto
    · simp [List.mem_cons, addEdge_mem_iff e x rest]
      tauto

/-- The node whose stored entry the tree keeps is unaffected by its own
prefix: `pathsOk` only looks at the entry key and the children. -/
theorem pathsOk_pfx_irrel {α : Type} (acc : List Char) (lf : Option (LeafNode α))
    (p p' : List Char) (es : List (Char × Node α)) :
    pathsOk acc (Node.mk lf p es) = pathsOk acc (Node.mk lf p' es) := by
  rw [pathsOk.eq_def, pathsOk.eq_def]

theorem sortedNode_pfx_irrel {α : Type} (lf lf' : Option (LeafNode α))
    (p p' : List Char) (es : List (Char × Node α)) :
    sortedNode (Node.mk lf p es) = sortedNode (Node.mk lf' p' es) := by
  rw [sortedNode.eq_def, sortedNode.eq_def]

/-!  Lexicographic order on keys and facts about `entries`. -/

/-- Strict ascending lexicographic order by symbol: a strict prefix
comes before its extensions. -/
def keyLt : List Char → List Char → Bool
  | _, [] => false
  | [], _ :: _ => true
  | a :: as, b :: bs => decide (a < b) || (a == b && keyLt as bs)

theorem keyLt_append : ∀ (acc x y : List Char), keyLt (acc ++ x) (acc ++ y) = keyLt x y
  | [], _, _ => rfl
  | a :: acc, x, y => by
    simp [List.cons_append, keyLt, keyLt_append acc x y, lt_irrefl]

theorem keyLt_nil_of_ne : ∀ {y : List Char}, y ≠ [] → keyLt [] y = true
  | [], h => absurd rfl h
  | _ :: _, _ => rfl

theorem keyLt_cons_of_lt {a b : Char} (h : a < b) (x y : List Char) :
    keyLt (a :: x) (b :: y) = true := by
  simp [keyLt, h]

theorem keyLt_ne : ∀ {x y : List Char}, keyLt x y = true → x ≠ y
  | _, [], h => by simp [keyLt] at h
  | [], _ :: _, _ => by simp
  | a :: as, b :: bs, h => by
    simp only [keyLt, Bool.or_eq_true, decide_eq_true_eq, Bool.and_eq_true, beq_iff_eq] at h
    rcases h with h | ⟨rfl, h⟩
    · intro hx
      cases hx
      exact lt_irrefl _ h
    · intro hx
      injection hx with _ h2
      exact keyLt_ne h h2

/-- Every stored key in a path-consistent subtree extends the subtree's
accumulated key; keys contributed through an edge extend the
accumulated key of that edge's child. -/
theorem entries_prefix {α : Type} :
    (∀ n : Node α, ∀ acc, pathsOk acc n = true →
      ∀ kv ∈ entries n, kv.1 = acc ∨
        ∃ e ∈ n.edges, edgeOk acc e = true ∧ (acc ++ e.2.pfx) <+: kv.1) ∧
    (∀ es : List (Char × Node α), ∀ acc : List Char, pathsOkEdges acc es = true →
      ∀ kv ∈ entriesList es,
        ∃ e ∈ es, edgeOk acc e = true ∧ (acc ++ e.2.pfx) <+: kv.1) :=
  node_mutual_ind _ _
    (by
      intro lf p es hes acc hp kv hkv
      rw [pathsOk.eq_def] at hp
      simp only [Bool.and_eq_true] at hp
      obtain ⟨hleaf, hedges⟩ := hp
      rw [entries.eq_def] at hkv
      rcases List.mem_append.mp hkv with h | h
      · cases lf with
        | none => simp at h
        | some l =>
          simp only [List.mem_singleton] at h
          subst h
          simp only [beq_iff_eq] at hleaf
          exact Or.inl hleaf
      · exact Or.inr (hes acc hedges kv h))
    (by
      intro acc _ kv hkv
      rw [entriesList.eq_def] at hkv
      simp at hkv)
    (by
      intro l m rest hm hrest acc hp kv hkv
      rw [pathsOkEdges_eq_all] at hp
      simp only [List.all_cons, Bool.and_eq_true] at hp
      obtain ⟨hedge, hrest'⟩ := hp
      rw [entriesList.eq_def] at hkv
      rcases List.mem_append.mp hkv with h | h
      · have hok := hedge
        unfold edgeOk at hok
        simp only [Bool.and_eq_true] at hok
        rcases hm _ hok.2 kv h with h1 | ⟨e, he, heok, hpre⟩
        · exact ⟨(l, m), List.mem_cons_self _ _, hedge, h1 ▸ List.prefix_refl _⟩
        · refine ⟨(l, m), List.mem_cons_self _ _, hedge, ?_⟩
          calc acc ++ m.pfx <+: (acc ++ m.pfx) ++ e.2.pfx := List.prefix_append _ _
          _ <+: kv.1 := hpre
      · obtain ⟨e, he, heok, hpre⟩ := hrest acc (by rw [pathsOkEdges_eq_all]; exact hrest') kv h
        exact ⟨e, List.mem_cons_of_mem _ he, heok, hpre⟩)

theorem entries_key_extends {α : Type} {n : Node α} {acc : List Char}
    (hp : pathsOk acc n = true) {kv : List Char × α} (hkv : kv ∈ entries n) :
    acc <+: kv.1 := by
  rcases entries_prefix.1 n acc hp kv hkv with h | ⟨e, _, _, hpre⟩
  · rw [h]
  · calc acc <+: acc ++ e.2.pfx := List.prefix_append _ _
    _ <+: kv.1 := hpre

theorem entriesList_key_label {α : Type} {es : List (Char × Node α)}
    {acc : List Char} {kv : List Char × α}
    (hp : pathsOkEdges acc es = true) (hkv : kv ∈ entriesList es) :
    ∃ e ∈ es, ∃ tl, e.2.pfx = e.1 :: tl ∧ (acc ++ e.1 :: tl) <+: kv.1 := by
  obtain ⟨e, he, heok, hpre⟩ := entries_prefix.2 es acc hp kv hkv
  unfold edgeOk at heok
  simp only [Bool.and_eq_true] at heok
  obtain ⟨hhead, _⟩ := heok
  cases hpfx : e.2.pfx with
  | nil => rw [hpfx] at hhead; cases hhead
  | cons h0 tl =>
    rw [hpfx] at hhead
    simp only [beq_iff_eq] at hhead
    subst hhead
    rw [hpfx] at hpre
    exact ⟨e, he, tl, hpfx, hpre⟩

theorem prefix_head_eq {acc : List Char} {c l : Char} {x y k : List Char}
    (h1 : (acc ++ c :: x) <+: k) (h2 : (acc ++ l :: y) <+: k) : c = l := by
  rcases List.prefix_or_prefix_of_prefix h1 h2 with h | h
  · have := (List.prefix_append_right_inj acc).mp h
    exact (List.cons_prefix_iff.mp this).1
  · have := (List.prefix_append_right_inj acc).mp h
    exact ((List.cons_prefix_iff.mp this).1).symm

theorem not_prefix_strict_of_self {acc : List Char} {c : Char} {x : List Char} :
    ¬ (acc ++ c :: x) <+: acc := by
  intro h
  have := h.length_le
  simp at this

/-- The pre-order `entries` of a sorted, path-consistent subtree are in
strictly ascending key order. -/
theorem entries_sorted {α : Type} :
    (∀ n : Node α, ∀ acc, sortedNode n = true → pathsOk acc n = true →
      List.Pairwise (fun a b : List Char × α => keyLt a.1 b.1 = true) (entries n)) ∧
    (∀ es : List (Char × Node α), ∀ acc : List Char,
      ((es.map Prod.fst).Pairwise (· < ·)) → sortedEdges es = true →
      pathsOkEdges acc es = true →
      List.Pairwise (fun a b : List Char × α => keyLt a.1 b.1 = true) (entriesList es)) :=
  node_mutual_ind _ _
    (by
      intro lf p es hes acc hs hp
      rw [sortedNode.eq_def] at hs
      rw [pathsOk.eq_def] at hp
      simp only [Bool.and_eq_true, decide_eq_true_eq] at hs hp
      obtain ⟨ho, hse⟩ := hs
      obtain ⟨hleaf, hpe⟩ := hp
      rw [entries.eq_def]
      simp only []
      apply List.pairwise_append.mpr
      refine ⟨?_, hes acc ho hse hpe, ?_⟩
      · cases lf <;> simp
      · intro a ha b hb
        cases lf with
        | none => simp at ha
        | some l =>
          simp only [List.mem_singleton] at ha
          subst ha
          simp only [beq_iff_eq] at hleaf
          obtain ⟨e, he, tl, hpfx, hpre⟩ := entriesList_key_label hpe hb
          obtain ⟨ext, hext⟩ := hpre
          simp only [hleaf]
          rw [← hext]
          have hk := keyLt_append acc [] (e.1 :: (tl ++ ext))
          rw [List.append_nil] at hk
          simp only [List.append_assoc, List.cons_append]
          rw [hk]
          exact keyLt_nil_of_ne (by simp))
    (by
      intro acc _ _ _
      rw [entriesList.eq_def]
      simp)
    (by
      intro l m rest hm hrest acc ho hse hpe
      rw [pairwise_labels_cons] at ho
      rw [sortedEdges_eq_all] at hse
      rw [pathsOkEdges_eq_all] at hpe
      simp only [List.all_cons, Bool.and_eq_true] at hse hpe
      obtain ⟨hsm, hsrest⟩ := hse
      obtain ⟨hpm, hprest⟩ := hpe
      rw [entriesList.eq_def]
      simp only []
      apply List.pairwise_append.mpr
      refine ⟨?_, ?_, ?_⟩
      · unfold edgeOk at hpm
        simp only [Bool.and_eq_true] at hpm
        exact hm (acc ++ m.pfx) hsm hpm.2
      · exact hrest acc ho.2 (by rw [sortedEdges_eq_all]; exact hsrest)
          (by rw [pathsOkEdges_eq_all]; exact hprest)
      · intro a ha b hb
        -- a is stored under the child m, b under a later edge with a
        -- strictly larger label
        unfold edgeOk at hpm
        simp only [Bool.and_eq_true] at hpm
        obtain ⟨hhead, hpOk⟩ := hpm
        obtain ⟨tl0, hpfx0⟩ : ∃ tl0, m.pfx = l :: tl0 := by
          cases hq : m.pfx with
          | nil => rw [hq] at hhead; cases hhead
          | cons u v =>
            rw [hq] at hhead
            simp only [beq_iff_eq] at hhead
            exact ⟨v, by rw [hhead]⟩
        have hapre : (acc ++ l :: tl0) <+: a.1 := by
          have := entries_key_extends hpOk ha
          rw [hpfx0] at this
          simpa using this
        obtain ⟨e, he, tl', hpfx', hbpre⟩ :=
          entriesList_key_label (by rw [pathsOkEdges_eq_all]; exact hprest) hb
        have hle : l < e.1 := ho.1 e he
        obtain ⟨ea, hea⟩ := hapre
        obtain ⟨eb, heb⟩ := hbpre
        rw [← hea, ← heb, List.append_assoc, List.append_assoc, keyLt_append]
        simp only [List.cons_append]
        exact keyLt_cons_of_lt hle _ _)

/-!  Bridges between the state-passing walks and `entries`. -/

theorem recursiveWalk_fold {α σ : Type} (g : σ → List Char → α → σ) :
    (∀ n : Node α, ∀ st : σ,
      recursiveWalk (fun st k v => (g st k v, false)) n st =
        ((entries n).foldl (fun st kv => g st kv.1 kv.2) st, false)) ∧
    (∀ es : List (Char × Node α), ∀ st : σ,
      recursiveWalkList (fun st k v => (g st k v, false)) es st =
        ((entriesList es).foldl (fun st kv => g st kv.1 kv.2) st, false)) :=
  node_mutual_ind _ _
    (by
      intro lf p es hes st
      cases lf with
      | none =>
        rw [recursiveWalk]
        rw [hes st, entries.eq_def]
        simp
      | some l =>
        rw [recursiveWalk]
        simp only []
        rw [hes (g st l.key l.val), entries.eq_def]
        simp)
    (by
      intro st
      rw [recursiveWalkList, entriesList.eq_def]
      simp)
    (by
      intro l m rest hm hrest st
      rw [recursiveWalkList]
      rw [hm st]
      simp only []
      rw [hrest]
      conv_rhs => rw [entriesList.eq_def]
      simp [List.foldl_append])

theorem foldl_snoc_eq_append {β : Type} :
    ∀ (l : List β) (st : List β), l.foldl (fun a b => a ++ [b]) st = st ++ l
  | [], st => by simp
  | b :: l, st => by
    simp [foldl_snoc_eq_append l (st ++ [b])]

theorem foldl_count_eq_length {β : Type} :
    ∀ (l : List β) (st : Int), l.foldl (fun a _ => a + 1) st = st + l.length
  | [], st => by simp
  | b :: l, st => by
    simp [foldl_count_eq_length l (st + 1)]
    omega

/-- The Go counting closure used by `deletePrefix` counts exactly the
stored entries of the subtree. -/
theorem recursiveWalk_count {α : Type} (n : Node α) (st : Int) :
    recursiveWalk (fun (k : Int) _ _ => (k + 1, false)) n st =
      (st + (entries n).length, false) := by
  have := (recursiveWalk_fold (fun (k : Int) (_ : List Char) (_ : α) => k + 1)).1 n st
  rw [this, foldl_count_eq_length]

/-- The collecting visitor records exactly the pre-order `entries`. -/
theorem recursiveWalk_collect {α : Type} (n : Node α) (st : List (List Char × α)) :
    recursiveWalk (fun st k v => (st ++ [(k, v)], false)) n st =
      (st ++ entries n, false) := by
  have := (recursiveWalk_fold
    (fun (st : List (List Char × α)) (k : List Char) (v : α) => st ++ [(k, v)])).1 n st
  rw [this, foldl_snoc_eq_append]

/-!  Per-branch equations for the recursive operations: each states one
fully reduced step, so later proofs can rewrite without untangling the
match on the `getEdge` result. -/

theorem insertAux_nil {α : Type} (s : List Char) (v : α) (lf : Option (LeafNode α))
    (p : List Char) (es : List (Char × Node α)) :
    insertAux s v (Node.mk lf p es) [] =
      (match lf with
       | some l => ⟨Node.mk (some ⟨l.key, v⟩) p es, some l.val, true, 0⟩
       | none => ⟨Node.mk (some ⟨s, v⟩) p es, none, false, 1⟩) := by
  cases lf <;> simp [insertAux]

theorem insertAux_cons_none {α : Type} {s : List Char} {v : α}
    {lf : Option (LeafNode α)} {p : List Char} {es : List (Char × Node α)}
    {c : Char} {rest : List Char} (hg : getEdge es c = none) :
    insertAux s v (Node.mk lf p es) (c :: rest) =
      ⟨Node.mk lf p (addEdge es (c, Node.mk (some ⟨s, v⟩) (c :: rest) [])),
        none, false, 1⟩ := by
  rw [insertAux_cons, hg]

theorem insertAux_cons_found {α : Type} {s : List Char} {v : α}
    {lf : Option (LeafNode α)} {p : List Char} {es : List (Char × Node α)}
    {c : Char} {rest : List Char} {child : Node α}
    (hg : getEdge es c = some child)
    (hcom : longestPrefixLen (c :: rest) child.pfx = child.pfx.length) :
    insertAux s v (Node.mk lf p es) (c :: rest) =
      ⟨Node.mk lf p (updateEdge es c
          (insertAux s v child ((c :: rest).drop (longestPrefixLen (c :: rest) child.pfx))).node),
        (insertAux s v child ((c :: rest).drop (longestPrefixLen (c :: rest) child.pfx))).old,
        (insertAux s v child ((c :: rest).drop (longestPrefixLen (c :: rest) child.pfx))).updated,
        (insertAux s v child ((c :: rest).drop (longestPrefixLen (c :: rest) child.pfx))).delta⟩ := by
  rw [insertAux_cons, hg]
  simp [hcom]

theorem insertAux_cons_split {α : Type} {s : List Char} {v : α}
    {lf : Option (LeafNode α)} {p : List Char} {es : List (Char × Node α)}
    {c : Char} {rest : List Char} {child : Node α}
    (hg : getEdge es c = some child)
    (hcom : ¬ longestPrefixLen (c :: rest) child.pfx = child.pfx.length) :
    insertAux s v (Node.mk lf p es) (c :: rest) =
      ⟨Node.mk lf p (updateEdge es c
          (match (c :: rest).drop (longestPrefixLen (c :: rest) child.pfx) with
           | [] =>
             Node.mk (some ⟨s, v⟩) ((c :: rest).take (longestPrefixLen (c :: rest) child.pfx))
               (addEdge [] ((child.pfx.drop (longestPrefixLen (c :: rest) child.pfx)).headD c,
                 Node.mk child.leaf (child.pfx.drop (longestPrefixLen (c :: rest) child.pfx)) child.edges))
           | c2 :: tl2 =>
             Node.mk none ((c :: rest).take (longestPrefixLen (c :: rest) child.pfx))
               (addEdge (addEdge [] ((child.pfx.drop (longestPrefixLen (c :: rest) child.pfx)).headD c,
                   Node.mk child.leaf (child.pfx.drop (longestPrefixLen (c :: rest) child.pfx)) child.edges))
                 (c2, Node.mk (some ⟨s, v⟩) (c2 :: tl2) [])))),
        none, false, 1⟩ := by
  rw [insertAux_cons, hg]
  simp [hcom]

theorem deleteAux_nil {α : Type} (lf : Option (LeafNode α)) (p : List Char)
    (es : List (Char × Node α)) :
    deleteAux (Node.mk lf p es) [] =
      (match lf with
       | none => DelStep.notFound
       | some l =>
         if es.length = 0 then DelStep.final none l.val
         else if es.length = 1 then DelStep.final (some (mergeChild (Node.mk none p es))) l.val
         else DelStep.final (some (Node.mk none p es)) l.val) := by
  cases lf <;> simp [deleteAux]

theorem deleteAux_cons_none {α : Type} {lf : Option (LeafNode α)} {p : List Char}
    {es : List (Char × Node α)} {c : Char} {rest : List Char}
    (hg : getEdge es c = none) :
    deleteAux (Node.mk lf p es) (c :: rest) = DelStep.notFound := by
  rw [deleteAux_cons, hg]

theorem deleteAux_cons_nopre {α : Type} {lf : Option (LeafNode α)} {p : List Char}
    {es : List (Char × Node α)} {c : Char} {rest : List Char} {child : Node α}
    (hg : getEdge es c = some child)
    (hpre : ¬ child.pfx.isPrefixOf (c :: rest) = true) :
    deleteAux (Node.mk lf p es) (c :: rest) = DelStep.notFound := by
  rw [deleteAux_cons, hg]
  simp [hpre]

theorem deleteAux_cons_rec {α : Type} {lf : Option (LeafNode α)} {p : List Char}
    {es : List (Char × Node α)} {c : Char} {rest : List Char} {child : Node α}
    (hg : getEdge es c = some child)
    (hpre : child.pfx.isPrefixOf (c :: rest) = true) :
    deleteAux (Node.mk lf p es) (c :: rest) =
      (match deleteAux child ((c :: rest).drop child.pfx.length) with
       | .notFound => .notFound
       | .final rep v =>
         let es' := match rep with
           | none => delEdge es c
           | some child' => updateEdge es c child'
         if es'.length = 1 && lf.isNone then .done (mergeChild (Node.mk lf p es')) v
         else .done (Node.mk lf p es') v
       | .done child' v => .done (Node.mk lf p (updateEdge es c child')) v) := by
  rw [deleteAux_cons, hg]
  simp [hpre]

theorem deletePrefixAux_nil {α : Type} (lf : Option (LeafNode α)) (p : List Char)
    (es : List (Char × Node α)) :
    deletePrefixAux (Node.mk lf p es) [] =
      DelPfxStep.final (Node.mk none p [])
        ((0 : Int) + (entries (Node.mk lf p es)).length) := by
  rw [deletePrefixAux]
  rw [recursiveWalk_count]

theorem deletePrefixAux_cons_none {α : Type} {lf : Option (LeafNode α)} {p : List Char}
    {es : List (Char × Node α)} {c : Char} {rest : List Char}
    (hg : getEdge es c = none) :
    deletePrefixAux (Node.mk lf p es) (c :: rest) = DelPfxStep.zero := by
  rw [deletePrefixAux_cons, hg]

theorem deletePrefixAux_cons_miss {α : Type} {lf : Option (LeafNode α)} {p : List Char}
    {es : List (Char × Node α)} {c : Char} {rest : List Char} {child : Node α}
    (hg : getEdge es c = some child)
    (hcond : (!child.pfx.isPrefixOf (c :: rest) && !(c :: rest).isPrefixOf child.pfx) = true) :
    deletePrefixAux (Node.mk lf p es) (c :: rest) = DelPfxStep.zero := by
  rw [deletePrefixAux_cons, hg]
  simp only [hcond, if_true]

theorem deletePrefixAux_cons_rec {α : Type} {lf : Option (LeafNode α)} {p : List Char}
    {es : List (Char × Node α)} {c : Char} {rest : List Char} {child : Node α}
    (hg : getEdge es c = some child)
    (hcond : ¬ (!child.pfx.isPrefixOf (c :: rest) && !(c :: rest).isPrefixOf child.pfx) = true) :
    deletePrefixAux (Node.mk lf p es) (c :: rest) =
      (match deletePrefixAux child
          (if child.pfx.length > (c :: rest).length then ([] : List Char)
           else (c :: rest).drop child.pfx.length) with
       | .zero => .zero
       | .final rep cnt =>
         if (updateEdge es c rep).length = 1 && lf.isNone then
           .done (mergeChild (Node.mk lf p (updateEdge es c rep))) cnt
         else .done (Node.mk lf p (updateEdge es c rep)) cnt
       | .done rep cnt => .done (Node.mk lf p (updateEdge es c rep)) cnt) := by
  rw [deletePrefixAux_cons, hg]
  simp [hcond]

/-!  Preservation of the structural invariants by Insert. -/

theorem sortedNode_mk_iff {α : Type} {lf : Option (LeafNode α)} {p : List Char}
    {es : List (Char × Node α)} :
    sortedNode (Node.mk lf p es) = true ↔
      ((es.map Prod.fst).Pairwise (· < ·)) ∧ es.all (fun e => sortedNode e.2) = true := by
  rw [sortedNode.eq_def]
  simp [sortedEdges_eq_all]

theorem pathsOk_mk_iff {α : Type} {lf : Option (LeafNode α)} {p acc : List Char}
    {es : List (Char × Node α)} :
    pathsOk acc (Node.mk lf p es) = true ↔
      (∀ l ∈ lf, l.key = acc) ∧ es.all (edgeOk acc) = true := by
  rw [pathsOk.eq_def]
  cases lf <;> simp [pathsOkEdges_eq_all]

theorem insertAux_sorted {α : Type} (s : List Char) (v : α) :
    ∀ (n : Node α) (search : List Char), sortedNode n = true →
    sortedNode (insertAux s v n search).node = true := by
  intro n search
  induction n, search using insertAux.induct s v with
  | case1 p es l =>
    intro hs
    rw [insertAux_nil]
    simp only []
    rw [sortedNode_pfx_irrel _ (some l) _ p]
    exact hs
  | case2 p es =>
    intro hs
    rw [insertAux_nil]
    simp only []
    rw [sortedNode_pfx_irrel _ none _ p]
    exact hs
  | case3 lf p es c rest hg =>
    intro hs
    rw [sortedNode_mk_iff] at hs
    obtain ⟨ho, hall⟩ := hs
    have hnotin := (getEdge_none_iff ho).mp hg
    obtain ⟨pre, post, hsplit, hadd, hpre, hpost⟩ :=
      addEdge_decomp ho hnotin (Node.mk (some ⟨s, v⟩) (c :: rest) [])
    rw [insertAux_cons_none hg]
    simp only []
    rw [sortedNode_mk_iff, hadd]
    constructor
    · apply pairwise_labels_insert _ hpre hpost
      rw [← hsplit]
      exact ho
    · rw [hsplit] at hall
      simp only [List.all_append, List.all_cons, Bool.and_eq_true] at hall ⊢
      refine ⟨hall.1, ?_, hall.2⟩
      rw [sortedNode_mk_iff]
      simp
  | case4 lf p es c rest child hg common hcom ih =>
    intro hs
    rw [sortedNode_mk_iff] at hs
    obtain ⟨ho, hall⟩ := hs
    have hchild : sortedNode child = true := by
      have := List.all_eq_true.mp hall _ (getEdge_mem hg)
      simpa using this
    have hres := ih hchild
    obtain ⟨pre, post, hsplit, hpre, hpost, hupd, _⟩ := getEdge_decomp ho hg
    rw [insertAux_cons_found hg hcom]
    simp only []
    rw [sortedNode_mk_iff, hupd]
    constructor
    · apply pairwise_labels_insert _ hpre hpost
      exact pairwise_labels_drop_mid (hsplit ▸ ho)
    · rw [hsplit] at hall
      simp only [List.all_append, List.all_cons, Bool.and_eq_true] at hall ⊢
      exact ⟨hall.1, hres, hall.2.2⟩
  | case5 lf p es c rest child hg common hcom =>
    intro hs
    rw [sortedNode_mk_iff] at hs
    obtain ⟨ho, hall⟩ := hs
    have hchild : sortedNode child = true := by
      have := List.all_eq_true.mp hall _ (getEdge_mem hg)
      simpa using this
    obtain ⟨pre, post, hsplit, hpre, hpost, hupd, _⟩ := getEdge_decomp ho hg
    rw [insertAux_cons_split hg hcom]
    simp only []
    rw [sortedNode_mk_iff, hupd]
    have hmid : ∀ mid : Node α,
        (match (c :: rest).drop (longestPrefixLen (c :: rest) child.pfx) with
         | [] =>
           Node.mk (some ⟨s, v⟩) ((c :: rest).take (longestPrefixLen (c :: rest) child.pfx))
             (addEdge [] ((child.pfx.drop (longestPrefixLen (c :: rest) child.pfx)).headD c,
               Node.mk child.leaf (child.pfx.drop (longestPrefixLen (c :: rest) child.pfx)) child.edges))
         | c2 :: tl2 =>
           Node.mk none ((c :: rest).take (longestPrefixLen (c :: rest) child.pfx))
             (addEdge (addEdge [] ((child.pfx.drop (longestPrefixLen (c :: rest) child.pfx)).headD c,
                 Node.mk child.leaf (child.pfx.drop (longestPrefixLen (c :: rest) child.pfx)) child.edges))
               (c2, Node.mk (some ⟨s, v⟩) (c2 :: tl2) []))) = mid →
        sortedNode mid = true := by
      intro mid hmideq
      have hsortOld : sortedNode (Node.mk child.leaf
          (child.pfx.drop (longestPrefixLen (c :: rest) child.pfx)) child.edges) = true := by
        rw [sortedNode_pfx_irrel _ child.leaf _ child.pfx]
        cases child
        exact hchild
      cases hdrop : (c :: rest).drop (longestPrefixLen (c :: rest) child.pfx) with
      | nil =>
        rw [hdrop] at hmideq
        subst hmideq
        rw [sortedNode_mk_iff]
        simp [addEdge, hsortOld]
      | cons c2 tl2 =>
        rw [hdrop] at hmideq
        subst hmideq
        have hltlen : longestPrefixLen (c :: rest) child.pfx < child.pfx.length :=
          lt_of_le_of_ne (longestPrefixLen_le_right (c :: rest) child.pfx) hcom
        obtain ⟨h0, tl0, hshort⟩ : ∃ h0 tl0,
            child.pfx.drop (longestPrefixLen (c :: rest) child.pfx) = h0 :: tl0 := by
          cases hsh : child.pfx.drop (longestPrefixLen (c :: rest) child.pfx) with
          | nil =>
            have := List.drop_eq_nil_iff.mp hsh
            omega
          | cons a b => exact ⟨a, b, rfl⟩
        have hne : c2 ≠ h0 := longestPrefixLen_head_ne hdrop hshort
        rw [hshort]
        simp only [List.headD_cons]
        rw [sortedNode_mk_iff]
        rcases lt_trichotomy c2 h0 with hlt | heq | hgt
        · rw [show addEdge (addEdge ([] : List (Char × Node α))
              (h0, Node.mk child.leaf (h0 :: tl0) child.edges))
              (c2, Node.mk (some ⟨s, v⟩) (c2 :: tl2) []) =
              [(c2, Node.mk (some ⟨s, v⟩) (c2 :: tl2) []),
               (h0, Node.mk child.leaf (h0 :: tl0) child.edges)] by simp [addEdge, hlt]]
          refine ⟨by simp [hlt], ?_⟩
          simp only [List.all_cons, Bool.and_eq_true]
          refine ⟨by rw [sortedNode_mk_iff]; simp, ?_, by simp⟩
          rw [hshort] at hsortOld
          simpa using hsortOld
        · exact absurd heq hne
        · rw [show addEdge (addEdge ([] : List (Char × Node α))
              (h0, Node.mk child.leaf (h0 :: tl0) child.edges))
              (c2, Node.mk (some ⟨s, v⟩) (c2 :: tl2) []) =
              [(h0, Node.mk child.leaf (h0 :: tl0) child.edges),
               (c2, Node.mk (some ⟨s, v⟩) (c2 :: tl2) [])] by
            simp [addEdge, not_lt_of_gt hgt]]
          refine ⟨by simp [hgt], ?_⟩
          simp only [List.all_cons, Bool.and_eq_true]
          refine ⟨?_, by rw [sortedNode_mk_iff]; simp, by simp⟩
          rw [hshort] at hsortOld
          simpa using hsortOld
    constructor
    · apply pairwise_labels_insert _ hpre hpost
      exact pairwise_labels_drop_mid (hsplit ▸ ho)
    · rw [hsplit] at hall
      simp only [List.all_append, List.all_cons, Bool.and_eq_true] at hall ⊢
      exact ⟨hall.1, hmid _ rfl, hall.2.2⟩

theorem longestPrefixLen_cons_same (c : Char) (rest tl : List Char) :
    longestPrefixLen (c :: rest) (c :: tl) = longestPrefixLen rest tl + 1 := by
  simp [longestPrefixLen]

theorem insertAux_pathsOk {α : Type} (s : List Char) (v : α) :
    ∀ (n : Node α) (search : List Char), ∀ acc : List Char,
    sortedNode n = true → pathsOk acc n = true → s = acc ++ search →
    pathsOk acc (insertAux s v n search).node = true := by
  intro n search
  induction n, search using insertAux.induct s v with
  | case1 p es l =>
    intro acc hs hp hacc
    rw [insertAux_nil]
    simp only []
    rw [pathsOk_mk_iff] at hp ⊢
    refine ⟨?_, hp.2⟩
    intro l' hl'
    simp only [Option.mem_def, Option.some.injEq] at hl'
    subst hl'
    exact hp.1 l rfl
  | case2 p es =>
    intro acc hs hp hacc
    rw [insertAux_nil]
    simp only []
    rw [pathsOk_mk_iff] at hp ⊢
    refine ⟨?_, hp.2⟩
    intro l' hl'
    simp only [Option.mem_def, Option.some.injEq] at hl'
    subst hl'
    simpa using hacc
  | case3 lf p es c rest hg =>
    intro acc hs hp hacc
    rw [sortedNode_mk_iff] at hs
    obtain ⟨ho, _⟩ := hs
    rw [pathsOk_mk_iff] at hp
    obtain ⟨hleaf, hall⟩ := hp
    have hnotin := (getEdge_none_iff ho).mp hg
    obtain ⟨pre, post, hsplit, hadd, _, _⟩ :=
      addEdge_decomp ho hnotin (Node.mk (some ⟨s, v⟩) (c :: rest) [])
    rw [insertAux_cons_none hg]
    simp only []
    rw [pathsOk_mk_iff, hadd]
    refine ⟨hleaf, ?_⟩
    rw [hsplit] at hall
    simp only [List.all_append, List.all_cons, Bool.and_eq_true] at hall ⊢
    refine ⟨hall.1, ?_, hall.2⟩
    unfold edgeOk
    simp only [Node.pfx_mk, beq_self_eq_true, Bool.true_and]
    rw [pathsOk_mk_iff]
    refine ⟨?_, by simp⟩
    intro l' hl'
    simp only [Option.mem_def, Option.some.injEq] at hl'
    subst hl'
    exact hacc
  | case4 lf p es c rest child hg common hcom ih =>
    intro acc hs hp hacc
    rw [sortedNode_mk_iff] at hs
    obtain ⟨ho, hsall⟩ := hs
    rw [pathsOk_mk_iff] at hp
    obtain ⟨hleaf, hall⟩ := hp
    have hedge : edgeOk acc (c, child) = true := by
      have := List.all_eq_true.mp hall _ (getEdge_mem hg)
      simpa using this
    have hchildS : sortedNode child = true := by
      have := List.all_eq_true.mp hsall _ (getEdge_mem hg)
      simpa using this
    unfold edgeOk at hedge
    simp only [Bool.and_eq_true] at hedge
    obtain ⟨hhead, hchildP⟩ := hedge
    have hprefix : child.pfx <+: (c :: rest) := prefix_of_longestPrefixLen_eq hcom
    have hdecomp : child.pfx ++ (c :: rest).drop child.pfx.length = c :: rest := by
      obtain ⟨t, ht⟩ := hprefix
      rw [← ht]
      simp
    have hs' : s = (acc ++ child.pfx) ++ (c :: rest).drop child.pfx.length := by
      rw [hacc, List.append_assoc, hdecomp]
    have hres := ih (acc ++ child.pfx) hchildS hchildP (by rw [hs', hcom])
    obtain ⟨pre, post, hsplit, _, _, hupd, _⟩ := getEdge_decomp ho hg
    rw [insertAux_cons_found hg hcom]
    simp only []
    rw [pathsOk_mk_iff, hupd]
    refine ⟨hleaf, ?_⟩
    rw [hsplit] at hall
    simp only [List.all_append, List.all_cons, Bool.and_eq_true] at hall ⊢
    refine ⟨hall.1, ?_, hall.2.2⟩
    unfold edgeOk
    simp only [Bool.and_eq_true]
    have hpfxeq : (insertAux s v child ((c :: rest).drop common)).node.pfx = child.pfx :=
      insertAux_pfx s v child _
    constructor
    · rw [hpfxeq]
      exact hhead
    · rw [hpfxeq]
      exact hres
  | case5 lf p es c rest child hg common hcom =>
    intro acc hs hp hacc
    rw [sortedNode_mk_iff] at hs
    obtain ⟨ho, hsall⟩ := hs
    rw [pathsOk_mk_iff] at hp
    obtain ⟨hleaf, hall⟩ := hp
    have hedge : edgeOk acc (c, child) = true := by
      have := List.all_eq_true.mp hall _ (getEdge_mem hg)
      simpa using this
    unfold edgeOk at hedge
    simp only [Bool.and_eq_true] at hedge
    obtain ⟨hhead, hchildP⟩ := hedge
    obtain ⟨tl, hpfx⟩ : ∃ tl, child.pfx = c :: tl := by
      cases hq : child.pfx with
      | nil => rw [hq] at hhead; cases hhead
      | cons u vv =>
        rw [hq] at hhead
        simp only [beq_iff_eq] at hhead
        exact ⟨vv, by rw [hhead]⟩
    obtain ⟨k, hk⟩ : ∃ k, longestPrefixLen (c :: rest) child.pfx = k + 1 := by
      rw [hpfx, longestPrefixLen_cons_same]
      exact ⟨_, rfl⟩
    have htake : (c :: rest).take (longestPrefixLen (c :: rest) child.pfx) =
        c :: rest.take k := by
      rw [hk]
      simp
    have htakeeq := longestPrefixLen_take (c :: rest) child.pfx
    have hltlen : longestPrefixLen (c :: rest) child.pfx < child.pfx.length :=
      lt_of_le_of_ne (longestPrefixLen_le_right (c :: rest) child.pfx) hcom
    have hchildsplit : (c :: rest).take (longestPrefixLen (c :: rest) child.pfx) ++
        child.pfx.drop (longestPrefixLen (c :: rest) child.pfx) = child.pfx := by
      rw [htakeeq]
      exact List.take_append_drop _ _
    have hsearchsplit : (c :: rest).take (longestPrefixLen (c :: rest) child.pfx) ++
        (c :: rest).drop (longestPrefixLen (c :: rest) child.pfx) = c :: rest :=
      List.take_append_drop _ _
    obtain ⟨h0, tl0, hshort⟩ : ∃ h0 tl0,
        child.pfx.drop (longestPrefixLen (c :: rest) child.pfx) = h0 :: tl0 := by
      cases hsh : child.pfx.drop (longestPrefixLen (c :: rest) child.pfx) with
      | nil =>
        have := List.drop_eq_nil_iff.mp hsh
        omega
      | cons a b => exact ⟨a, b, rfl⟩
    have hOldOk : edgeOk (acc ++ (c :: rest).take (longestPrefixLen (c :: rest) child.pfx))
        ((child.pfx.drop (longestPrefixLen (c :: rest) child.pfx)).headD c,
          Node.mk child.leaf (child.pfx.drop (longestPrefixLen (c :: rest) child.pfx))
            child.edges) = true := by
      have hcs := hchildsplit
      rw [hshort] at hcs
      unfold edgeOk
      rw [hshort]
      simp only [Node.pfx_mk, List.headD_cons, beq_self_eq_true, Bool.true_and]
      rw [List.append_assoc, hcs]
      rw [pathsOk_pfx_irrel _ child.leaf _ child.pfx]
      rw [Node.eta]
      exact hchildP
    obtain ⟨pre, post, hsplit, _, _, hupd, _⟩ := getEdge_decomp ho hg
    rw [insertAux_cons_split hg hcom]
    simp only []
    rw [pathsOk_mk_iff, hupd]
    refine ⟨hleaf, ?_⟩
    rw [hsplit] at hall
    simp only [List.all_append, List.all_cons, Bool.and_eq_true] at hall ⊢
    refine ⟨hall.1, ?_, hall.2.2⟩
    cases hdrop : (c :: rest).drop (longestPrefixLen (c :: rest) child.pfx) with
    | nil =>
      unfold edgeOk
      simp only [Node.pfx_mk]
      rw [Bool.and_eq_true]
      refine ⟨?_, ?_⟩
      · rw [htake]
        simp
      · rw [pathsOk_mk_iff]
        refine ⟨?_, ?_⟩
        · intro l' hl'
          simp only [Option.mem_def, Option.some.injEq] at hl'
          subst hl'
          simp only []
          have htk : (c :: rest).take (longestPrefixLen (c :: rest) child.pfx) = c :: rest := by
            have h2 := hsearchsplit
            rw [hdrop] at h2
            simpa using h2
          rw [hacc, htk]
        · have haddeq : addEdge ([] : List (Char × Node α))
              ((child.pfx.drop (longestPrefixLen (c :: rest) child.pfx)).headD c,
                Node.mk child.leaf (child.pfx.drop (longestPrefixLen (c :: rest) child.pfx))
                  child.edges) =
              [((child.pfx.drop (longestPrefixLen (c :: rest) child.pfx)).headD c,
                Node.mk child.leaf (child.pfx.drop (longestPrefixLen (c :: rest) child.pfx))
                  child.edges)] := by
            simp [addEdge]
          rw [haddeq]
          simp only [List.all_cons, List.all_nil, Bool.and_true]
          exact hOldOk
    | cons c2 tl2 =>
      have hkey : s = (acc ++ (c :: rest).take (longestPrefixLen (c :: rest) child.pfx)) ++
          (c2 :: tl2) := by
        rw [hacc, List.append_assoc]
        congr 1
        rw [← hdrop]
        exact hsearchsplit.symm
      have hNewOk : edgeOk (acc ++ (c :: rest).take (longestPrefixLen (c :: rest) child.pfx))
          (c2, Node.mk (some ⟨s, v⟩) (c2 :: tl2) []) = true := by
        unfold edgeOk
        simp only [Node.pfx_mk, beq_self_eq_true, Bool.true_and]
        rw [pathsOk_mk_iff]
        refine ⟨?_, by simp⟩
        intro l' hl'
        simp only [Option.mem_def, Option.some.injEq] at hl'
        subst hl'
        exact hkey
      unfold edgeOk
      simp only [Node.pfx_mk]
      rw [Bool.and_eq_true]
      refine ⟨?_, ?_⟩
      · rw [htake]
        simp
      · rw [pathsOk_mk_iff]
        refine ⟨by simp, ?_⟩
        rw [hshort]
        simp only [List.headD_cons]
        rw [hshort] at hOldOk
        simp only [List.headD_cons] at hOldOk
        by_cases horder : c2 < h0
        · rw [show addEdge (addEdge ([] : List (Char × Node α))
              (h0, Node.mk child.leaf (h0 :: tl0) child.edges))
              (c2, Node.mk (some ⟨s, v⟩) (c2 :: tl2) []) =
              [(c2, Node.mk (some ⟨s, v⟩) (c2 :: tl2) []),
               (h0, Node.mk child.leaf (h0 :: tl0) child.edges)] by simp [addEdge, horder]]
          simp only [List.all_cons, List.all_nil, Bool.and_eq_true, Bool.and_true]
          exact ⟨hNewOk, hshort ▸ hOldOk⟩
        · rw [show addEdge (addEdge ([] : List (Char × Node α))
              (h0, Node.mk child.leaf (h0 :: tl0) child.edges))
              (c2, Node.mk (some ⟨s, v⟩) (c2 :: tl2) []) =
              [(h0, Node.mk child.leaf (h0 :: tl0) child.edges),
               (c2, Node.mk (some ⟨s, v⟩) (c2 :: tl2) [])] by simp [addEdge, horder]]
          simp only [List.all_cons, List.all_nil, Bool.and_eq_true, Bool.and_true]
          exact ⟨hshort ▸ hOldOk, hNewOk⟩

theorem compressedNode_mk_iff {α : Type} {lf : Option (LeafNode α)} {p : List Char}
    {es : List (Char × Node α)} :
    compressedNode (Node.mk lf p es) = true ↔
      (lf.isSome = true ∨ 2 ≤ es.length) ∧ es.all (fun e => compressedNode e.2) = true := by
  rw [compressedNode.eq_def]
  simp [compressedEdges_eq_all]

theorem compressedNode_iff {α : Type} {n : Node α} :
    compressedNode n = true ↔
      (n.leaf.isSome = true ∨ 2 ≤ n.edges.length) ∧
      n.edges.all (fun e => compressedNode e.2) = true := by
  cases n
  exact compressedNode_mk_iff

theorem compressedNode_pfx_irrel {α : Type} (lf : Option (LeafNode α))
    (p p' : List Char) (es : List (Char × Node α)) :
    compressedNode (Node.mk lf p es) = compressedNode (Node.mk lf p' es) := by
  rw [compressedNode.eq_def, compressedNode.eq_def]

theorem insertAux_compressed {α : Type} (s : List Char) (v : α) :
    ∀ (n : Node α) (search : List Char), sortedNode n = true →
    (n.edges.all (fun e => compressedNode e.2)) = true →
    ((insertAux s v n search).node.edges.all (fun e => compressedNode e.2)) = true ∧
    ((n.leaf.isSome = true ∨ 2 ≤ n.edges.length) →
      ((insertAux s v n search).node.leaf.isSome = true ∨
        2 ≤ (insertAux s v n search).node.edges.length)) := by
  intro n search
  induction n, search using insertAux.induct s v with
  | case1 p es l =>
    intro hs hc
    rw [insertAux_nil]
    simp only []
    exact ⟨hc, fun _ => Or.inl (by simp)⟩
  | case2 p es =>
    intro hs hc
    rw [insertAux_nil]
    simp only []
    exact ⟨hc, fun _ => Or.inl (by simp)⟩
  | case3 lf p es c rest hg =>
    intro hs hc
    rw [sortedNode_mk_iff] at hs
    obtain ⟨ho, _⟩ := hs
    have hnotin := (getEdge_none_iff ho).mp hg
    obtain ⟨pre, post, hsplit, hadd, _, _⟩ :=
      addEdge_decomp ho hnotin (Node.mk (some ⟨s, v⟩) (c :: rest) [])
    rw [insertAux_cons_none hg]
    simp only [Node.edges_mk, Node.leaf_mk] at hc ⊢
    constructor
    · rw [hadd]
      rw [hsplit] at hc
      simp only [List.all_append, List.all_cons, Bool.and_eq_true] at hc ⊢
      refine ⟨hc.1, ?_, hc.2⟩
      rw [compressedNode_mk_iff]
      simp
    · intro hown
      rcases hown with h | h
      · exact Or.inl h
      · refine Or.inr ?_
        rw [addEdge_length]
        omega
  | case4 lf p es c rest child hg common hcom ih =>
    intro hs hc
    simp only [Node.edges_mk, Node.leaf_mk] at hc
    rw [sortedNode_mk_iff] at hs
    obtain ⟨ho, hsall⟩ := hs
    have hchildS : sortedNode child = true := by
      have := List.all_eq_true.mp hsall _ (getEdge_mem hg)
      simpa using this
    have hchildC : compressedNode child = true := by
      have := List.all_eq_true.mp hc _ (getEdge_mem hg)
      simpa using this
    rw [compressedNode_iff] at hchildC
    obtain ⟨hcown, hcall⟩ := hchildC
    obtain ⟨hresall, hresown⟩ := ih hchildS hcall
    have hresC : compressedNode (insertAux s v child ((c :: rest).drop common)).node = true := by
      rw [compressedNode_iff]
      exact ⟨hresown hcown, hresall⟩
    obtain ⟨pre, post, hsplit, _, _, hupd, _⟩ := getEdge_decomp ho hg
    rw [insertAux_cons_found hg hcom]
    simp only [Node.edges_mk, Node.leaf_mk]
    rw [hupd]
    constructor
    · rw [hsplit] at hc
      simp only [List.all_append, List.all_cons, Bool.and_eq_true] at hc ⊢
      exact ⟨hc.1, hresC, hc.2.2⟩
    · intro hown
      rcases hown with h | h
      · exact Or.inl h
      · refine Or.inr ?_
        rw [hsplit] at h
        simp only [List.length_append, List.length_cons] at h ⊢
        omega
  | case5 lf p es c rest child hg common hcom =>
    intro hs hc
    simp only [Node.edges_mk, Node.leaf_mk] at hc
    rw [sortedNode_mk_iff] at hs
    obtain ⟨ho, hsall⟩ := hs
    have hchildC : compressedNode child = true := by
      have := List.all_eq_true.mp hc _ (getEdge_mem hg)
      simpa using this
    rw [compressedNode_iff] at hchildC
    obtain ⟨hcown, hcall⟩ := hchildC
    have hOldC : compressedNode (Node.mk child.leaf
        (child.pfx.drop (longestPrefixLen (c :: rest) child.pfx)) child.edges) = true := by
      rw [compressedNode_mk_iff]
      exact ⟨hcown, hcall⟩
    obtain ⟨pre, post, hsplit, _, _, hupd, _⟩ := getEdge_decomp ho hg
    rw [insertAux_cons_split hg hcom]
    simp only [Node.edges_mk, Node.leaf_mk]
    rw [hupd]
    have hlen : (pre ++ (c, child) :: post).length = (pre ++ (c, Node.mk none [] []) :: post).length := by
      simp
    constructor
    · rw [hsplit] at hc
      simp only [List.all_append, List.all_cons, Bool.and_eq_true] at hc ⊢
      refine ⟨hc.1, ?_, hc.2.2⟩
      cases hdrop : (c :: rest).drop (longestPrefixLen (c :: rest) child.pfx) with
      | nil =>
        rw [compressedNode_mk_iff]
        refine ⟨Or.inl (by simp), ?_⟩
        have haddeq : addEdge ([] : List (Char × Node α))
            ((child.pfx.drop (longestPrefixLen (c :: rest) child.pfx)).headD c,
              Node.mk child.leaf (child.pfx.drop (longestPrefixLen (c :: rest) child.pfx))
                child.edges) =
            [((child.pfx.drop (longestPrefixLen (c :: rest) child.pfx)).headD c,
              Node.mk child.leaf (child.pfx.drop (longestPrefixLen (c :: rest) child.pfx))
                child.edges)] := by
          simp [addEdge]
        rw [haddeq]
        simp only [List.all_cons, List.all_nil, Bool.and_true]
        exact hOldC
      | cons c2 tl2 =>
        have hltlen : longestPrefixLen (c :: rest) child.pfx < child.pfx.length :=
          lt_of_le_of_ne (longestPrefixLen_le_right (c :: rest) child.pfx) hcom
        obtain ⟨h0, tl0, hshort⟩ : ∃ h0 tl0,
            child.pfx.drop (longestPrefixLen (c :: rest) child.pfx) = h0 :: tl0 := by
          cases hsh : child.pfx.drop (longestPrefixLen (c :: rest) child.pfx) with
          | nil =>
            have := List.drop_eq_nil_iff.mp hsh
            omega
          | cons a b => exact ⟨a, b, rfl⟩
        rw [compressedNode_mk_iff, hshort]
        simp only [List.headD_cons]
        rw [hshort] at hOldC
        by_cases horder : c2 < h0
        · rw [show addEdge (addEdge ([] : List (Char × Node α))
              (h0, Node.mk child.leaf (h0 :: tl0) child.edges))
              (c2, Node.mk (some ⟨s, v⟩) (c2 :: tl2) []) =
              [(c2, Node.mk (some ⟨s, v⟩) (c2 :: tl2) []),
               (h0, Node.mk child.leaf (h0 :: tl0) child.edges)] by simp [addEdge, horder]]
          refine ⟨Or.inr (by simp), ?_⟩
          simp only [List.all_cons, List.all_nil, Bool.and_eq_true, Bool.and_true]
          refine ⟨?_, hOldC⟩
          rw [compressedNode_mk_iff]
          simp
        · rw [show addEdge (addEdge ([] : List (Char × Node α))
              (h0, Node.mk child.leaf (h0 :: tl0) child.edges))
              (c2, Node.mk (some ⟨s, v⟩) (c2 :: tl2) []) =
              [(h0, Node.mk child.leaf (h0 :: tl0) child.edges),
               (c2, Node.mk (some ⟨s, v⟩) (c2 :: tl2) [])] by simp [addEdge, horder]]
          refine ⟨Or.inr (by simp), ?_⟩
          simp only [List.all_cons, List.all_nil, Bool.and_eq_true, Bool.and_true]
          refine ⟨hOldC, ?_⟩
          rw [compressedNode_mk_iff]
          simp
    · intro hown
      rcases hown with h | h
      · exact Or.inl h
      · refine Or.inr ?_
        rw [hsplit] at h
        simp only [List.length_append, List.length_cons] at h ⊢
        omega

/-!  Entry bookkeeping: how the edge-table operations change the stored
entries, and the size accounting of the mutating operations. -/

theorem entries_mk_eq {α : Type} (lf : Option (LeafNode α)) (p : List Char)
    (es : List (Char × Node α)) :
    entries (Node.mk lf p es) =
      (match lf with
       | some l => [(l.key, l.val)]
       | none => []) ++ entriesList es := by
  rw [entries.eq_def]

theorem entries_pfx_irrel {α : Type} (lf : Option (LeafNode α)) (p p' : List Char)
    (es : List (Char × Node α)) :
    entries (Node.mk lf p es) = entries (Node.mk lf p' es) := by
  rw [entries_mk_eq, entries_mk_eq]

theorem entriesList_cons_eq {α : Type} (c : Char) (m : Node α)
    (rest : List (Char × Node α)) :
    entriesList ((c, m) :: rest) = entries m ++ entriesList rest := by
  rw [entriesList.eq_def]

theorem entriesList_nil_eq {α : Type} :
    entriesList ([] : List (Char × Node α)) = [] := by
  rw [entriesList.eq_def]

theorem entriesList_addEdge_length {α : Type} (e : Char × Node α) :
    ∀ es : List (Char × Node α),
    (entriesList (addEdge es e)).length = (entriesList es).length + (entries e.2).length
  | [] => by
    obtain ⟨c, m⟩ := e
    simp [addEdge, entriesList_cons_eq, entriesList_nil_eq]
  | (l, m) :: rest => by
    simp only [addEdge]
    split
    · obtain ⟨c, m2⟩ := e
      simp [entriesList_cons_eq]
      omega
    · simp only [entriesList_cons_eq, List.length_append,
        entriesList_addEdge_length e rest]
      omega

theorem entriesList_addEdge_mem {α : Type} (e : Char × Node α)
    (kv : List Char × α) :
    ∀ es : List (Char × Node α),
    kv ∈ entriesList (addEdge es e) ↔ kv ∈ entries e.2 ∨ kv ∈ entriesList es
  | [] => by
    obtain ⟨c, m⟩ := e
    simp [addEdge, entriesList_cons_eq, entriesList_nil_eq]
  | (l, m) :: rest => by
    simp only [addEdge]
    split
    · obtain ⟨c, m2⟩ := e
      simp [entriesList_cons_eq]
    · simp only [entriesList_cons_eq, List.mem_append,
        entriesList_addEdge_mem e kv rest]
      tauto

theorem entriesList_updateEdge_length {α : Type} (c : Char) (m' : Node α) :
    ∀ (es : List (Char × Node α)) (m : Node α), getEdge es c = some m →
    (entriesList (updateEdge es c m')).length + (entries m).length =
      (entriesList es).length + (entries m').length
  | [], m, h => by simp [getEdge] at h
  | (l, n) :: rest, m, h => by
    simp only [getEdge] at h
    simp only [updateEdge]
    by_cases h1 : c ≤ l
    · rw [if_pos h1] at h ⊢
      by_cases h2 : l = c
      · rw [if_pos h2] at h ⊢
        have hm := Option.some.inj h
        subst hm
        simp only [entriesList_cons_eq, List.length_append]
        omega
      · rw [if_neg h2] at h
        cases h
    · rw [if_neg h1] at h ⊢
      simp only [entriesList_cons_eq, List.length_append]
      have := entriesList_updateEdge_length c m' rest m h
      omega

/-- Positional split of an edge list at a label found by `getEdge`,
without any sortedness assumption: `updateEdge` replaces exactly that
entry and `delEdge` removes exactly it. -/
theorem getEdge_split {α : Type} (c : Char) :
    ∀ (es : List (Char × Node α)) (m : Node α), getEdge es c = some m →
    ∃ pre post, es = pre ++ (c, m) :: post ∧
      (∀ m' : Node α, updateEdge es c m' = pre ++ (c, m') :: post) ∧
      delEdge es c = pre ++ post
  | [], m, h => by simp [getEdge] at h
  | (l, n) :: rest, m, h => by
    simp only [getEdge] at h
    by_cases h1 : c ≤ l
    · rw [if_pos h1] at h
      by_cases h2 : l = c
      · rw [if_pos h2] at h
        have hm := Option.some.inj h
        subst hm
        subst h2
        refine ⟨[], rest, by simp, ?_, ?_⟩
        · intro m'
          simp [updateEdge]
        · simp [delEdge]
      · rw [if_neg h2] at h
        cases h
    · rw [if_neg h1] at h
      obtain ⟨pre, post, hsplit, hupd, hdel⟩ := getEdge_split c rest m h
      refine ⟨(l, n) :: pre, post, by simp [hsplit], ?_, ?_⟩
      · intro m'
        simp [updateEdge, h1, hupd m']
      · simp [delEdge, h1, hdel]

theorem entriesList_delEdge_length {α : Type} (c : Char) :
    ∀ (es : List (Char × Node α)) (m : Node α), getEdge es c = some m →
    (entriesList (delEdge es c)).length + (entries m).length = (entriesList es).length
  | [], m, h => by simp [getEdge] at h
  | (l, n) :: rest, m, h => by
    simp only [getEdge] at h
    simp only [delEdge]
    by_cases h1 : c ≤ l
    · rw [if_pos h1] at h ⊢
      by_cases h2 : l = c
      · rw [if_pos h2] at h ⊢
        have hm := Option.some.inj h
        subst hm
        simp only [entriesList_cons_eq, List.length_append]
        omega
      · rw [if_neg h2] at h
        cases h
    · rw [if_neg h1] at h ⊢
      simp only [entriesList_cons_eq, List.length_append]
      have := entriesList_delEdge_length c rest m h
      omega

/-- Insert reports exactly what Get would have found: the previous value
at the key, the update flag, and a size increment of 1 exactly when the
key was absent. -/
theorem insertAux_old_eq_getAux {α : Type} (s : List Char) (v : α) :
    ∀ (n : Node α) (search : List Char),
    (insertAux s v n search).old = getAux n search ∧
    (insertAux s v n search).updated = (getAux n search).isSome ∧
    (insertAux s v n search).delta =
      (if (getAux n search).isSome = true then 0 else 1) := by
  intro n search
  induction n, search using insertAux.induct s v with
  | case1 p es l =>
    rw [insertAux_nil]
    simp [getAux]
  | case2 p es =>
    rw [insertAux_nil]
    simp [getAux]
  | case3 lf p es c rest hg =>
    rw [insertAux_cons_none hg, getAux_cons, hg]
    simp
  | case4 lf p es c rest child hg common hcom ih =>
    rw [insertAux_cons_found hg hcom, getAux_cons, hg]
    have hpre : child.pfx.isPrefixOf (c :: rest) = true := by
      rw [List.isPrefixOf_iff_prefix]
      exact prefix_of_longestPrefixLen_eq hcom
    simp only [hpre, if_true]
    have hcom' : longestPrefixLen (c :: rest) child.pfx = child.pfx.length := hcom
    rw [hcom] at ih
    rw [hcom']
    exact ih
  | case5 lf p es c rest child hg common hcom =>
    rw [insertAux_cons_split hg hcom, getAux_cons, hg]
    have hnpre : ¬ child.pfx.isPrefixOf (c :: rest) = true := by
      rw [List.isPrefixOf_iff_prefix]
      intro hp
      exact hcom (longestPrefixLen_full hp)
    simp only [hnpre, if_false]
    simp

/-- Insert changes the number of stored entries by exactly the size
increment it reports. -/
theorem insertAux_entries_length {α : Type} (s : List Char) (v : α) :
    ∀ (n : Node α) (search : List Char),
    ((entries (insertAux s v n search).node).length : Int) =
      (entries n).length + (insertAux s v n search).delta := by
  intro n search
  induction n, search using insertAux.induct s v with
  | case1 p es l =>
    rw [insertAux_nil]
    simp only []
    rw [entries_mk_eq, entries_mk_eq]
    simp
  | case2 p es =>
    rw [insertAux_nil]
    simp only []
    rw [entries_mk_eq, entries_mk_eq]
    simp
  | case3 lf p es c rest hg =>
    rw [insertAux_cons_none hg]
    simp only []
    rw [entries_mk_eq, entries_mk_eq]
    have h1 := entriesList_addEdge_length (c, Node.mk (some ⟨s, v⟩) (c :: rest) []) es
    simp only [entries_mk_eq, entriesList_nil_eq] at h1
    simp only [List.length_append] at h1 ⊢
    simp at h1
    omega
  | case4 lf p es c rest child hg common hcom ih =>
    rw [insertAux_cons_found hg hcom]
    simp only []
    have hcom' : longestPrefixLen (c :: rest) child.pfx = child.pfx.length := hcom
    rw [hcom] at ih
    rw [hcom']
    rw [entries_mk_eq, entries_mk_eq]
    have h1 := entriesList_updateEdge_length c
      (insertAux s v child ((c :: rest).drop child.pfx.length)).node es child hg
    simp only [List.length_append]
    omega
  | case5 lf p es c rest child hg common hcom =>
    rw [insertAux_cons_split hg hcom]
    simp only []
    rw [entries_mk_eq, entries_mk_eq]
    have h2 : entries (Node.mk child.leaf
        (child.pfx.drop (longestPrefixLen (c :: rest) child.pfx)) child.edges) =
        entries child := by
      rw [entries_pfx_irrel _ _ child.pfx, Node.eta]
    have hmid : ∀ mid : Node α,
        (match (c :: rest).drop (longestPrefixLen (c :: rest) child.pfx) with
         | [] =>
           Node.mk (some ⟨s, v⟩) ((c :: rest).take (longestPrefixLen (c :: rest) child.pfx))
             (addEdge [] ((child.pfx.drop (longestPrefixLen (c :: rest) child.pfx)).headD c,
               Node.mk child.leaf (child.pfx.drop (longestPrefixLen (c :: rest) child.pfx)) child.edges))
         | c2 :: tl2 =>
           Node.mk none ((c :: rest).take (longestPrefixLen (c :: rest) child.pfx))
             (addEdge (addEdge [] ((child.pfx.drop (longestPrefixLen (c :: rest) child.pfx)).headD c,
                 Node.mk child.leaf (child.pfx.drop (longestPrefixLen (c :: rest) child.pfx)) child.edges))
               (c2, Node.mk (some ⟨s, v⟩) (c2 :: tl2) []))) = mid →
        (entries mid).length = (entries child).length + 1 := by
      intro mid hmideq
      cases hdrop : (c :: rest).drop (longestPrefixLen (c :: rest) child.pfx) with
      | nil =>
        rw [hdrop] at hmideq
        subst hmideq
        rw [entries_mk_eq]
        simp [addEdge, entriesList_cons_eq, entriesList_nil_eq, h2]
      | cons c2 tl2 =>
        rw [hdrop] at hmideq
        subst hmideq
        rw [entries_mk_eq]
        have h1 := entriesList_addEdge_length (c2, Node.mk (some ⟨s, v⟩) (c2 :: tl2) [])
          (addEdge [] ((child.pfx.drop (longestPrefixLen (c :: rest) child.pfx)).headD c,
            Node.mk child.leaf (child.pfx.drop (longestPrefixLen (c :: rest) child.pfx)) child.edges))
        simp [addEdge, entriesList_cons_eq, entriesList_nil_eq, entries_mk_eq, h2] at h1 ⊢
        omega
    have hm := hmid _ rfl
    have h1 := entriesList_updateEdge_length c
      (match (c :: rest).drop (longestPrefixLen (c :: rest) child.pfx) with
       | [] =>
         Node.mk (some ⟨s, v⟩) ((c :: rest).take (longestPrefixLen (c :: rest) child.pfx))
           (addEdge [] ((child.pfx.drop (longestPrefixLen (c :: rest) child.pfx)).headD c,
             Node.mk child.leaf (child.pfx.drop (longestPrefixLen (c :: rest) child.pfx)) child.edges))
       | c2 :: tl2 =>
         Node.mk none ((c :: rest).take (longestPrefixLen (c :: rest) child.pfx))
           (addEdge (addEdge [] ((child.pfx.drop (longestPrefixLen (c :: rest) child.pfx)).headD c,
               Node.mk child.leaf (child.pfx.drop (longestPrefixLen (c :: rest) child.pfx)) child.edges))
             (c2, Node.mk (some ⟨s, v⟩) (c2 :: tl2) []))) es child hg
    simp only [List.length_append]
    omega

theorem keys_addEdge_mem {α : Type} (e : Char × Node α) (k : List Char)
    (es : List (Char × Node α)) :
    k ∈ (entriesList (addEdge es e)).map Prod.fst ↔
      k ∈ (entries e.2).map Prod.fst ∨ k ∈ (entriesList es).map Prod.fst := by
  simp only [List.mem_map]
  constructor
  · rintro ⟨a, ha, rfl⟩
    rcases (entriesList_addEdge_mem e a es).mp ha with h | h
    · exact Or.inl ⟨a, h, rfl⟩
    · exact Or.inr ⟨a, h, rfl⟩
  · rintro (⟨a, ha, rfl⟩ | ⟨a, ha, rfl⟩)
    · exact ⟨a, (entriesList_addEdge_mem e a es).mpr (Or.inl ha), rfl⟩
    · exact ⟨a, (entriesList_addEdge_mem e a es).mpr (Or.inr ha), rfl⟩

/-- The keys stored after an insert are the inserted key together with
the keys stored before. -/
theorem insertAux_keys {α : Type} (s : List Char) (v : α) :
    ∀ (n : Node α) (search : List Char), ∀ acc : List Char,
    sortedNode n = true → pathsOk acc n = true → s = acc ++ search →
    ∀ k : List Char, (k ∈ (entries (insertAux s v n search).node).map Prod.fst ↔
      k = s ∨ k ∈ (entries n).map Prod.fst) := by
  intro n search
  induction n, search using insertAux.induct s v with
  | case1 p es l =>
    intro acc hs hp hacc k
    rw [insertAux_nil]
    simp only []
    have hkey : l.key = s := by
      rw [pathsOk_mk_iff] at hp
      rw [hacc, List.append_nil]
      exact hp.1 l rfl
    rw [entries_mk_eq, entries_mk_eq]
    simp only [List.map_append, List.mem_append, List.map_cons, List.map_nil,
      List.mem_singleton]
    rw [hkey]
    tauto
  | case2 p es =>
    intro acc hs hp hacc k
    rw [insertAux_nil]
    simp only []
    rw [entries_mk_eq, entries_mk_eq]
    simp only [List.map_append, List.mem_append, List.map_cons, List.map_nil,
      List.mem_singleton, List.nil_append]
  | case3 lf p es c rest hg =>
    intro acc hs hp hacc k
    rw [insertAux_cons_none hg]
    simp only []
    rw [entries_mk_eq, entries_mk_eq]
    simp only [List.map_append, List.mem_append]
    rw [keys_addEdge_mem]
    have hnew : (entries ((c, Node.mk (some ⟨s, v⟩) (c :: rest) []).2)).map Prod.fst
        = [s] := by
      rw [entries_mk_eq]
      simp [entriesList_nil_eq]
    rw [hnew]
    simp only [List.mem_singleton]
    tauto
  | case4 lf p es c rest child hg common hcom ih =>
    intro acc hs hp hacc k
    rw [sortedNode_mk_iff] at hs
    obtain ⟨ho, hsall⟩ := hs
    rw [pathsOk_mk_iff] at hp
    obtain ⟨hleaf, hall⟩ := hp
    have hedge : edgeOk acc (c, child) = true := by
      have := List.all_eq_true.mp hall _ (getEdge_mem hg)
      simpa using this
    have hchildS : sortedNode child = true := by
      have := List.all_eq_true.mp hsall _ (getEdge_mem hg)
      simpa using this
    unfold edgeOk at hedge
    simp only [Bool.and_eq_true] at hedge
    obtain ⟨hhead, hchildP⟩ := hedge
    have hprefix : child.pfx <+: (c :: rest) := prefix_of_longestPrefixLen_eq hcom
    have hdecomp : child.pfx ++ (c :: rest).drop child.pfx.length = c :: rest := by
      obtain ⟨t, ht⟩ := hprefix
      rw [← ht]
      simp
    have hs' : s = (acc ++ child.pfx) ++ (c :: rest).drop child.pfx.length := by
      rw [hacc, List.append_assoc, hdecomp]
    have hres := ih (acc ++ child.pfx) hchildS hchildP (by rw [hcom]; exact hs') k
    rw [hcom] at hres
    have hcom' : longestPrefixLen (c :: rest) child.pfx = child.pfx.length := hcom
    obtain ⟨pre, post, hsplit, hupd, _⟩ := getEdge_split c es child hg
    rw [insertAux_cons_found hg hcom]
    simp only []
    rw [hcom']
    rw [hupd]
    rw [entries_mk_eq, entries_mk_eq, hsplit]
    simp only [entriesList_append, entriesList_cons_eq, List.map_append, List.mem_append]
    tauto
  | case5 lf p es c rest child hg common hcom =>
    intro acc hs hp hacc k
    have hltlen : longestPrefixLen (c :: rest) child.pfx < child.pfx.length :=
      lt_of_le_of_ne (longestPrefixLen_le_right (c :: rest) child.pfx) hcom
    have h2 : entries (Node.mk child.leaf
        (child.pfx.drop (longestPrefixLen (c :: rest) child.pfx)) child.edges) =
        entries child := by
      rw [entries_pfx_irrel _ _ child.pfx, Node.eta]
    have hmidkeys : ∀ mid : Node α,
        (match (c :: rest).drop (longestPrefixLen (c :: rest) child.pfx) with
         | [] =>
           Node.mk (some ⟨s, v⟩) ((c :: rest).take (longestPrefixLen (c :: rest) child.pfx))
             (addEdge [] ((child.pfx.drop (longestPrefixLen (c :: rest) child.pfx)).headD c,
               Node.mk child.leaf (child.pfx.drop (longestPrefixLen (c :: rest) child.pfx)) child.edges))
         | c2 :: tl2 =>
           Node.mk none ((c :: rest).take (longestPrefixLen (c :: rest) child.pfx))
             (addEdge (addEdge [] ((child.pfx.drop (longestPrefixLen (c :: rest) child.pfx)).headD c,
                 Node.mk child.leaf (child.pfx.drop (longestPrefixLen (c :: rest) child.pfx)) child.edges))
               (c2, Node.mk (some ⟨s, v⟩) (c2 :: tl2) []))) = mid →
        (k ∈ (entries mid).map Prod.fst ↔ k = s ∨ k ∈ (entries child).map Prod.fst) := by
      intro mid hmideq
      cases hdrop : (c :: rest).drop (longestPrefixLen (c :: rest) child.pfx) with
      | nil =>
        rw [hdrop] at hmideq
        subst hmideq
        rw [entries_mk_eq]
        simp only [List.map_append, List.mem_append, List.map_cons, List.map_nil,
          List.mem_singleton]
        rw [keys_addEdge_mem]
        simp only [h2, entriesList_nil_eq, List.map_nil, List.not_mem_nil, or_false]
      | cons c2 tl2 =>
        rw [hdrop] at hmideq
        subst hmideq
        rw [entries_mk_eq]
        simp only [List.nil_append]
        rw [keys_addEdge_mem, keys_addEdge_mem]
        have hnew : (entries ((c2, Node.mk (some ⟨s, v⟩) (c2 :: tl2) []).2)).map Prod.fst
            = [s] := by
          rw [entries_mk_eq]
          simp [entriesList_nil_eq]
        rw [hnew]
        simp only [h2, entriesList_nil_eq, List.map_nil, List.not_mem_nil, or_false,
          List.mem_singleton]
    obtain ⟨pre, post, hsplit, hupd, _⟩ := getEdge_split c es child hg
    rw [insertAux_cons_split hg hcom]
    simp only []
    rw [hupd]
    rw [entries_mk_eq, entries_mk_eq, hsplit]
    simp only [entriesList_append, entriesList_cons_eq, List.map_append, List.mem_append]
    have hm := hmidkeys _ rfl
    tauto

/-- A successful delete removes exactly one stored entry; the detached
case (`final none`) happens exactly when the node held the only entry of
its subtree. -/
theorem deleteAux_entries_length {α : Type} :
    ∀ (n : Node α) (search : List Char),
    (match deleteAux n search with
     | .notFound => True
     | .final none _ => (entries n).length = 1
     | .final (some r) _ => (entries r).length + 1 = (entries n).length
     | .done r _ => (entries r).length + 1 = (entries n).length) := by
  intro n search
  induction n, search using deleteAux.induct with
  | case1 p es =>
    rw [deleteAux_nil]
    simp only []
  | case2 p es l h0 =>
    rw [deleteAux_nil]
    simp only [h0, if_true, if_pos]
    have hes := List.length_eq_zero.mp h0
    subst hes
    rw [entries_mk_eq]
    simp [entriesList_nil_eq]
  | case3 p es l h0 h1 =>
    rw [deleteAux_nil]
    simp only [if_neg h0, if_pos h1]
    obtain ⟨e0, hes⟩ := List.length_eq_one.mp h1
    obtain ⟨d, m⟩ := e0
    subst hes
    simp only [mergeChild]
    rw [entries_pfx_irrel _ _ m.pfx, Node.eta, entries_mk_eq]
    simp [entriesList_cons_eq, entriesList_nil_eq]
  | case4 p es l h0 h1 =>
    rw [deleteAux_nil]
    simp only [if_neg h0, if_neg h1]
    rw [entries_mk_eq, entries_mk_eq]
    simp
  | case5 lf p es c rest hg =>
    rw [deleteAux_cons_none hg]
    simp only []
  | case6 lf p es c rest child hg hpre hdel ih =>
    rw [deleteAux_cons_rec hg hpre, hdel]
    simp only []
  | case7 lf p es c rest child hg hpre rep v hdel es' hcond ih =>
    rw [deleteAux_cons_rec hg hpre, hdel]
    rw [hdel] at ih
    simp only []
    have hcond' : ((match rep with
        | none => delEdge es c
        | some child' => updateEdge es c child').length = 1 && lf.isNone) = true := hcond
    simp only [Bool.and_eq_true, decide_eq_true_eq, Option.isNone_iff_eq_none] at hcond'
    obtain ⟨hlen1, hlfnone⟩ := hcond'
    subst hlfnone
    rw [if_pos (by simp [hlen1])]
    simp only []
    obtain ⟨e0, hE⟩ := List.length_eq_one.mp hlen1
    obtain ⟨d, m⟩ := e0
    rw [hE]
    simp only [mergeChild]
    rw [entries_pfx_irrel _ _ m.pfx, Node.eta, entries_mk_eq]
    simp only [List.nil_append]
    cases rep with
    | none =>
      simp only [] at ih
      have h1 := entriesList_delEdge_length c es child hg
      simp only [] at hE
      rw [hE, entriesList_cons_eq, entriesList_nil_eq] at h1
      simp only [List.length_append, List.length_nil] at h1
      omega
    | some r' =>
      simp only [] at ih
      have h1 := entriesList_updateEdge_length c r' es child hg
      simp only [] at hE
      rw [hE, entriesList_cons_eq, entriesList_nil_eq] at h1
      simp only [List.length_append, List.length_nil] at h1
      omega
  | case8 lf p es c rest child hg hpre rep v hdel es' hcond ih =>
    rw [deleteAux_cons_rec hg hpre, hdel]
    rw [hdel] at ih
    simp only []
    have hcond' : ¬ ((match rep with
        | none => delEdge es c
        | some child' => updateEdge es c child').length = 1 && lf.isNone) = true := hcond
    rw [if_neg hcond']
    simp only []
    rw [entries_mk_eq, entries_mk_eq]
    simp only [List.length_append]
    cases rep with
    | none =>
      have h1 := entriesList_delEdge_length c es child hg
      simp only [] at ih ⊢
      omega
    | some r' =>
      have h1 := entriesList_updateEdge_length c r' es child hg
      simp only [] at ih ⊢
      omega
  | case9 lf p es c rest child hg hpre child' v hdel ih =>
    rw [deleteAux_cons_rec hg hpre, hdel]
    rw [hdel] at ih
    simp only [] at ih ⊢
    have h1 := entriesList_updateEdge_length c child' es child hg
    rw [entries_mk_eq, entries_mk_eq]
    simp only [List.length_append]
    omega
  | case10 lf p es c rest child hg hpre =>
    rw [deleteAux_cons_nopre hg hpre]
    simp only []

theorem mergeChild_single {α : Type} (lf : Option (LeafNode α)) (p : List Char)
    (d : Char) (m : Node α) :
    mergeChild (Node.mk lf p [(d, m)]) = Node.mk m.leaf (p ++ m.pfx) m.edges := by
  simp [mergeChild]

/-- A successful delete keeps the structural invariants: the rebuilt
subtree is sorted and path-consistent, possibly with a prefix extended by
a merge (`ext`). -/
theorem deleteAux_wf {α : Type} :
    ∀ (n : Node α) (search : List Char), ∀ acc : List Char,
    sortedNode n = true → pathsOk acc n = true →
    (match deleteAux n search with
     | .notFound => True
     | .final none _ => True
     | .final (some r) _ => ∃ ext, r.pfx = n.pfx ++ ext ∧
         sortedNode r = true ∧ pathsOk (acc ++ ext) r = true
     | .done r _ => ∃ ext, r.pfx = n.pfx ++ ext ∧
         sortedNode r = true ∧ pathsOk (acc ++ ext) r = true) := by
  intro n search
  induction n, search using deleteAux.induct with
  | case1 p es =>
    intro acc hs hp
    rw [deleteAux_nil]
    simp only []
  | case2 p es l h0 =>
    intro acc hs hp
    rw [deleteAux_nil]
    simp only [h0, if_true, if_pos]
  | case3 p es l h0 h1 =>
    intro acc hs hp
    rw [deleteAux_nil]
    simp only [if_neg h0, if_pos h1]
    obtain ⟨e0, hes⟩ := List.length_eq_one.mp h1
    obtain ⟨d, m⟩ := e0
    subst hes
    rw [mergeChild_single]
    rw [sortedNode_mk_iff] at hs
    rw [pathsOk_mk_iff] at hp
    have hsm : sortedNode m = true := by
      have := List.all_eq_true.mp hs.2 (d, m) (by simp)
      simpa using this
    have hok : edgeOk acc (d, m) = true := by
      have := List.all_eq_true.mp hp.2 (d, m) (by simp)
      simpa using this
    unfold edgeOk at hok
    simp only [Bool.and_eq_true] at hok
    refine ⟨m.pfx, by simp, ?_, ?_⟩
    · rw [sortedNode_pfx_irrel _ m.leaf _ m.pfx, Node.eta]
      exact hsm
    · rw [pathsOk_pfx_irrel _ m.leaf _ m.pfx, Node.eta]
      exact hok.2
  | case4 p es l h0 h1 =>
    intro acc hs hp
    rw [deleteAux_nil]
    simp only [if_neg h0, if_neg h1]
    rw [sortedNode_mk_iff] at hs
    rw [pathsOk_mk_iff] at hp
    refine ⟨[], by simp, ?_, ?_⟩
    · rw [sortedNode_mk_iff]
      exact hs
    · rw [List.append_nil, pathsOk_mk_iff]
      exact ⟨by simp, hp.2⟩
  | case5 lf p es c rest hg =>
    intro acc hs hp
    rw [deleteAux_cons_none hg]
    simp only []
  | case6 lf p es c rest child hg hpre hdel ih =>
    intro acc hs hp
    rw [deleteAux_cons_rec hg hpre, hdel]
    simp only []
  | case7 lf p es c rest child hg hpre rep v hdel es' hcond ih =>
    intro acc hs hp
    rw [deleteAux_cons_rec hg hpre, hdel]
    simp only []
    rw [sortedNode_mk_iff] at hs
    obtain ⟨ho, hsall⟩ := hs
    rw [pathsOk_mk_iff] at hp
    obtain ⟨hleaf, hall⟩ := hp
    have hcond' : ((match rep with
        | none => delEdge es c
        | some child' => updateEdge es c child').length = 1 && lf.isNone) = true := hcond
    simp only [Bool.and_eq_true, decide_eq_true_eq, Option.isNone_iff_eq_none] at hcond'
    obtain ⟨hlen1, hlfnone⟩ := hcond'
    subst hlfnone
    rw [if_pos (by simp [hlen1])]
    simp only []
    obtain ⟨e0, hE⟩ := List.length_eq_one.mp hlen1
    obtain ⟨d, m⟩ := e0
    rw [hE, mergeChild_single]
    have hkey : sortedNode m = true ∧ pathsOk (acc ++ m.pfx) m = true := by
      obtain ⟨pre, post, hsplit, hupd, hdelE⟩ := getEdge_split c es child hg
      cases rep with
      | none =>
        simp only [] at hE
        rw [hdelE] at hE
        have hmem : (d, m) ∈ es := by
          rw [hsplit]
          have hmm : (d, m) ∈ pre ++ post := by rw [hE]; simp
          rcases List.mem_append.mp hmm with h | h
          · exact List.mem_append_left _ h
          · exact List.mem_append_right _ (List.mem_cons_of_mem _ h)
        have hsm : sortedNode m = true := by
          have := List.all_eq_true.mp hsall (d, m) hmem
          simpa using this
        have hok : edgeOk acc (d, m) = true := by
          have := List.all_eq_true.mp hall (d, m) hmem
          simpa using this
        unfold edgeOk at hok
        simp only [Bool.and_eq_true] at hok
        exact ⟨hsm, hok.2⟩
      | some r' =>
        simp only [] at hE
        rw [hupd r'] at hE
        have hpre0 : pre = [] ∧ post = [] := by
          have hl := congrArg List.length hE
          simp at hl
          have hlp : pre.length = 0 ∧ post.length = 0 := by omega
          exact ⟨List.length_eq_zero.mp hlp.1, List.length_eq_zero.mp hlp.2⟩
        obtain ⟨hpreE, hpostE⟩ := hpre0
        subst hpreE
        subst hpostE
        simp only [List.nil_append, List.cons.injEq, Prod.mk.injEq, and_true] at hE
        obtain ⟨hdc, hrm⟩ := hE
        subst hdc
        subst hrm
        have hedgeC : edgeOk acc (c, child) = true := by
          have := List.all_eq_true.mp hall _ (getEdge_mem hg)
          simpa using this
        have hchildS : sortedNode child = true := by
          have := List.all_eq_true.mp hsall _ (getEdge_mem hg)
          simpa using this
        unfold edgeOk at hedgeC
        simp only [Bool.and_eq_true] at hedgeC
        have ihc := ih (acc ++ child.pfx) hchildS hedgeC.2
        rw [hdel] at ihc
        simp only [] at ihc
        obtain ⟨ext', hpfx', hsort', hpaths'⟩ := ihc
        refine ⟨hsort', ?_⟩
        rw [hpfx', ← List.append_assoc]
        exact hpaths'
    refine ⟨m.pfx, by simp, ?_, ?_⟩
    · rw [sortedNode_pfx_irrel _ m.leaf _ m.pfx, Node.eta]
      exact hkey.1
    · rw [pathsOk_pfx_irrel _ m.leaf _ m.pfx, Node.eta]
      exact hkey.2
  | case8 lf p es c rest child hg hpre rep v hdel es' hcond ih =>
    intro acc hs hp
    rw [deleteAux_cons_rec hg hpre, hdel]
    simp only []
    have hcond' : ¬ ((match rep with
        | none => delEdge es c
        | some child' => updateEdge es c child').length = 1 && lf.isNone) = true := hcond
    rw [if_neg hcond']
    simp only []
    rw [sortedNode_mk_iff] at hs
    obtain ⟨ho, hsall⟩ := hs
    rw [pathsOk_mk_iff] at hp
    obtain ⟨hleaf, hall⟩ := hp
    obtain ⟨pre, post, hsplit, hupd, hdelE⟩ := getEdge_split c es child hg
    refine ⟨[], by simp, ?_, ?_⟩
    · cases rep with
      | none =>
        simp only [hdelE]
        rw [sortedNode_mk_iff]
        constructor
        · exact pairwise_labels_drop_mid (hsplit ▸ ho)
        · rw [hsplit] at hsall
          simp only [List.all_append, List.all_cons, Bool.and_eq_true] at hsall ⊢
          exact ⟨hsall.1, hsall.2.2⟩
      | some r' =>
        simp only [hupd r']
        have hedgeC : edgeOk acc (c, child) = true := by
          have := List.all_eq_true.mp hall _ (getEdge_mem hg)
          simpa using this
        have hchildS : sortedNode child = true := by
          have := List.all_eq_true.mp hsall _ (getEdge_mem hg)
          simpa using this
        unfold edgeOk at hedgeC
        simp only [Bool.and_eq_true] at hedgeC
        have ihc := ih (acc ++ child.pfx) hchildS hedgeC.2
        rw [hdel] at ihc
        simp only [] at ihc
        obtain ⟨ext', hpfx', hsort', hpaths'⟩ := ihc
        rw [sortedNode_mk_iff]
        constructor
        · have hlab : ((pre ++ (c, r') :: post).map Prod.fst) =
              ((pre ++ (c, child) :: post).map Prod.fst) := by simp
          rw [hlab]
          exact hsplit ▸ ho
        · rw [hsplit] at hsall
          simp only [List.all_append, List.all_cons, Bool.and_eq_true] at hsall ⊢
          exact ⟨hsall.1, hsort', hsall.2.2⟩
    · rw [List.append_nil, pathsOk_mk_iff]
      refine ⟨hleaf, ?_⟩
      cases rep with
      | none =>
        simp only [hdelE]
        rw [hsplit] at hall
        simp only [List.all_append, List.all_cons, Bool.and_eq_true] at hall ⊢
        exact ⟨hall.1, hall.2.2⟩
      | some r' =>
        simp only [hupd r']
        have hedgeC : edgeOk acc (c, child) = true := by
          have := List.all_eq_true.mp hall _ (getEdge_mem hg)
          simpa using this
        have hchildS : sortedNode child = true := by
          have := List.all_eq_true.mp hsall _ (getEdge_mem hg)
          simpa using this
        unfold edgeOk at hedgeC
        simp only [Bool.and_eq_true] at hedgeC
        obtain ⟨hheadC, hpathC⟩ := hedgeC
        have ihc := ih (acc ++ child.pfx) hchildS hpathC
        rw [hdel] at ihc
        simp only [] at ihc
        obtain ⟨ext', hpfx', hsort', hpaths'⟩ := ihc
        rw [hsplit] at hall
        simp only [List.all_append, List.all_cons, Bool.and_eq_true] at hall ⊢
        refine ⟨hall.1, ?_, hall.2.2⟩
        obtain ⟨tl, hctl⟩ : ∃ tl, child.pfx = c :: tl := by
          cases hq : child.pfx with
          | nil => rw [hq] at hheadC; cases hheadC
          | cons u vv =>
            rw [hq] at hheadC
            simp only [beq_iff_eq] at hheadC
            exact ⟨vv, by rw [hheadC]⟩
        unfold edgeOk
        simp only [Bool.and_eq_true]
        constructor
        · rw [hpfx', hctl]
          simp
        · rw [hpfx', ← List.append_assoc]
          exact hpaths'
  | case9 lf p es c rest child hg hpre child' v hdel ih =>
    intro acc hs hp
    rw [deleteAux_cons_rec hg hpre, hdel]
    simp only []
    rw [sortedNode_mk_iff] at hs
    obtain ⟨ho, hsall⟩ := hs
    rw [pathsOk_mk_iff] at hp
    obtain ⟨hleaf, hall⟩ := hp
    obtain ⟨pre, post, hsplit, hupd, hdelE⟩ := getEdge_split c es child hg
    have hedgeC : edgeOk acc (c, child) = true := by
      have := List.all_eq_true.mp hall _ (getEdge_mem hg)
      simpa using this
    have hchildS : sortedNode child = true := by
      have := List.all_eq_true.mp hsall _ (getEdge_mem hg)
      simpa using this
    unfold edgeOk at hedgeC
    simp only [Bool.and_eq_true] at hedgeC
    obtain ⟨hheadC, hpathC⟩ := hedgeC
    have ihc := ih (acc ++ child.pfx) hchildS hpathC
    rw [hdel] at ihc
    simp only [] at ihc
    obtain ⟨ext', hpfx', hsort', hpaths'⟩ := ihc
    refine ⟨[], by simp, ?_, ?_⟩
    · rw [hupd child', sortedNode_mk_iff]
      constructor
      · have hlab : ((pre ++ (c, child') :: post).map Prod.fst) =
            ((pre ++ (c, child) :: post).map Prod.fst) := by simp
        rw [hlab]
        exact hsplit ▸ ho
      · rw [hsplit] at hsall
        simp only [List.all_append, List.all_cons, Bool.and_eq_true] at hsall ⊢
        exact ⟨hsall.1, hsort', hsall.2.2⟩
    · rw [List.append_nil, hupd child', pathsOk_mk_iff]
      refine ⟨hleaf, ?_⟩
      rw [hsplit] at hall
      simp only [List.all_append, List.all_cons, Bool.and_eq_true] at hall ⊢
      refine ⟨hall.1, ?_, hall.2.2⟩
      obtain ⟨tl, hctl⟩ : ∃ tl, child.pfx = c :: tl := by
        cases hq : child.pfx with
        | nil => rw [hq] at hheadC; cases hheadC
        | cons u vv =>
          rw [hq] at hheadC
          simp only [beq_iff_eq] at hheadC
          exact ⟨vv, by rw [hheadC]⟩
      unfold edgeOk
      simp only [Bool.and_eq_true]
      constructor
      · rw [hpfx', hctl]
        simp
      · rw [hpfx', ← List.append_assoc]
        exact hpaths'
  | case10 lf p es c rest child hg hpre =>
    intro acc hs hp
    rw [deleteAux_cons_nopre hg hpre]
    simp only []

/-- A successful delete keeps every remaining non-root node compressed:
it stores an entry or has at least two children. -/
theorem deleteAux_compressed {α : Type} :
    ∀ (n : Node α) (search : List Char),
    sortedNode n = true →
    n.edges.all (fun e => compressedNode e.2) = true →
    (match deleteAux n search with
     | .notFound => True
     | .final none _ => True
     | .final (some r) _ => compressedNode r = true
     | .done r _ => r.edges.all (fun e => compressedNode e.2) = true ∧
         ((n.leaf.isSome = true ∨ 2 ≤ n.edges.length) →
           (r.leaf.isSome = true ∨ 2 ≤ r.edges.length))) := by
  intro n search
  induction n, search using deleteAux.induct with
  | case1 p es =>
    intro hs hc
    rw [deleteAux_nil]
    simp only []
  | case2 p es l h0 =>
    intro hs hc
    rw [deleteAux_nil]
    simp only [h0, if_true, if_pos]
  | case3 p es l h0 h1 =>
    intro hs hc
    rw [deleteAux_nil]
    simp only [if_neg h0, if_pos h1]
    obtain ⟨e0, hes⟩ := List.length_eq_one.mp h1
    obtain ⟨d, m⟩ := e0
    subst hes
    rw [mergeChild_single]
    rw [compressedNode_pfx_irrel _ _ m.pfx, Node.eta]
    simp only [Node.edges_mk, List.all_cons, List.all_nil, Bool.and_true] at hc
    exact hc
  | case4 p es l h0 h1 =>
    intro hs hc
    rw [deleteAux_nil]
    simp only [if_neg h0, if_neg h1]
    rw [compressedNode_mk_iff]
    simp only [Node.edges_mk] at hc
    exact ⟨Or.inr (by omega), hc⟩
  | case5 lf p es c rest hg =>
    intro hs hc
    rw [deleteAux_cons_none hg]
    simp only []
  | case6 lf p es c rest child hg hpre hdel ih =>
    intro hs hc
    rw [deleteAux_cons_rec hg hpre, hdel]
    simp only []
  | case7 lf p es c rest child hg hpre rep v hdel es' hcond ih =>
    intro hs hc
    rw [deleteAux_cons_rec hg hpre, hdel]
    simp only []
    rw [sortedNode_mk_iff] at hs
    obtain ⟨ho, hsall⟩ := hs
    simp only [Node.edges_mk] at hc
    have hcond' : ((match rep with
        | none => delEdge es c
        | some child' => updateEdge es c child').length = 1 && lf.isNone) = true := hcond
    simp only [Bool.and_eq_true, decide_eq_true_eq, Option.isNone_iff_eq_none] at hcond'
    obtain ⟨hlen1, hlfnone⟩ := hcond'
    subst hlfnone
    rw [if_pos (by simp [hlen1])]
    simp only []
    obtain ⟨e0, hE⟩ := List.length_eq_one.mp hlen1
    obtain ⟨d, m⟩ := e0
    rw [hE, mergeChild_single]
    have hkey : compressedNode m = true := by
      obtain ⟨pre, post, hsplit, hupd, hdelE⟩ := getEdge_split c es child hg
      cases rep with
      | none =>
        simp only [] at hE
        rw [hdelE] at hE
        have hmem : (d, m) ∈ es := by
          rw [hsplit]
          have hmm : (d, m) ∈ pre ++ post := by rw [hE]; simp
          rcases List.mem_append.mp hmm with h | h
          · exact List.mem_append_left _ h
          · exact List.mem_append_right _ (List.mem_cons_of_mem _ h)
        have := List.all_eq_true.mp hc (d, m) hmem
        simpa using this
      | some r' =>
        simp only [] at hE
        rw [hupd r'] at hE
        have hpre0 : pre = [] ∧ post = [] := by
          have hl := congrArg List.length hE
          simp at hl
          have hlp : pre.length = 0 ∧ post.length = 0 := by omega
          exact ⟨List.length_eq_zero.mp hlp.1, List.length_eq_zero.mp hlp.2⟩
        obtain ⟨hpreE, hpostE⟩ := hpre0
        subst hpreE
        subst hpostE
        simp only [List.nil_append, List.cons.injEq, Prod.mk.injEq, and_true] at hE
        obtain ⟨hdc, hrm⟩ := hE
        subst hdc
        subst hrm
        have hchildS : sortedNode child = true := by
          have := List.all_eq_true.mp hsall _ (getEdge_mem hg)
          simpa using this
        have hchildC : compressedNode child = true := by
          have := List.all_eq_true.mp hc _ (getEdge_mem hg)
          simpa using this
        have ihc := ih hchildS (compressedNode_iff.mp hchildC).2
        rw [hdel] at ihc
        simp only [] at ihc
        exact ihc
    have hkey' := compressedNode_iff.mp hkey
    exact ⟨hkey'.2, fun _ => hkey'.1⟩
  | case8 lf p es c rest child hg hpre rep v hdel es' hcond ih =>
    intro hs hc
    rw [deleteAux_cons_rec hg hpre, hdel]
    simp only []
    rw [sortedNode_mk_iff] at hs
    obtain ⟨ho, hsall⟩ := hs
    simp only [Node.edges_mk] at hc
    have hcond' : ¬ ((match rep with
        | none => delEdge es c
        | some child' => updateEdge es c child').length = 1 && lf.isNone) = true := hcond
    rw [if_neg hcond']
    simp only []
    obtain ⟨pre, post, hsplit, hupd, hdelE⟩ := getEdge_split c es child hg
    have heslen : es.length = pre.length + post.length + 1 := by
      rw [hsplit]
      simp
      omega
    cases rep with
    | none =>
      have hcondN : ¬ ((pre ++ post).length = 1 && lf.isNone) = true := by
        rw [← hdelE]
        exact hcond'
      simp only [Node.leaf_mk, Node.edges_mk, hdelE]
      constructor
      · rw [hsplit] at hc
        simp only [List.all_append, List.all_cons, Bool.and_eq_true] at hc ⊢
        exact ⟨hc.1, hc.2.2⟩
      · intro hown
        cases hlf : lf with
        | some l => simp
        | none =>
          subst hlf
          rcases hown with h | h
          · simp at h
          · refine Or.inr ?_
            have hne1 : ¬ (pre ++ post).length = 1 := by
              intro h1
              exact hcondN (by simp [h1])
            simp only [List.length_append] at hne1 ⊢
            omega
    | some r' =>
      have hchildS : sortedNode child = true := by
        have := List.all_eq_true.mp hsall _ (getEdge_mem hg)
        simpa using this
      have hchildC : compressedNode child = true := by
        have := List.all_eq_true.mp hc _ (getEdge_mem hg)
        simpa using this
      have ihc := ih hchildS (compressedNode_iff.mp hchildC).2
      rw [hdel] at ihc
      simp only [] at ihc
      simp only [Node.leaf_mk, Node.edges_mk, hupd r']
      constructor
      · rw [hsplit] at hc
        simp only [List.all_append, List.all_cons, Bool.and_eq_true] at hc ⊢
        exact ⟨hc.1, ihc, hc.2.2⟩
      · intro hown
        rcases hown with h | h
        · exact Or.inl h
        · refine Or.inr ?_
          simp only [List.length_append, List.length_cons] at h ⊢
          omega
  | case9 lf p es c rest child hg hpre child' v hdel ih =>
    intro hs hc
    rw [deleteAux_cons_rec hg hpre, hdel]
    simp only []
    rw [sortedNode_mk_iff] at hs
    obtain ⟨ho, hsall⟩ := hs
    simp only [Node.edges_mk] at hc
    have hchildS : sortedNode child = true := by
      have := List.all_eq_true.mp hsall _ (getEdge_mem hg)
      simpa using this
    have hchildC : compressedNode child = true := by
      have := List.all_eq_true.mp hc _ (getEdge_mem hg)
      simpa using this
    have ihc := ih hchildS (compressedNode_iff.mp hchildC).2
    rw [hdel] at ihc
    simp only [] at ihc
    have hchild'C : compressedNode child' = true :=
      compressedNode_iff.mpr ⟨ihc.2 (compressedNode_iff.mp hchildC).1, ihc.1⟩
    obtain ⟨pre, post, hsplit, hupd, hdelE⟩ := getEdge_split c es child hg
    have heslen : es.length = pre.length + post.length + 1 := by
      rw [hsplit]
      simp
      omega
    simp only [Node.leaf_mk, Node.edges_mk, hupd child']
    constructor
    · rw [hsplit] at hc
      simp only [List.all_append, List.all_cons, Bool.and_eq_true] at hc ⊢
      exact ⟨hc.1, hchild'C, hc.2.2⟩
    · intro hown
      rcases hown with h | h
      · exact Or.inl h
      · refine Or.inr ?_
        simp only [List.length_append, List.length_cons] at h ⊢
        omega
  | case10 lf p es c rest child hg hpre =>
    intro hs hc
    rw [deleteAux_cons_nopre hg hpre]
    simp only []

/-- DeletePrefix reports exactly the number of stored entries it
removes. -/
theorem deletePrefixAux_entries_length {α : Type} :
    ∀ (n : Node α) (search : List Char),
    (match deletePrefixAux n search with
     | .zero => True
     | .final rep cnt => ((entries rep).length : Int) + cnt = (entries n).length
     | .done rep cnt => ((entries rep).length : Int) + cnt = (entries n).length) := by
  intro n search
  induction n, search using deletePrefixAux.induct with
  | case1 lf p es =>
    rw [deletePrefixAux_nil]
    simp only []
    rw [entries_mk_eq]
    simp [entriesList_nil_eq]
  | case2 lf p es c rest hg =>
    rw [deletePrefixAux_cons_none hg]
    simp only []
  | case3 lf p es c rest child hg hcond =>
    rw [deletePrefixAux_cons_miss hg hcond]
    simp only []
  | case4 lf p es c rest child hg hcond newPfx hdel ih =>
    rw [deletePrefixAux_cons_rec hg hcond]
    have hdel' : deletePrefixAux child
        (if child.pfx.length > (c :: rest).length then ([] : List Char)
         else (c :: rest).drop child.pfx.length) = DelPfxStep.zero := hdel
    rw [hdel']
    simp only []
  | case5 lf p es c rest child hg hcond newPfx rep cnt hdel es2 hcond2 ih =>
    rw [deletePrefixAux_cons_rec hg hcond]
    have hdel' : deletePrefixAux child
        (if child.pfx.length > (c :: rest).length then ([] : List Char)
         else (c :: rest).drop child.pfx.length) = DelPfxStep.final rep cnt := hdel
    rw [hdel']
    simp only []
    rw [hdel] at ih
    simp only [] at ih
    have hcond2' : ((updateEdge es c rep).length = 1 && lf.isNone) = true := hcond2
    simp only [Bool.and_eq_true, decide_eq_true_eq, Option.isNone_iff_eq_none] at hcond2'
    obtain ⟨hlen1, hlfnone⟩ := hcond2'
    subst hlfnone
    rw [if_pos (by simp [hlen1])]
    simp only []
    obtain ⟨e0, hE⟩ := List.length_eq_one.mp hlen1
    obtain ⟨d, m⟩ := e0
    rw [hE, mergeChild_single]
    rw [entries_pfx_irrel _ _ m.pfx, Node.eta, entries_mk_eq]
    have h1 := entriesList_updateEdge_length c rep es child hg
    rw [hE, entriesList_cons_eq, entriesList_nil_eq] at h1
    simp only [List.length_append, List.length_nil] at h1
    simp only [List.nil_append]
    omega
  | case6 lf p es c rest child hg hcond newPfx rep cnt hdel es2 hcond2 ih =>
    rw [deletePrefixAux_cons_rec hg hcond]
    have hdel' : deletePrefixAux child
        (if child.pfx.length > (c :: rest).length then ([] : List Char)
         else (c :: rest).drop child.pfx.length) = DelPfxStep.final rep cnt := hdel
    rw [hdel']
    simp only []
    rw [hdel] at ih
    simp only [] at ih
    have hcond2' : ¬ ((updateEdge es c rep).length = 1 && lf.isNone) = true := hcond2
    rw [if_neg hcond2']
    simp only []
    rw [entries_mk_eq, entries_mk_eq]
    have h1 := entriesList_updateEdge_length c rep es child hg
    simp only [List.length_append]
    omega
  | case7 lf p es c rest child hg hcond newPfx rep cnt hdel ih =>
    rw [deletePrefixAux_cons_rec hg hcond]
    have hdel' : deletePrefixAux child
        (if child.pfx.length > (c :: rest).length then ([] : List Char)
         else (c :: rest).drop child.pfx.length) = DelPfxStep.done rep cnt := hdel
    rw [hdel']
    simp only []
    rw [hdel] at ih
    simp only [] at ih
    rw [entries_mk_eq, entries_mk_eq]
    have h1 := entriesList_updateEdge_length c rep es child hg
    simp only [List.length_append]
    omega

/-- A successful DeletePrefix keeps the structural invariants: the
rebuilt subtree is sorted and path-consistent, possibly with a prefix
extended by a merge. -/
theorem deletePrefixAux_wf {α : Type} :
    ∀ (n : Node α) (search : List Char), ∀ acc : List Char,
    sortedNode n = true → pathsOk acc n = true →
    (match deletePrefixAux n search with
     | .zero => True
     | .final rep _ => ∃ ext, rep.pfx = n.pfx ++ ext ∧
         sortedNode rep = true ∧ pathsOk (acc ++ ext) rep = true
     | .done rep _ => ∃ ext, rep.pfx = n.pfx ++ ext ∧
         sortedNode rep = true ∧ pathsOk (acc ++ ext) rep = true) := by
  intro n search
  induction n, search using deletePrefixAux.induct with
  | case1 lf p es =>
    intro acc hs hp
    rw [deletePrefixAux_nil]
    simp only []
    refine ⟨[], by simp, ?_, ?_⟩
    · rw [sortedNode_mk_iff]
      simp
    · rw [List.append_nil, pathsOk_mk_iff]
      simp
  | case2 lf p es c rest hg =>
    intro acc hs hp
    rw [deletePrefixAux_cons_none hg]
    simp only []
  | case3 lf p es c rest child hg hcond =>
    intro acc hs hp
    rw [deletePrefixAux_cons_miss hg hcond]
    simp only []
  | case4 lf p es c rest child hg hcond newPfx hdel ih =>
    intro acc hs hp
    rw [deletePrefixAux_cons_rec hg hcond]
    have hdel' : deletePrefixAux child
        (if child.pfx.length > (c :: rest).length then ([] : List Char)
         else (c :: rest).drop child.pfx.length) = DelPfxStep.zero := hdel
    rw [hdel']
    simp only []
  | case5 lf p es c rest child hg hcond newPfx rep cnt hdel es2 hcond2 ih =>
    intro acc hs hp
    rw [deletePrefixAux_cons_rec hg hcond]
    have hdel' : deletePrefixAux child
        (if child.pfx.length > (c :: rest).length then ([] : List Char)
         else (c :: rest).drop child.pfx.length) = DelPfxStep.final rep cnt := hdel
    rw [hdel']
    simp only []
    rw [sortedNode_mk_iff] at hs
    obtain ⟨ho, hsall⟩ := hs
    rw [pathsOk_mk_iff] at hp
    obtain ⟨hleaf, hall⟩ := hp
    have hcond2' : ((updateEdge es c rep).length = 1 && lf.isNone) = true := hcond2
    simp only [Bool.and_eq_true, decide_eq_true_eq, Option.isNone_iff_eq_none] at hcond2'
    obtain ⟨hlen1, hlfnone⟩ := hcond2'
    subst hlfnone
    rw [if_pos (by simp [hlen1])]
    simp only []
    obtain ⟨e0, hE⟩ := List.length_eq_one.mp hlen1
    obtain ⟨d, m⟩ := e0
    rw [hE, mergeChild_single]
    obtain ⟨pre, post, hsplit, hupd, hdelE⟩ := getEdge_split c es child hg
    rw [hupd rep] at hE
    have hpre0 : pre = [] ∧ post = [] := by
      have hl := congrArg List.length hE
      simp at hl
      have hlp : pre.length = 0 ∧ post.length = 0 := by omega
      exact ⟨List.length_eq_zero.mp hlp.1, List.length_eq_zero.mp hlp.2⟩
    obtain ⟨hpreE, hpostE⟩ := hpre0
    subst hpreE
    subst hpostE
    simp only [List.nil_append, List.cons.injEq, Prod.mk.injEq, and_true] at hE
    obtain ⟨hdc, hrm⟩ := hE
    subst hdc
    subst hrm
    have hedgeC : edgeOk acc (c, child) = true := by
      have := List.all_eq_true.mp hall _ (getEdge_mem hg)
      simpa using this
    have hchildS : sortedNode child = true := by
      have := List.all_eq_true.mp hsall _ (getEdge_mem hg)
      simpa using this
    unfold edgeOk at hedgeC
    simp only [Bool.and_eq_true] at hedgeC
    have ihc := ih (acc ++ child.pfx) hchildS hedgeC.2
    rw [hdel] at ihc
    simp only [] at ihc
    obtain ⟨ext', hpfx', hsort', hpaths'⟩ := ihc
    refine ⟨rep.pfx, by simp, ?_, ?_⟩
    · rw [sortedNode_pfx_irrel _ rep.leaf _ rep.pfx, Node.eta]
      exact hsort'
    · rw [pathsOk_pfx_irrel _ rep.leaf _ rep.pfx, Node.eta]
      rw [hpfx', ← List.append_assoc]
      exact hpaths'
  | case6 lf p es c rest child hg hcond newPfx rep cnt hdel es2 hcond2 ih =>
    intro acc hs hp
    rw [deletePrefixAux_cons_rec hg hcond]
    have hdel' : deletePrefixAux child
        (if child.pfx.length > (c :: rest).length then ([] : List Char)
         else (c :: rest).drop child.pfx.length) = DelPfxStep.final rep cnt := hdel
    rw [hdel']
    simp only []
    have hcond2' : ¬ ((updateEdge es c rep).length = 1 && lf.isNone) = true := hcond2
    rw [if_neg hcond2']
    simp only []
    rw [sortedNode_mk_iff] at hs
    obtain ⟨ho, hsall⟩ := hs
    rw [pathsOk_mk_iff] at hp
    obtain ⟨hleaf, hall⟩ := hp
    have hedgeC : edgeOk acc (c, child) = true := by
      have := List.all_eq_true.mp hall _ (getEdge_mem hg)
      simpa using this
    have hchildS : sortedNode child = true := by
      have := List.all_eq_true.mp hsall _ (getEdge_mem hg)
      simpa using this
    unfold edgeOk at hedgeC
    simp only [Bool.and_eq_true] at hedgeC
    obtain ⟨hheadC, hpathC⟩ := hedgeC
    have ihc := ih (acc ++ child.pfx) hchildS hpathC
    rw [hdel] at ihc
    simp only [] at ihc
    obtain ⟨ext', hpfx', hsort', hpaths'⟩ := ihc
    obtain ⟨pre, post, hsplit, hupd, hdelE⟩ := getEdge_split c es child hg
    refine ⟨[], by simp, ?_, ?_⟩
    · rw [hupd rep, sortedNode_mk_iff]
      constructor
      · have hlab : ((pre ++ (c, rep) :: post).map Prod.fst) =
            ((pre ++ (c, child) :: post).map Prod.fst) := by simp
        rw [hlab]
        exact hsplit ▸ ho
      · rw [hsplit] at hsall
        simp only [List.all_append, List.all_cons, Bool.and_eq_true] at hsall ⊢
        exact ⟨hsall.1, hsort', hsall.2.2⟩
    · rw [List.append_nil, hupd rep, pathsOk_mk_iff]
      refine ⟨hleaf, ?_⟩
      rw [hsplit] at hall
      simp only [List.all_append, List.all_cons, Bool.and_eq_true] at hall ⊢
      refine ⟨hall.1, ?_, hall.2.2⟩
      obtain ⟨tl, hctl⟩ : ∃ tl, child.pfx = c :: tl := by
        cases hq : child.pfx with
        | nil => rw [hq] at hheadC; cases hheadC
        | cons u vv =>
          rw [hq] at hheadC
          simp only [beq_iff_eq] at hheadC
          exact ⟨vv, by rw [hheadC]⟩
      unfold edgeOk
      simp only [Bool.and_eq_true]
      constructor
      · rw [hpfx', hctl]
        simp
      · rw [hpfx', ← List.append_assoc]
        exact hpaths'
  | case7 lf p es c rest child hg hcond newPfx rep cnt hdel ih =>
    intro acc hs hp
    rw [deletePrefixAux_cons_rec hg hcond]
    have hdel' : deletePrefixAux child
        (if child.pfx.length > (c :: rest).length then ([] : List Char)
         else (c :: rest).drop child.pfx.length) = DelPfxStep.done rep cnt := hdel
    rw [hdel']
    simp only []
    rw [sortedNode_mk_iff] at hs
    obtain ⟨ho, hsall⟩ := hs
    rw [pathsOk_mk_iff] at hp
    obtain ⟨hleaf, hall⟩ := hp
    have hedgeC : edgeOk acc (c, child) = true := by
      have := List.all_eq_true.mp hall _ (getEdge_mem hg)
      simpa using this
    have hchildS : sortedNode child = true := by
      have := List.all_eq_true.mp hsall _ (getEdge_mem hg)
      simpa using this
    unfold edgeOk at hedgeC
    simp only [Bool.and_eq_true] at hedgeC
    obtain ⟨hheadC, hpathC⟩ := hedgeC
    have ihc := ih (acc ++ child.pfx) hchildS hpathC
    rw [hdel] at ihc
    simp only [] at ihc
    obtain ⟨ext', hpfx', hsort', hpaths'⟩ := ihc
    obtain ⟨pre, post, hsplit, hupd, hdelE⟩ := getEdge_split c es child hg
    refine ⟨[], by simp, ?_, ?_⟩
    · rw [hupd rep, sortedNode_mk_iff]
      constructor
      · have hlab : ((pre ++ (c, rep) :: post).map Prod.fst) =
            ((pre ++ (c, child) :: post).map Prod.fst) := by simp
        rw [hlab]
        exact hsplit ▸ ho
      · rw [hsplit] at hsall
        simp only [List.all_append, List.all_cons, Bool.and_eq_true] at hsall ⊢
        exact ⟨hsall.1, hsort', hsall.2.2⟩
    · rw [List.append_nil, hupd rep, pathsOk_mk_iff]
      refine ⟨hleaf, ?_⟩
      rw [hsplit] at hall
      simp only [List.all_append, List.all_cons, Bool.and_eq_true] at hall ⊢
      refine ⟨hall.1, ?_, hall.2.2⟩
      obtain ⟨tl, hctl⟩ : ∃ tl, child.pfx = c :: tl := by
        cases hq : child.pfx with
        | nil => rw [hq] at hheadC; cases hheadC
        | cons u vv =>
          rw [hq] at hheadC
          simp only [beq_iff_eq] at hheadC
          exact ⟨vv, by rw [hheadC]⟩
      unfold edgeOk
      simp only [Bool.and_eq_true]
      constructor
      · rw [hpfx', hctl]
        simp
      · rw [hpfx', ← List.append_assoc]
        exact hpaths'

/-!  Reachable trees: everything producible by the public mutating API
from a fresh tree. -/

/-- Folding `Insert` over a list of key/value pairs. -/
def Tree.insertMany {α : Type} (t : Tree α) : List (List Char × α) → Tree α
  | [] => t
  | (k, v) :: rest => Tree.insertMany (t.insert k v).1 rest

/-- Trees reachable from `New()` by the public mutating operations. -/
inductive Reachable {α : Type} : Tree α → Prop where
  | new : Reachable Tree.new
  | insert (t : Tree α) (k : List Char) (v : α) :
      Reachable t → Reachable (t.insert k v).1
  | delete (t : Tree α) (k : List Char) :
      Reachable t → Reachable (t.delete k).1
  | deletePrefix (t : Tree α) (p : List Char) :
      Reachable t → Reachable (t.deletePrefix p).1

/-- Trees reachable from `New()` by Insert and Delete only. -/
inductive ReachableID {α : Type} : Tree α → Prop where
  | new : ReachableID Tree.new
  | insert (t : Tree α) (k : List Char) (v : α) :
      ReachableID t → ReachableID (t.insert k v).1
  | delete (t : Tree α) (k : List Char) :
      ReachableID t → ReachableID (t.delete k).1

theorem reachableID_to_reachable {α : Type} {t : Tree α} (h : ReachableID t) :
    Reachable t := by
  induction h with
  | new => exact Reachable.new
  | insert t k v _ ih => exact Reachable.insert t k v ih
  | delete t k _ ih => exact Reachable.delete t k ih

/-- The size counter tracks the stored entries through every public
mutation, with no structural assumption needed. -/
theorem reachable_size {α : Type} {t : Tree α} (h : Reachable t) :
    t.size = ((entries t.root).length : Int) := by
  induction h with
  | new =>
    rw [Tree.new]
    simp only []
    rw [entries_mk_eq]
    simp [entriesList_nil_eq]
  | insert t k v _ ih =>
    rw [Tree.insert]
    simp only []
    have := insertAux_entries_length k v t.root k
    omega
  | delete t k _ ih =>
    obtain ⟨⟨lf, p, es⟩, sz⟩ := t
    simp only [Node.leaf_mk, Node.edges_mk] at ih ⊢
    cases k with
    | nil =>
      simp only [Tree.delete]
      cases lf with
      | none => simpa using ih
      | some l =>
        simp only [Node.leaf_mk, Node.pfx_mk, Node.edges_mk]
        rw [entries_mk_eq] at ih ⊢
        simp only [List.length_append, List.length_cons, List.length_nil,
          List.nil_append] at ih ⊢
        omega
    | cons c rest =>
      simp only [Tree.delete, Node.leaf_mk, Node.pfx_mk, Node.edges_mk]
      cases hg : getEdge es c with
      | none => simpa using ih
      | some child =>
        simp only []
        by_cases hpre : child.pfx.isPrefixOf (c :: rest) = true
        · simp only [hpre, if_true]
          have hcnt := deleteAux_entries_length child ((c :: rest).drop child.pfx.length)
          cases hdel : deleteAux child ((c :: rest).drop child.pfx.length) with
          | notFound => simpa using ih
          | final rep v =>
            rw [hdel] at hcnt
            cases rep with
            | none =>
              simp only [] at hcnt ⊢
              have h1 := entriesList_delEdge_length c es child hg
              rw [entries_mk_eq] at ih ⊢
              simp only [List.length_append] at ih ⊢
              omega
            | some r =>
              simp only [] at hcnt ⊢
              have h1 := entriesList_updateEdge_length c r es child hg
              rw [entries_mk_eq] at ih ⊢
              simp only [List.length_append] at ih ⊢
              omega
          | done r v =>
            rw [hdel] at hcnt
            simp only [] at hcnt ⊢
            have h1 := entriesList_updateEdge_length c r es child hg
            rw [entries_mk_eq] at ih ⊢
            simp only [List.length_append] at ih ⊢
            omega
        · simp only [hpre, if_false]
          simpa using ih
  | deletePrefix t q _ ih =>
    obtain ⟨⟨lf, p, es⟩, sz⟩ := t
    simp only [Node.leaf_mk, Node.edges_mk] at ih ⊢
    cases q with
    | nil =>
      simp only [Tree.deletePrefix]
      rw [recursiveWalk_count]
      simp only [Node.pfx_mk]
      rw [show entries (Node.mk none p ([] : List (Char × Node α))) = [] by
        rw [entries_mk_eq]; simp [entriesList_nil_eq]]
      simp only [List.length_nil]
      omega
    | cons c rest =>
      simp only [Tree.deletePrefix, Node.leaf_mk, Node.pfx_mk, Node.edges_mk]
      cases hg : getEdge es c with
      | none => simpa using ih
      | some child =>
        simp only []
        by_cases hcond :
            (!child.pfx.isPrefixOf (c :: rest) && !(c :: rest).isPrefixOf child.pfx) = true
        · simp only [hcond, if_true]
          simpa using ih
        · rw [if_neg hcond]
          have hcnt := deletePrefixAux_entries_length child
            (if child.pfx.length > (c :: rest).length then ([] : List Char)
             else (c :: rest).drop child.pfx.length)
          cases hdel : deletePrefixAux child
              (if child.pfx.length > (c :: rest).length then ([] : List Char)
               else (c :: rest).drop child.pfx.length) with
          | zero => simpa using ih
          | final rep cnt =>
            rw [hdel] at hcnt
            simp only [] at hcnt ⊢
            have h1 := entriesList_updateEdge_length c rep es child hg
            rw [entries_mk_eq] at ih ⊢
            simp only [List.length_append] at ih ⊢
            omega
          | done rep cnt =>
            rw [hdel] at hcnt
            simp only [] at hcnt ⊢
            have h1 := entriesList_updateEdge_length c rep es child hg
            rw [entries_mk_eq] at ih ⊢
            simp only [List.length_append] at ih ⊢
            omega

/-- Insert preserves tree well-formedness. -/
theorem Tree.insert_wf {α : Type} (t : Tree α) (k : List Char) (v : α)
    (h : t.wf) : ((t.insert k v).1).wf := by
  obtain ⟨hpfx, hsor, hpat⟩ := h
  refine ⟨?_, ?_, ?_⟩
  · rw [Tree.insert]
    simp only []
    rw [insertAux_pfx]
    exact hpfx
  · rw [Tree.insert]
    simp only []
    exact insertAux_sorted k v t.root k hsor
  · rw [Tree.insert]
    simp only []
    exact insertAux_pathsOk k v t.root k [] hsor hpat (by simp)

/-- Delete preserves tree well-formedness. -/
theorem Tree.delete_wf {α : Type} (t : Tree α) (k : List Char)
    (h : t.wf) : ((t.delete k).1).wf := by
  obtain ⟨hpfx, hsor, hpat⟩ := h
  obtain ⟨⟨lf, p, es⟩, sz⟩ := t
  simp only [Node.pfx_mk] at hpfx
  subst hpfx
  cases k with
  | nil =>
    simp only [Tree.delete]
    cases lf with
    | none => exact ⟨rfl, hsor, hpat⟩
    | some l =>
      simp only [Node.leaf_mk, Node.pfx_mk, Node.edges_mk]
      refine ⟨rfl, ?_, ?_⟩
      · rw [sortedNode_pfx_irrel _ (some l) _ []]
        exact hsor
      · rw [pathsOk_mk_iff] at hpat ⊢
        exact ⟨by simp, hpat.2⟩
  | cons c rest =>
    simp only [Tree.delete, Node.leaf_mk, Node.pfx_mk, Node.edges_mk]
    cases hg : getEdge es c with
    | none => exact ⟨rfl, hsor, hpat⟩
    | some child =>
      simp only []
      rw [sortedNode_mk_iff] at hsor
      obtain ⟨ho, hsall⟩ := hsor
      rw [pathsOk_mk_iff] at hpat
      obtain ⟨hleaf, hall⟩ := hpat
      have hedgeC : edgeOk [] (c, child) = true := by
        have := List.all_eq_true.mp hall _ (getEdge_mem hg)
        simpa using this
      have hchildS : sortedNode child = true := by
        have := List.all_eq_true.mp hsall _ (getEdge_mem hg)
        simpa using this
      unfold edgeOk at hedgeC
      simp only [Bool.and_eq_true] at hedgeC
      obtain ⟨hheadC, hpathC⟩ := hedgeC
      have hsorC : sortedNode (Node.mk lf ([] : List Char) es) = true := by
        rw [sortedNode_mk_iff]
        exact ⟨ho, hsall⟩
      have hpatC : pathsOk [] (Node.mk lf ([] : List Char) es) = true := by
        rw [pathsOk_mk_iff]
        exact ⟨hleaf, hall⟩
      by_cases hpre : child.pfx.isPrefixOf (c :: rest) = true
      · simp only [hpre, if_true]
        have hwfc := deleteAux_wf child ((c :: rest).drop child.pfx.length)
          ([] ++ child.pfx) hchildS hpathC
        cases hdel : deleteAux child ((c :: rest).drop child.pfx.length) with
        | notFound => exact ⟨rfl, hsorC, hpatC⟩
        | final rep v =>
          rw [hdel] at hwfc
          obtain ⟨pre, post, hsplit, hupd, hdelE⟩ := getEdge_split c es child hg
          cases rep with
          | none =>
            simp only [hdelE]
            refine ⟨rfl, ?_, ?_⟩
            · rw [sortedNode_mk_iff]
              constructor
              · exact pairwise_labels_drop_mid (hsplit ▸ ho)
              · rw [hsplit] at hsall
                simp only [List.all_append, List.all_cons, Bool.and_eq_true] at hsall ⊢
                exact ⟨hsall.1, hsall.2.2⟩
            · rw [pathsOk_mk_iff]
              refine ⟨hleaf, ?_⟩
              rw [hsplit] at hall
              simp only [List.all_append, List.all_cons, Bool.and_eq_true] at hall ⊢
              exact ⟨hall.1, hall.2.2⟩
          | some r =>
            simp only [] at hwfc
            obtain ⟨ext', hpfx', hsort', hpaths'⟩ := hwfc
            simp only [hupd r]
            refine ⟨rfl, ?_, ?_⟩
            · rw [sortedNode_mk_iff]
              constructor
              · have hlab : ((pre ++ (c, r) :: post).map Prod.fst) =
                    ((pre ++ (c, child) :: post).map Prod.fst) := by simp
                rw [hlab]
                exact hsplit ▸ ho
              · rw [hsplit] at hsall
                simp only [List.all_append, List.all_cons, Bool.and_eq_true] at hsall ⊢
                exact ⟨hsall.1, hsort', hsall.2.2⟩
            · rw [pathsOk_mk_iff]
              refine ⟨hleaf, ?_⟩
              rw [hsplit] at hall
              simp only [List.all_append, List.all_cons, Bool.and_eq_true] at hall ⊢
              refine ⟨hall.1, ?_, hall.2.2⟩
              obtain ⟨tl, hctl⟩ : ∃ tl, child.pfx = c :: tl := by
                cases hq : child.pfx with
                | nil => rw [hq] at hheadC; cases hheadC
                | cons u vv =>
                  rw [hq] at hheadC
                  simp only [beq_iff_eq] at hheadC
                  exact ⟨vv, by rw [hheadC]⟩
              unfold edgeOk
              simp only [Bool.and_eq_true]
              constructor
              · rw [hpfx', hctl]
                simp
              · rw [hpfx']
                simpa using hpaths'
        | done r v =>
          rw [hdel] at hwfc
          simp only [] at hwfc
          obtain ⟨ext', hpfx', hsort', hpaths'⟩ := hwfc
          obtain ⟨pre, post, hsplit, hupd, hdelE⟩ := getEdge_split c es child hg
          simp only [hupd r]
          refine ⟨rfl, ?_, ?_⟩
          · rw [sortedNode_mk_iff]
            constructor
            · have hlab : ((pre ++ (c, r) :: post).map Prod.fst) =
                  ((pre ++ (c, child) :: post).map Prod.fst) := by simp
              rw [hlab]
              exact hsplit ▸ ho
            · rw [hsplit] at hsall
              simp only [List.all_append, List.all_cons, Bool.and_eq_true] at hsall ⊢
              exact ⟨hsall.1, hsort', hsall.2.2⟩
          · rw [pathsOk_mk_iff]
            refine ⟨hleaf, ?_⟩
            rw [hsplit] at hall
            simp only [List.all_append, List.all_cons, Bool.and_eq_true] at hall ⊢
            refine ⟨hall.1, ?_, hall.2.2⟩
            obtain ⟨tl, hctl⟩ : ∃ tl, child.pfx = c :: tl := by
              cases hq : child.pfx with
              | nil => rw [hq] at hheadC; cases hheadC
              | cons u vv =>
                rw [hq] at hheadC
                simp only [beq_iff_eq] at hheadC
                exact ⟨vv, by rw [hheadC]⟩
            unfold edgeOk
            simp only [Bool.and_eq_true]
            constructor
            · rw [hpfx', hctl]
              simp
            · rw [hpfx']
              simpa using hpaths'
      · simp only [hpre, if_false]
        exact ⟨rfl, hsorC, hpatC⟩

theorem tree_new_wf {α : Type} : (Tree.new : Tree α).wf := by
  refine ⟨rfl, ?_, ?_⟩
  · rw [Tree.new]
    simp only []
    rw [sortedNode_mk_iff]
    simp
  · rw [Tree.new]
    simp only []
    rw [pathsOk_mk_iff]
    simp

theorem reachableID_wf {α : Type} {t : Tree α} (h : ReachableID t) : t.wf := by
  induction h with
  | new => exact tree_new_wf
  | insert t k v _ ih => exact Tree.insert_wf t k v ih
  | delete t k _ ih => exact Tree.delete_wf t k ih

/-- Under Insert and Delete only, every non-root node keeps a stored
entry or at least two children. -/
theorem reachableID_compressed {α : Type} {t : Tree α} (h : ReachableID t) :
    (t.root.edges.all (fun e => compressedNode e.2)) = true := by
  induction h with
  | new =>
    rw [Tree.new]
    simp
  | insert t k v ht ih =>
    have hwf := reachableID_wf ht
    rw [Tree.insert]
    simp only []
    exact (insertAux_compressed k v t.root k hwf.2.1 ih).1
  | delete t k ht ih =>
    have hwf := reachableID_wf ht
    obtain ⟨hpfx, hsor, hpat⟩ := hwf
    obtain ⟨⟨lf, p, es⟩, sz⟩ := t
    simp only [Node.edges_mk] at ih ⊢
    rw [sortedNode_mk_iff] at hsor
    obtain ⟨ho, hsall⟩ := hsor
    cases k with
    | nil =>
      simp only [Tree.delete]
      cases lf with
      | none => simpa using ih
      | some l => simpa using ih
    | cons c rest =>
      simp only [Tree.delete, Node.leaf_mk, Node.pfx_mk, Node.edges_mk]
      cases hg : getEdge es c with
      | none => simpa using ih
      | some child =>
        simp only []
        have hchildS : sortedNode child = true := by
          have := List.all_eq_true.mp hsall _ (getEdge_mem hg)
          simpa using this
        have hchildC : compressedNode child = true := by
          have := List.all_eq_true.mp ih _ (getEdge_mem hg)
          simpa using this
        by_cases hpre : child.pfx.isPrefixOf (c :: rest) = true
        · simp only [hpre, if_true]
          have hcp := deleteAux_compressed child ((c :: rest).drop child.pfx.length)
            hchildS (compressedNode_iff.mp hchildC).2
          cases hdel : deleteAux child ((c :: rest).drop child.pfx.length) with
          | notFound => simpa using ih
          | final rep v =>
            rw [hdel] at hcp
            obtain ⟨pre, post, hsplit, hupd, hdelE⟩ := getEdge_split c es child hg
            cases rep with
            | none =>
              simp only [hdelE, Node.edges_mk]
              rw [hsplit] at ih
              simp only [List.all_append, List.all_cons, Bool.and_eq_true] at ih ⊢
              exact ⟨ih.1, ih.2.2⟩
            | some r =>
              simp only [] at hcp
              simp only [hupd r, Node.edges_mk]
              rw [hsplit] at ih
              simp only [List.all_append, List.all_cons, Bool.and_eq_true] at ih ⊢
              exact ⟨ih.1, hcp, ih.2.2⟩
          | done r v =>
            rw [hdel] at hcp
            simp only [] at hcp
            have hrC : compressedNode r = true :=
              compressedNode_iff.mpr ⟨hcp.2 (compressedNode_iff.mp hchildC).1, hcp.1⟩
            obtain ⟨pre, post, hsplit, hupd, hdelE⟩ := getEdge_split c es child hg
            simp only [hupd r, Node.edges_mk]
            rw [hsplit] at ih
            simp only [List.all_append, List.all_cons, Bool.and_eq_true] at ih ⊢
            exact ⟨ih.1, hrC, ih.2.2⟩
        · simp only [hpre, if_false]
          simpa using ih

/-- C1 (amended): after any sequence of Insert and Delete calls starting
from a new tree, every non-root node either has a stored entry or has at
least two children (Insert's node splits and Delete's eager merges keep
the tree compressed).  DeletePrefix is excluded: it detaches nothing
when it clears a node, so it can leave an entry-less, childless node
attached to its parent, and later inserts below such a node can create
an entry-less one-child node (see the counterexample). -/
theorem c1_insert_delete_compressed {α : Type} (t : Tree α)
    (h : ReachableID t) : compressedEdges t.root.edges = true := by
  rw [compressedEdges_eq_all]
  exact reachableID_compressed h

/-- Witness for the amended C1 at a concrete Insert/Delete sequence. -/
theorem c1_insert_delete_compressed_witness :
    compressedEdges ((((Tree.new : Tree Nat).insert ['a'] 0).1.delete ['z']).1.root.edges)
      = true :=
  c1_insert_delete_compressed _
    (ReachableID.delete _ ['z'] (ReachableID.insert _ ['a'] 0 ReachableID.new))

/-- C1 counterexample: on the tree holding "ab" and "ac",
DeletePrefix("ab") clears the node for "ab" in place, leaving a node
with no stored entry and no children attached under the tree's "a"
node — the compression invariant of the original claim fails for a
sequence that includes DeletePrefix. -/
theorem c1_counterexample :
    compressedEdges
      (((((Tree.new : Tree Nat).insert ['a', 'b'] 0).1.insert ['a', 'c'] 1).1.deletePrefix
          ['a', 'b']).1.root.edges) = false := by
  simp +decide [Tree.new, Tree.insert, Tree.deletePrefix, insertAux, insertAux_cons,
    deletePrefixAux, deletePrefixAux_cons, getAux, getAux_cons, getEdge, addEdge,
    updateEdge, delEdge, longestPrefixLen, mergeChild, List.isPrefixOf, recursiveWalk,
    recursiveWalkList, compressedEdges, compressedNode, entries, entriesList]

theorem insertMany_reachable {α : Type} :
    ∀ (ps : List (List Char × α)) (t : Tree α), Reachable t →
    Reachable (Tree.insertMany t ps)
  | [], _, h => h
  | (k, v) :: rest, t, h => insertMany_reachable rest _ (Reachable.insert t k v h)

theorem insertMany_wf {α : Type} :
    ∀ (ps : List (List Char × α)) (t : Tree α), t.wf → (Tree.insertMany t ps).wf
  | [], _, h => h
  | (k, v) :: rest, t, h => insertMany_wf rest _ (Tree.insert_wf t k v h)

theorem insertMany_keys {α : Type} :
    ∀ (ps : List (List Char × α)) (t : Tree α), t.wf →
    ∀ k : List Char, (k ∈ (entries (Tree.insertMany t ps).root).map Prod.fst ↔
      k ∈ ps.map Prod.fst ∨ k ∈ (entries t.root).map Prod.fst)
  | [], t, h, k => by
    simp only [List.map_nil, List.not_mem_nil, false_or]
    rw [show Tree.insertMany t [] = t from rfl]
  | (k0, v0) :: rest, t, h, k => by
    have hih := insertMany_keys rest (t.insert k0 v0).1 (Tree.insert_wf t k0 v0 h) k
    have hone := insertAux_keys k0 v0 t.root k0 [] h.2.1 h.2.2 (by simp) k
    rw [show Tree.insertMany t ((k0, v0) :: rest) =
      Tree.insertMany (t.insert k0 v0).1 rest from rfl]
    rw [hih]
    rw [show (t.insert k0 v0).1.root = (insertAux k0 v0 t.root k0).node from rfl]
    rw [hone]
    simp only [List.map_cons, List.mem_cons]
    tauto

theorem wf_keys_nodup {α : Type} (t : Tree α) (h : t.wf) :
    ((entries t.root).map Prod.fst).Nodup := by
  have hp := entries_sorted.1 t.root [] h.2.1 h.2.2
  have hm : ((entries t.root).map Prod.fst).Pairwise (fun a b => keyLt a b = true) :=
    List.pairwise_map.mpr hp
  exact hm.imp (fun hab => keyLt_ne hab)

theorem entries_new_nil {α : Type} : entries ((Tree.new : Tree α).root) = [] := by
  rw [Tree.new]
  simp only []
  rw [entries_mk_eq]
  simp [entriesList_nil_eq]

/-- C9: after any sequence of Insert calls on a new tree, Len() equals
the number of distinct keys inserted (a duplicate key updates the value
without changing the count); and after any sequence of public mutations
the size counter equals the number of nodes whose stored entry is
present. -/
theorem c9_len_distinct_and_size {α : Type} (ps : List (List Char × α))
    (t : Tree α) (h : Reachable t) :
    (Tree.insertMany Tree.new ps).len = (((ps.map Prod.fst).toFinset.card : Nat) : Int) ∧
    t.size = ((entries t.root).length : Int) := by
  constructor
  · have hr : Reachable (Tree.insertMany (Tree.new : Tree α) ps) :=
      insertMany_reachable ps Tree.new Reachable.new
    have hsz := reachable_size hr
    have hwf : (Tree.insertMany (Tree.new : Tree α) ps).wf :=
      insertMany_wf ps Tree.new tree_new_wf
    have hkeys := insertMany_keys ps Tree.new tree_new_wf
    have hnd : ((entries (Tree.insertMany (Tree.new : Tree α) ps).root).map Prod.fst).Nodup :=
      wf_keys_nodup _ hwf
    have hfin : ((entries (Tree.insertMany (Tree.new : Tree α) ps).root).map Prod.fst).toFinset
        = (ps.map Prod.fst).toFinset := by
      ext x
      simp only [List.mem_toFinset]
      rw [hkeys x, entries_new_nil]
      simp only [List.map_nil, List.not_mem_nil, or_false]
    rw [Tree.len, hsz]
    rw [show (entries (Tree.insertMany (Tree.new : Tree α) ps).root).length =
        ((entries (Tree.insertMany (Tree.new : Tree α) ps).root).map Prod.fst).length by
      rw [List.length_map]]
    rw [← List.toFinset_card_of_nodup hnd, hfin]
  · exact reachable_size h

/-- Witness for C9 at a concrete input: inserting keys "a", "a", "b"
yields Len 2, and the new tree's size matches its entry count. -/
theorem c9_len_distinct_and_size_witness :
    (Tree.insertMany Tree.new [(['a'], 0), (['a'], 1), (['b'], (2 : Nat))]).len = 2 ∧
    (Tree.new : Tree Nat).size = ((entries (Tree.new : Tree Nat).root).length : Int) := by
  have h := c9_len_distinct_and_size [(['a'], 0), (['a'], 1), (['b'], (2 : Nat))]
    Tree.new Reachable.new
  constructor
  · rw [h.1]
    decide
  · exact h.2

/-!  Claim C5: WalkPrefix visits exactly the stored keys extending the
prefix, in pre-order (= ascending key order on a sorted tree). -/

theorem entriesList_filter_skip {α : Type} {es : List (Char × Node α)}
    {acc : List Char} {c : Char} (rest : List Char)
    (hp : es.all (edgeOk acc) = true) (hno : ∀ e ∈ es, ¬ e.1 = c) :
    (entriesList es).filter (fun e => (acc ++ c :: rest).isPrefixOf e.1) = [] := by
  apply List.filter_eq_nil.mpr
  intro kv hkv
  have hpe : pathsOkEdges acc es = true := by
    rw [pathsOkEdges_eq_all]
    exact hp
  obtain ⟨e, he, tl, hpfx, hpre⟩ := entriesList_key_label hpe hkv
  intro hq
  have hceq := prefix_head_eq (List.isPrefixOf_iff_prefix.mp hq) hpre
  exact hno e he hceq.symm

theorem entries_filter_cons {α : Type} {lf : Option (LeafNode α)} {p acc : List Char}
    {es : List (Char × Node α)} (hleaf : ∀ l ∈ lf, l.key = acc)
    (c : Char) (rest : List Char) :
    (entries (Node.mk lf p es)).filter (fun e => (acc ++ c :: rest).isPrefixOf e.1) =
      (entriesList es).filter (fun e => (acc ++ c :: rest).isPrefixOf e.1) := by
  rw [entries_mk_eq, List.filter_append]
  cases lf with
  | none => simp
  | some l =>
    have hk := hleaf l rfl
    have hfalse : ((acc ++ c :: rest).isPrefixOf l.key) = false := by
      rw [Bool.eq_false_iff]
      intro hq
      rw [hk] at hq
      exact not_prefix_strict_of_self (List.isPrefixOf_iff_prefix.mp hq)
    simp [hfalse]

/-- The collecting WalkPrefix visitor records exactly the stored entries
whose key extends the accumulated prefix, never aborting. -/
theorem walkPrefixAux_collect {α : Type} :
    ∀ (n : Node α) (search : List Char) (st : List (List Char × α)),
    ∀ acc : List Char, sortedNode n = true → pathsOk acc n = true →
    walkPrefixAux (fun tr k v => (tr ++ [(k, v)], false)) n search st =
      (st ++ (entries n).filter (fun e => (acc ++ search).isPrefixOf e.1), false) := by
  intro n search st
  induction n, search, st using
      walkPrefixAux.induct (fun tr k v => (tr ++ [(k, v)], false)) with
  | case1 n st =>
    intro acc hs hp
    rw [show walkPrefixAux (fun tr k v => (tr ++ [(k, v)], false)) n [] st =
        recursiveWalk (fun tr k v => (tr ++ [(k, v)], false)) n st from by
      simp only [walkPrefixAux]]
    rw [recursiveWalk_collect]
    simp only [List.append_nil]
    have hfil : (entries n).filter (fun e => acc.isPrefixOf e.1) = entries n := by
      apply List.filter_eq_self.mpr
      intro a ha
      rw [List.isPrefixOf_iff_prefix]
      exact entries_key_extends hp ha
    rw [hfil]
  | case2 lf p es c rest st hg =>
    intro acc hs hp
    rw [walkPrefixAux_cons, hg]
    simp only []
    rw [sortedNode_mk_iff] at hs
    obtain ⟨ho, hsall⟩ := hs
    rw [pathsOk_mk_iff] at hp
    obtain ⟨hleaf, hall⟩ := hp
    have hno : ∀ e ∈ es, ¬ e.1 = c := by
      intro e he hec
      exact (getEdge_none_iff ho).mp hg
        (hec ▸ List.mem_map_of_mem Prod.fst he)
    rw [entries_filter_cons hleaf c rest, entriesList_filter_skip rest hall hno]
    simp
  | case3 lf p es c rest st child hg hpre ih =>
    intro acc hs hp
    rw [sortedNode_mk_iff] at hs
    obtain ⟨ho, hsall⟩ := hs
    rw [pathsOk_mk_iff] at hp
    obtain ⟨hleaf, hall⟩ := hp
    have hedgeC : edgeOk acc (c, child) = true := by
      have := List.all_eq_true.mp hall _ (getEdge_mem hg)
      simpa using this
    have hchildS : sortedNode child = true := by
      have := List.all_eq_true.mp hsall _ (getEdge_mem hg)
      simpa using this
    unfold edgeOk at hedgeC
    simp only [Bool.and_eq_true] at hedgeC
    obtain ⟨hheadC, hchildP⟩ := hedgeC
    have hprefix : child.pfx <+: (c :: rest) := List.isPrefixOf_iff_prefix.mp hpre
    have hdecomp : (acc ++ child.pfx) ++ (c :: rest).drop child.pfx.length =
        acc ++ c :: rest := by
      rw [List.append_assoc]
      congr 1
      obtain ⟨t2, ht⟩ := hprefix
      rw [← ht]
      simp
    rw [walkPrefixAux_cons, hg]
    simp only [hpre, if_true]
    rw [ih (acc ++ child.pfx) hchildS hchildP]
    rw [hdecomp]
    obtain ⟨pre, post, hsplit, hprelt, hpostgt, _, _⟩ := getEdge_decomp ho hg
    rw [hsplit] at hall
    simp only [List.all_append, List.all_cons, Bool.and_eq_true] at hall
    have hprefil := entriesList_filter_skip rest hall.1
      (fun e he => ne_of_lt (hprelt e he))
    have hpostfil := entriesList_filter_skip rest hall.2.2
      (fun e he => ne_of_gt (hpostgt e he))
    rw [entries_filter_cons hleaf c rest, hsplit, entriesList_append,
      entriesList_cons_eq]
    rw [List.filter_append, List.filter_append]
    rw [hprefil, hpostfil]
    simp
  | case4 lf p es c rest st child hg hpre hpre2 =>
    intro acc hs hp
    rw [sortedNode_mk_iff] at hs
    obtain ⟨ho, hsall⟩ := hs
    rw [pathsOk_mk_iff] at hp
    obtain ⟨hleaf, hall⟩ := hp
    have hedgeC : edgeOk acc (c, child) = true := by
      have := List.all_eq_true.mp hall _ (getEdge_mem hg)
      simpa using this
    unfold edgeOk at hedgeC
    simp only [Bool.and_eq_true] at hedgeC
    obtain ⟨hheadC, hchildP⟩ := hedgeC
    rw [walkPrefixAux_cons, hg]
    simp only []
    rw [if_neg hpre, if_pos hpre2]
    rw [recursiveWalk_collect]
    obtain ⟨pre, post, hsplit, hprelt, hpostgt, _, _⟩ := getEdge_decomp ho hg
    rw [hsplit] at hall
    simp only [List.all_append, List.all_cons, Bool.and_eq_true] at hall
    have hprefil := entriesList_filter_skip rest hall.1
      (fun e he => ne_of_lt (hprelt e he))
    have hpostfil := entriesList_filter_skip rest hall.2.2
      (fun e he => ne_of_gt (hpostgt e he))
    have hcfil : (entries child).filter
        (fun e => (acc ++ c :: rest).isPrefixOf e.1) = entries child := by
      apply List.filter_eq_self.mpr
      intro kv hkv
      rw [List.isPrefixOf_iff_prefix]
      have hext : (acc ++ child.pfx) <+: kv.1 := entries_key_extends hchildP hkv
      calc acc ++ c :: rest
          <+: acc ++ child.pfx :=
            (List.prefix_append_right_inj acc).mpr (List.isPrefixOf_iff_prefix.mp hpre2)
        _ <+: kv.1 := hext
    rw [entries_filter_cons hleaf c rest, hsplit, entriesList_append,
      entriesList_cons_eq]
    rw [List.filter_append, List.filter_append]
    rw [hprefil, hpostfil, hcfil]
    simp
  | case5 lf p es c rest st child hg hpre hpre2 =>
    intro acc hs hp
    rw [sortedNode_mk_iff] at hs
    obtain ⟨ho, hsall⟩ := hs
    rw [pathsOk_mk_iff] at hp
    obtain ⟨hleaf, hall⟩ := hp
    have hedgeC : edgeOk acc (c, child) = true := by
      have := List.all_eq_true.mp hall _ (getEdge_mem hg)
      simpa using this
    unfold edgeOk at hedgeC
    simp only [Bool.and_eq_true] at hedgeC
    obtain ⟨hheadC, hchildP⟩ := hedgeC
    rw [walkPrefixAux_cons, hg]
    simp only []
    rw [if_neg hpre, if_neg hpre2]
    obtain ⟨pre, post, hsplit, hprelt, hpostgt, _, _⟩ := getEdge_decomp ho hg
    rw [hsplit] at hall
    simp only [List.all_append, List.all_cons, Bool.and_eq_true] at hall
    have hprefil := entriesList_filter_skip rest hall.1
      (fun e he => ne_of_lt (hprelt e he))
    have hpostfil := entriesList_filter_skip rest hall.2.2
      (fun e he => ne_of_gt (hpostgt e he))
    have hcfil : (entries child).filter
        (fun e => (acc ++ c :: rest).isPrefixOf e.1) = [] := by
      apply List.filter_eq_nil.mpr
      intro kv hkv
      intro hq
      have hext : (acc ++ child.pfx) <+: kv.1 := entries_key_extends hchildP hkv
      rcases List.prefix_or_prefix_of_prefix (List.isPrefixOf_iff_prefix.mp hq) hext with
        h | h
      · have := (List.prefix_append_right_inj acc).mp h
        exact hpre2 (List.isPrefixOf_iff_prefix.mpr this)
      · have := (List.prefix_append_right_inj acc).mp h
        exact hpre (List.isPrefixOf_iff_prefix.mpr this)
    rw [entries_filter_cons hleaf c rest, hsplit, entriesList_append,
      entriesList_cons_eq]
    rw [List.filter_append, List.filter_append]
    rw [hprefil, hpostfil, hcfil]
    simp

/-- C5: on a well-formed tree, WalkPrefix with prefix q visits exactly
the stored keys that have q as a prefix — the visitor's trace is the
filtered entry list — and these keys are pairwise in ascending
lexicographic order by symbol; when the descent mismatches, that
filtered list is empty and nothing is visited. -/
theorem c5_walkPrefix_exact {α : Type} (t : Tree α) (q : List Char) (h : t.wf) :
    t.walkPrefix q (fun tr k v => (tr ++ [(k, v)], false)) [] =
      ((entries t.root).filter (fun e => q.isPrefixOf e.1), false) ∧
    List.Pairwise (fun a b => keyLt a b = true)
      (((entries t.root).filter (fun e => q.isPrefixOf e.1)).map Prod.fst) := by
  obtain ⟨hpfx, hsor, hpat⟩ := h
  constructor
  · rw [Tree.walkPrefix]
    have hcoll := walkPrefixAux_collect t.root q [] [] hsor hpat
    simpa using hcoll
  · have hps := entries_sorted.1 t.root [] hsor hpat
    have hfs : ((entries t.root).filter (fun e => q.isPrefixOf e.1)).Sublist
        (entries t.root) := List.filter_sublist _
    exact List.pairwise_map.mpr (hps.sublist hfs)

/-- Witness for C5 at a concrete input: the tree holding "ab" and "ac",
walked with prefix "a". -/
theorem c5_walkPrefix_exact_witness :
    ((((Tree.new : Tree Nat).insert ['a', 'b'] 0).1.insert ['a', 'c'] 1).1.walkPrefix ['a']
        (fun tr k v => (tr ++ [(k, v)], false)) [] =
      ((entries ((((Tree.new : Tree Nat).insert ['a', 'b'] 0).1.insert
          ['a', 'c'] 1).1).root).filter (fun e => ['a'].isPrefixOf e.1), false)) ∧
    List.Pairwise (fun a b => keyLt a b = true)
      (((entries ((((Tree.new : Tree Nat).insert ['a', 'b'] 0).1.insert
          ['a', 'c'] 1).1).root).filter (fun e => ['a'].isPrefixOf e.1)).map Prod.fst) := by
  have hwf : ((((Tree.new : Tree Nat).insert ['a', 'b'] 0).1.insert ['a', 'c'] 1).1).wf := by
    refine ⟨?_, ?_, ?_⟩ <;>
      simp +decide [Tree.new, Tree.insert, insertAux, insertAux_cons, getEdge, addEdge,
        updateEdge, delEdge, longestPrefixLen, mergeChild, List.isPrefixOf, sortedNode,
        sortedEdges, pathsOk, pathsOkEdges]
  exact c5_walkPrefix_exact _ ['a'] hwf
